import Mathlib

/-!
# selfdrive/modeld/models/driving.cc

A shallow embedding of the decoding code of `driving.cc` and the properties
proved about it.

Conventions of the embedding.

* The arithmetic of the code has two models.  Where a property is about the
  steps, slots, branches and formulas that the code uses (C1, C3 to C16, C18,
  C19), a C `float` is an exact rational `ℚ`.  In `plan_t` a slot that holds a
  non-finite float (the `NAN` fill, an interpolation with a zero denominator)
  is then `none` in an `Option ℚ`, and elsewhere `/` is the division of `ℚ`.
* Where a property is about the values that the rounded operations produce
  (C2, C17, C20, C21), the code is embedded over `FVal`, the values of IEEE 754
  arithmetic: the finite numbers, the two infinities and `NaN`.  Every
  operation is rounded to the format of its C type (`binary32` for `float`,
  `binary64` for `double`), to nearest with ties to even, each operation on
  its own.  The definitions of this model carry the suffix `_f32`; their
  inputs are the values of the floats that the code reads.
* A C array is a `List`; `rd a i` is the read `a[i]`.
* Constants, tables and helpers that `driving.cc` takes from its headers
  (`TRAJECTORY_SIZE`, `X_IDXS`, `T_IDXS`, `DESIRE_LEN`, `HISTORY_BUFFER_LEN`,
  `DISENGAGE_LEN`, `MODEL_FREQ`, the `FCW_*` and `RYG_*` thresholds, `sigmoid`,
  `softmax`) are parameters of the definitions that use them.
* A `for` loop is `for_upto body s n`, the state after its first `n`
  iterations.
-/

set_option autoImplicit false

namespace Driving

/-! ## Arrays and loops -/

/-- Read `a[i]` of a float array. -/
def rd (a : List ℚ) (i : Nat) : ℚ := a.getD i 0

/-- State of a loop `for (i = 0; i < n; i++) s = body i s` after its `n` iterations. -/
def for_upto {σ : Type} (body : Nat → σ → σ) (s : σ) : Nat → σ
  | 0 => s
  | n + 1 => body n (for_upto body s n)

/-- Effect of `std::memmove(&buf[0], &buf[src], sizeof(float) * n)` for a source
block inside the array (`src + n <= buf.length`). -/
def memmove_front (buf : List ℚ) (src n : Nat) : List ℚ :=
  (buf.drop src).take n ++ buf.drop n

/-- Effect of `std::memcpy(&buf[dst], &from[src], sizeof(float) * n)` for blocks
inside their arrays. -/
def memcpy_at (buf : List ℚ) (dst : Nat) (from_buf : List ℚ) (src n : Nat) : List ℚ :=
  buf.take dst ++ (from_buf.drop src).take n ++ buf.drop (dst + n)

/-! ## `fill_model`: the time of each target distance (`plan_t`) -/

/-- Inner loop of `fill_model`:
`for (next_tid = tidx + 1; next_tid < TRAJECTORY_SIZE && x[next_tid] < X_IDXS[xidx]; next_tid++) tidx++;`
where `next_tid` is `tidx + 1` throughout.  The first argument after the target
bounds the number of iterations; `TRAJECTORY_SIZE` of them are always enough
(`advance_exit`). -/
def advance (TRAJECTORY_SIZE : Nat) (pos_x : Nat → ℚ) (target : ℚ) : Nat → Nat → Nat
  | 0, tidx => tidx
  | fuel + 1, tidx =>
    if tidx + 1 < TRAJECTORY_SIZE ∧ pos_x (tidx + 1) < target then
      advance TRAJECTORY_SIZE pos_x target fuel (tidx + 1)
    else tidx

/-- The interpolation of `fill_model`, in exact arithmetic:
`p = (X_IDXS[xidx] - current_x_val) / (next_x_val - current_x_val);`
`plan_t[xidx] = p * T_IDXS[tidx+1] + (1 - p) * T_IDXS[tidx];`
A zero denominator makes `p`, and with it the stored value, non-finite.  The
roundings of these operations are those of `interpolate_f32`. -/
def interpolate (target current_x_val next_x_val t_cur t_next : ℚ) : Option ℚ :=
  if next_x_val - current_x_val = 0 then none
  else
    let p := (target - current_x_val) / (next_x_val - current_x_val)
    some (p * t_next + (1 - p) * t_cur)

/-- Variables of the outer loop of `fill_model`; `stopped` records that the
`break` was taken. -/
structure AlignState where
  tidx : Nat
  plan_t : List (Option ℚ)
  stopped : Bool
deriving DecidableEq

/-- One iteration, for target index `xidx`, of the outer loop of `fill_model`. -/
def align_step (TRAJECTORY_SIZE : Nat) (pos_x X_IDXS T_IDXS : Nat → ℚ) (xidx : Nat)
    (s : AlignState) : AlignState :=
  if s.stopped then s
  else
    let tidx := advance TRAJECTORY_SIZE pos_x (X_IDXS xidx) TRAJECTORY_SIZE s.tidx
    if tidx = TRAJECTORY_SIZE - 1 then
      { tidx := tidx
        plan_t := s.plan_t.set xidx (some (T_IDXS (TRAJECTORY_SIZE - 1)))
        stopped := true }
    else
      { tidx := tidx
        plan_t := s.plan_t.set xidx
          (interpolate (X_IDXS xidx) (pos_x tidx) (pos_x (tidx + 1)) (T_IDXS tidx) (T_IDXS (tidx + 1)))
        stopped := false }

/-- State of `fill_model` after the iterations `xidx = 1, ..., n` of its outer
loop; before the loop `plan_t` is filled with `NAN` and `plan_t[0] = 0.0`. -/
def align_upto (TRAJECTORY_SIZE : Nat) (pos_x X_IDXS T_IDXS : Nat → ℚ) : Nat → AlignState
  | 0 =>
    { tidx := 0
      plan_t := (List.replicate TRAJECTORY_SIZE none).set 0 (some 0)
      stopped := false }
  | n + 1 =>
    align_step TRAJECTORY_SIZE pos_x X_IDXS T_IDXS (n + 1)
      (align_upto TRAJECTORY_SIZE pos_x X_IDXS T_IDXS n)

/-- The array `plan_t` that `fill_model` hands to `fill_lane_lines` and
`fill_road_edges`: the loop runs for `xidx = 1, ..., TRAJECTORY_SIZE - 1`. -/
def plan_t (TRAJECTORY_SIZE : Nat) (pos_x X_IDXS T_IDXS : Nat → ℚ) : List (Option ℚ) :=
  (align_upto TRAJECTORY_SIZE pos_x X_IDXS T_IDXS (TRAJECTORY_SIZE - 1)).plan_t

/-- Grid of 33 points `m * (i/32)^2`, ascending from `0` to `m`. -/
def quad_idxs (m : ℚ) (i : Nat) : ℚ := m * ((i : ℚ) / 32) * ((i : ℚ) / 32)

/-- Plan that creeps to `0.1875` in its first step and then stands still. -/
def creep_x (i : Nat) : ℚ := if i = 0 then 0 else 3 / 16

/-- Positions of the scenario plan `[0,1,2,3,5,8,13]`. -/
def scenario_x (i : Nat) : ℚ := rd [0, 1, 2, 3, 5, 8, 13] i

/-- Times of the scenario plan `[0,1,2,3,4,5,6]`. -/
def scenario_t (i : Nat) : ℚ := (i : ℚ)

/-! ## `model_eval_frame`: the recurrent inputs -/

/-- The fields of `ModelState` that `model_eval_frame` reads and writes. -/
structure ModelState where
  pulse_desire : List ℚ
  prev_desire : List ℚ
  traffic_convention : List ℚ
  feature_buffer : List ℚ
  output : List ℚ

/-- Body of the desire loop of `model_eval_frame` for category `i`: a pulse on
the rising edge, then `prev_desire[i] = desire_in[i]`. -/
def desire_step (DESIRE_LEN HISTORY_BUFFER_LEN : Nat) (desire_in : List ℚ) (i : Nat)
    (s : ModelState) : ModelState :=
  let pulsed : ModelState :=
    if rd desire_in i - rd s.prev_desire i > 99 / 100 then
      { s with pulse_desire := s.pulse_desire.set (DESIRE_LEN * HISTORY_BUFFER_LEN + i) (rd desire_in i) }
    else
      { s with pulse_desire := s.pulse_desire.set (DESIRE_LEN * HISTORY_BUFFER_LEN + i) 0 }
  { pulsed with prev_desire := pulsed.prev_desire.set i (rd desire_in i) }

/-- The `DESIRE` block of `model_eval_frame`: shift the pulse history by one
slot, then, for a non-null `desire_in`, run the loop `i = 1, ..., DESIRE_LEN - 1`. -/
def desire_enqueue (DESIRE_LEN HISTORY_BUFFER_LEN : Nat) (desire_in : Option (List ℚ))
    (s : ModelState) : ModelState :=
  let shifted : ModelState :=
    { s with pulse_desire := memmove_front s.pulse_desire DESIRE_LEN (DESIRE_LEN * HISTORY_BUFFER_LEN) }
  match desire_in with
  | none => shifted
  | some d =>
    for_upto (fun k st => desire_step DESIRE_LEN HISTORY_BUFFER_LEN d (1 + k) st) shifted
      (DESIRE_LEN - 1)

/-- The function `model_eval_frame` on the recurrent state, with the `DESIRE` and
`TEMPORAL` blocks compiled in.  `execute` stands for the inference call
`s->m->execute()`, which writes `s->output` from the prepared inputs; the result
is `none` for the `nullptr` of `prepare_only`.  The `NAV` and `DRIVING_STYLE`
blocks and the image preparation copy their inputs into buffers of their own
and touch none of the fields of `ModelState` kept here. -/
def model_eval_frame (DESIRE_LEN HISTORY_BUFFER_LEN FEATURE_LEN OUTPUT_SIZE : Nat)
    (execute : ModelState → List ℚ) (s : ModelState) (desire_in : Option (List ℚ))
    (is_rhd : Bool) (prepare_only : Bool) : ModelState × Option (List ℚ) :=
  let s1 := desire_enqueue DESIRE_LEN HISTORY_BUFFER_LEN desire_in s
  let rhd_idx : Nat := if is_rhd then 1 else 0
  let s2 : ModelState :=
    { s1 with traffic_convention := (s1.traffic_convention.set rhd_idx 1).set (1 - rhd_idx) 0 }
  if prepare_only then (s2, none)
  else
    let s3 : ModelState := { s2 with output := execute s2 }
    let moved := memmove_front s3.feature_buffer FEATURE_LEN (FEATURE_LEN * (HISTORY_BUFFER_LEN - 1))
    let s4 : ModelState :=
      { s3 with
        feature_buffer :=
          memcpy_at moved (FEATURE_LEN * (HISTORY_BUFFER_LEN - 1)) s3.output OUTPUT_SIZE FEATURE_LEN }
    (s4, some s4.output)

/-- A `ModelState` with zero-filled arrays of the sizes in use (`DESIRE_LEN = 8`,
`HISTORY_BUFFER_LEN = 99`). -/
def zero_model_state : ModelState :=
  { pulse_desire := List.replicate 800 0
    prev_desire := List.replicate 8 0
    traffic_convention := [0, 0]
    feature_buffer := []
    output := [] }

/-- The pulse of category `i` in the newest slot of `pulse_desire`. -/
def newest_pulse (DESIRE_LEN HISTORY_BUFFER_LEN : Nat) (s : ModelState) (i : Nat) : ℚ :=
  rd s.pulse_desire (DESIRE_LEN * HISTORY_BUFFER_LEN + i)

/-! ## `fill_meta` and `fill_confidence`: the confidence state -/

/-- The raw values of `meta_data.disengage_prob[i]`. -/
structure DisengageProb where
  gas_disengage : ℚ
  brake_disengage : ℚ
  steer_override : ℚ
  brake_3ms2 : ℚ
  brake_4ms2 : ℚ
  brake_5ms2 : ℚ
  gas_pressed : ℚ
deriving Inhabited

/-- The block `ModelOutputMeta` of the model output. -/
structure ModelOutputMeta where
  desire_state_prob : List ℚ
  engaged_prob : ℚ
  disengage_prob : List DisengageProb
  desire_pred_prob : List (List ℚ)

/-- The rings and the buffer of `PublishState`. -/
structure PublishState where
  disengage_buffer : List ℚ
  prev_brake_5ms2_probs : List ℚ
  prev_brake_3ms2_probs : List ℚ

/-- The message `MetaData.DisengagePredictions`. -/
structure DisengagePredictions where
  t : List ℚ
  gasDisengageProbs : List ℚ
  brakeDisengageProbs : List ℚ
  steerOverrideProbs : List ℚ
  brake3MetersPerSecondSquaredProbs : List ℚ
  brake4MetersPerSecondSquaredProbs : List ℚ
  brake5MetersPerSecondSquaredProbs : List ℚ

/-- The message `MetaData`. -/
structure MetaData where
  engagedProb : ℚ
  desirePrediction : List ℚ
  desireState : List ℚ
  disengagePredictions : DisengagePredictions
  hardBrakePredicted : Bool

/-- The thresholds `FCW_THRESHOLD_5MS2_HIGH`, `FCW_THRESHOLD_5MS2_LOW` and
`FCW_THRESHOLD_3MS2` of the header. -/
structure FcwThresholds where
  FCW_THRESHOLD_5MS2_HIGH : ℚ
  FCW_THRESHOLD_5MS2_LOW : ℚ
  FCW_THRESHOLD_3MS2 : ℚ

/-- Thresholds `0.15`, `0.05` and `0.7` for the examples. -/
def fcw_example : FcwThresholds :=
  { FCW_THRESHOLD_5MS2_HIGH := 3 / 20
    FCW_THRESHOLD_5MS2_LOW := 1 / 20
    FCW_THRESHOLD_3MS2 := 7 / 10 }

/-- A frame whose raw disengage values are all `v` at each of five horizons. -/
def flat_meta (v : ℚ) : ModelOutputMeta :=
  { desire_state_prob := []
    engaged_prob := v
    disengage_prob := List.replicate 5 ⟨v, v, v, v, v, v, v⟩
    desire_pred_prob := [] }

/-- The line `float threshold = i < 2 ? FCW_THRESHOLD_5MS2_LOW : FCW_THRESHOLD_5MS2_HIGH;`. -/
def fcw_threshold_5ms2 (c : FcwThresholds) (i : Nat) : ℚ :=
  if i < 2 then c.FCW_THRESHOLD_5MS2_LOW else c.FCW_THRESHOLD_5MS2_HIGH

/-- The two rings of `fill_meta` after the new readings are pushed:
two `memmove`s by one slot, then the stores at index 4 and index 2. -/
def push_brake_probs (ps : PublishState) (brake_5ms2_0 brake_3ms2_0 : ℚ) : PublishState :=
  { ps with
    prev_brake_5ms2_probs := (memmove_front ps.prev_brake_5ms2_probs 1 4).set 4 brake_5ms2_0
    prev_brake_3ms2_probs := (memmove_front ps.prev_brake_3ms2_probs 1 2).set 2 brake_3ms2_0 }

/-- The two loops of `fill_meta` that compute `above_fcw_threshold`. -/
def above_fcw_threshold (c : FcwThresholds) (ps : PublishState) : Bool :=
  let after5 :=
    for_upto (fun i above => above && decide (rd ps.prev_brake_5ms2_probs i > fcw_threshold_5ms2 c i))
      true ps.prev_brake_5ms2_probs.length
  for_upto (fun i above => above && decide (rd ps.prev_brake_3ms2_probs i > c.FCW_THRESHOLD_3MS2))
    after5 ps.prev_brake_3ms2_probs.length

/-- The function `fill_meta`: the message it builds and the updated rings. -/
def fill_meta (DESIRE_LEN DESIRE_PRED_LEN DISENGAGE_LEN : Nat) (sigmoid : ℚ → ℚ)
    (softmax : List ℚ → List ℚ) (c : FcwThresholds) (meta_data : ModelOutputMeta)
    (ps : PublishState) : MetaData × PublishState :=
  let desire_state_softmax := softmax (meta_data.desire_state_prob.take DESIRE_LEN)
  let desire_pred_softmax :=
    ((List.range DESIRE_PRED_LEN).map
      (fun i => softmax ((meta_data.desire_pred_prob.getD i []).take DESIRE_LEN))).flatten
  let dp := fun i => meta_data.disengage_prob.getD i default
  let gas_disengage_sigmoid := (List.range DISENGAGE_LEN).map (fun i => sigmoid (dp i).gas_disengage)
  let brake_disengage_sigmoid := (List.range DISENGAGE_LEN).map (fun i => sigmoid (dp i).brake_disengage)
  let steer_override_sigmoid := (List.range DISENGAGE_LEN).map (fun i => sigmoid (dp i).steer_override)
  let brake_3ms2_sigmoid := (List.range DISENGAGE_LEN).map (fun i => sigmoid (dp i).brake_3ms2)
  let brake_4ms2_sigmoid := (List.range DISENGAGE_LEN).map (fun i => sigmoid (dp i).brake_4ms2)
  let brake_5ms2_sigmoid := (List.range DISENGAGE_LEN).map (fun i => sigmoid (dp i).brake_5ms2)
  let ps1 := push_brake_probs ps (rd brake_5ms2_sigmoid 0) (rd brake_3ms2_sigmoid 0)
  ({ engagedProb := sigmoid meta_data.engaged_prob
     desirePrediction := desire_pred_softmax
     desireState := desire_state_softmax
     disengagePredictions :=
       { t := [2, 4, 6, 8, 10]
         gasDisengageProbs := gas_disengage_sigmoid
         brakeDisengageProbs := brake_disengage_sigmoid
         steerOverrideProbs := steer_override_sigmoid
         brake3MetersPerSecondSquaredProbs := brake_3ms2_sigmoid
         brake4MetersPerSecondSquaredProbs := brake_4ms2_sigmoid
         brake5MetersPerSecondSquaredProbs := brake_5ms2_sigmoid }
     hardBrakePredicted := above_fcw_threshold c ps1 }, ps1)

/-- State of the rings after `fill_meta` has run on each frame of a sequence. -/
def fill_meta_frames (DESIRE_LEN DESIRE_PRED_LEN DISENGAGE_LEN : Nat) (sigmoid : ℚ → ℚ)
    (softmax : List ℚ → List ℚ) (c : FcwThresholds) (ps : PublishState) :
    List ModelOutputMeta → PublishState
  | [] => ps
  | m :: rest =>
    fill_meta_frames DESIRE_LEN DESIRE_PRED_LEN DISENGAGE_LEN sigmoid softmax c
      (fill_meta DESIRE_LEN DESIRE_PRED_LEN DISENGAGE_LEN sigmoid softmax c m ps).2 rest

/-- The flag `hardBrakePredicted` published for the last frame of a non-empty
sequence of frames (`false` for the empty sequence, which publishes nothing). -/
def last_hard_brake (DESIRE_LEN DESIRE_PRED_LEN DISENGAGE_LEN : Nat) (sigmoid : ℚ → ℚ)
    (softmax : List ℚ → List ℚ) (c : FcwThresholds) (ps : PublishState)
    (frames : List ModelOutputMeta) : Bool :=
  match frames.getLast? with
  | none => false
  | some m =>
    (fill_meta DESIRE_LEN DESIRE_PRED_LEN DISENGAGE_LEN sigmoid softmax c m
      (fill_meta_frames DESIRE_LEN DESIRE_PRED_LEN DISENGAGE_LEN sigmoid softmax c ps
        frames.dropLast)).1.hardBrakePredicted

/-- The nearest-horizon reading `brake_5ms2_sigmoid[0]` of a frame. -/
def brake_5ms2_0 (sigmoid : ℚ → ℚ) (m : ModelOutputMeta) : ℚ :=
  sigmoid (m.disengage_prob.getD 0 default).brake_5ms2

/-- The nearest-horizon reading `brake_3ms2_sigmoid[0]` of a frame. -/
def brake_3ms2_0 (sigmoid : ℚ → ℚ) (m : ModelOutputMeta) : ℚ :=
  sigmoid (m.disengage_prob.getD 0 default).brake_3ms2

/-- A `PublishState` with zero-filled rings and a zero-filled `5 x 5` buffer. -/
def zero_publish_state : PublishState :=
  { disengage_buffer := List.replicate 25 0
    prev_brake_5ms2_probs := List.replicate 5 0
    prev_brake_3ms2_probs := List.replicate 3 0 }

/-- The enum `ConfidenceClass`. -/
inductive ConfidenceClass where
  | RED
  | YELLOW
  | GREEN
deriving DecidableEq

/-- The fields of the message `ModelDataV2` that `fill_confidence` reads and writes. -/
structure ModelDataV2 where
  frameId : Nat
  meta_msg : MetaData
  confidence : ConfidenceClass

/-- The line `any_dp[i] = 1 - ((1-dbps[i])*(1-dgps[i])*(1-dsps[i]));`, in exact
arithmetic; with its roundings it is `any_dp_f32`. -/
def any_dp (dbps dgps dsps : List ℚ) (i : Nat) : ℚ :=
  1 - ((1 - rd dbps i) * (1 - rd dgps i) * (1 - rd dsps i))

/-- The array `dp_ind` of `fill_confidence`, in exact arithmetic:
`dp_ind[0] = any_dp[0]`, then the loop
`dp_ind[i+1] = (any_dp[i+1] - any_dp[i]) / (1 - any_dp[i])` for `i < DISENGAGE_LEN - 1`.
With its roundings, and with the values of a division by zero, it is
`dp_ind_f32`. -/
def dp_ind (DISENGAGE_LEN : Nat) (dbps dgps dsps : List ℚ) : List ℚ :=
  for_upto
    (fun i d =>
      d.set (i + 1)
        ((any_dp dbps dgps dsps (i + 1) - any_dp dbps dgps dsps i) / (1 - any_dp dbps dgps dsps i)))
    ((List.replicate DISENGAGE_LEN 0).set 0 (any_dp dbps dgps dsps 0))
    (DISENGAGE_LEN - 1)

/-- The cadence block of `fill_confidence`: on a frame id that is a multiple of
`2*MODEL_FREQ` the buffer drops its oldest row and takes `dp_ind` as newest row. -/
def update_disengage_buffer (DISENGAGE_LEN MODEL_FREQ : Nat) (framed : ModelDataV2)
    (ps : PublishState) : PublishState :=
  if framed.frameId % (2 * MODEL_FREQ) = 0 then
    let dbps := framed.meta_msg.disengagePredictions.brakeDisengageProbs
    let dgps := framed.meta_msg.disengagePredictions.gasDisengageProbs
    let dsps := framed.meta_msg.disengagePredictions.steerOverrideProbs
    let moved := memmove_front ps.disengage_buffer DISENGAGE_LEN (DISENGAGE_LEN * (DISENGAGE_LEN - 1))
    let row := dp_ind DISENGAGE_LEN dbps dgps dsps
    { ps with
      disengage_buffer := memcpy_at moved (DISENGAGE_LEN * (DISENGAGE_LEN - 1)) row 0 DISENGAGE_LEN }
  else ps

/-- The score loop of `fill_confidence`:
`score += ps.disengage_buffer[i*DISENGAGE_LEN+DISENGAGE_LEN-1-i] / DISENGAGE_LEN;`. -/
def confidence_score (DISENGAGE_LEN : Nat) (ps : PublishState) : ℚ :=
  for_upto
    (fun i score =>
      score + rd ps.disengage_buffer (i * DISENGAGE_LEN + DISENGAGE_LEN - 1 - i) / (DISENGAGE_LEN : ℚ))
    0 DISENGAGE_LEN

/-- The classification of `fill_confidence` against `RYG_GREEN` and `RYG_YELLOW`. -/
def classify (RYG_GREEN RYG_YELLOW : ℚ) (score : ℚ) : ConfidenceClass :=
  if score < RYG_GREEN then ConfidenceClass.GREEN
  else if score < RYG_YELLOW then ConfidenceClass.YELLOW
  else ConfidenceClass.RED

/-- The function `fill_confidence`: the message with its confidence set and the
updated buffer. -/
def fill_confidence (DISENGAGE_LEN MODEL_FREQ : Nat) (RYG_GREEN RYG_YELLOW : ℚ)
    (framed : ModelDataV2) (ps : PublishState) : ModelDataV2 × PublishState :=
  let ps1 := update_disengage_buffer DISENGAGE_LEN MODEL_FREQ framed ps
  let score := confidence_score DISENGAGE_LEN ps1
  ({ framed with confidence := classify RYG_GREEN RYG_YELLOW score }, ps1)

/-- A message for frame `frameId` whose brake, gas and steer-override disengage
probabilities are the given arrays. -/
def example_framed (frameId : Nat) (dbps dgps dsps : List ℚ) : ModelDataV2 :=
  { frameId := frameId
    meta_msg :=
      { engagedProb := 0
        desirePrediction := []
        desireState := []
        disengagePredictions :=
          { t := [2, 4, 6, 8, 10]
            gasDisengageProbs := dgps
            brakeDisengageProbs := dbps
            steerOverrideProbs := dsps
            brake3MetersPerSecondSquaredProbs := []
            brake4MetersPerSecondSquaredProbs := []
            brake5MetersPerSecondSquaredProbs := [] }
        hardBrakePredicted := false }
    confidence := ConfidenceClass.RED }

/-- Disengage probabilities `[0.1, 0.2, 0.3, 0.4, 0.5]` for the examples. -/
def example_probs : List ℚ := [1 / 10, 1 / 5, 3 / 10, 2 / 5, 1 / 2]

/-- The two stores of the cadence block of `fill_confidence` for a row `row`:
the `memmove` that drops the oldest row and the `memcpy` that writes `row` as
the newest one. -/
def push_row (DISENGAGE_LEN : Nat) (row buf : List ℚ) : List ℚ :=
  memcpy_at (memmove_front buf DISENGAGE_LEN (DISENGAGE_LEN * (DISENGAGE_LEN - 1)))
    (DISENGAGE_LEN * (DISENGAGE_LEN - 1)) row 0 DISENGAGE_LEN

/-- State of `PublishState` after `fill_confidence` has run on each frame of a
sequence, in order. -/
def fill_confidence_frames (DISENGAGE_LEN MODEL_FREQ : Nat) (RYG_GREEN RYG_YELLOW : ℚ)
    (ps : PublishState) : List ModelDataV2 → PublishState
  | [] => ps
  | framed :: rest =>
    fill_confidence_frames DISENGAGE_LEN MODEL_FREQ RYG_GREEN RYG_YELLOW
      (fill_confidence DISENGAGE_LEN MODEL_FREQ RYG_GREEN RYG_YELLOW framed ps).2 rest

/-- The row `dp_ind` that `fill_confidence` computes from a message. -/
def row_of (DISENGAGE_LEN : Nat) (framed : ModelDataV2) : List ℚ :=
  dp_ind DISENGAGE_LEN framed.meta_msg.disengagePredictions.brakeDisengageProbs
    framed.meta_msg.disengagePredictions.gasDisengageProbs
    framed.meta_msg.disengagePredictions.steerOverrideProbs

/-- Forty consecutive frames with ids `a, a + 1, ..., a + 39`, all carrying
`example_probs`. -/
def window_frames (a : Nat) : List ModelDataV2 :=
  (List.range 40).map (fun i => example_framed (a + i) example_probs example_probs example_probs)

/-- A `ModelState` with three feature slices of two entries (`FEATURE_LEN = 2`,
`HISTORY_BUFFER_LEN = 3`, `DESIRE_LEN = 2`). -/
def small_model_state : ModelState :=
  { pulse_desire := List.replicate 8 0
    prev_desire := [0, 0]
    traffic_convention := [0, 0]
    feature_buffer := [1, 2, 3, 4, 5, 6]
    output := [0, 0, 0] }

/-- Disengage probabilities `[0.5, 0.4, 0.3, 0.2, 0.1]` that fall with the horizon. -/
def falling_probs : List ℚ := [1 / 2, 2 / 5, 3 / 10, 1 / 5, 1 / 10]

/-! ## Floating-point arithmetic -/

/-- A binary floating-point format: `prec` bits of significand, `emin` the exponent
of the smallest normal number, `emax` the exponent of the largest binade. -/
structure FloatFormat where
  prec : Nat
  emin : Int
  emax : Int

/-- The format of a C `float`. -/
def binary32 : FloatFormat := { prec := 24, emin := -126, emax := 127 }

/-- The format of a C `double`. -/
def binary64 : FloatFormat := { prec := 53, emin := -1022, emax := 1023 }

/-- A floating-point value: a finite number, an infinity, or a `NaN`.  A `float` and
a `double` of the same value are the same `FVal` (the conversion of a `float` to
`double` is exact); the sign of a zero is not recorded. -/
inductive FVal where
  | fin (q : ℚ)
  | pinf
  | ninf
  | nan
deriving DecidableEq

/-- The integer nearest to `r`, the even one of the two when `r` is half-way. -/
def round_half_even {K : Type} [LinearOrderedField K] [FloorRing K] (r : K) : ℤ :=
  if r - ⌊r⌋ < 1 / 2 then ⌊r⌋
  else if 1 / 2 < r - ⌊r⌋ then ⌊r⌋ + 1
  else if ⌊r⌋ % 2 = 0 then ⌊r⌋
  else ⌊r⌋ + 1

/-- Exponent of the unit in the last place of the binade of `q` in format `f`
(of the subnormal range when `q` is zero or below the smallest normal number). -/
def ulp_exp {K : Type} [LinearOrderedField K] [FloorRing K] (f : FloatFormat) (q : K) : ℤ :=
  (if q = 0 then f.emin else max (Int.log 2 |q|) f.emin) - ((f.prec : ℤ) - 1)

/-- The largest finite number of a format. -/
def max_finite (f : FloatFormat) : ℚ :=
  ((2 : ℚ) ^ f.prec - 1) * (2 : ℚ) ^ (f.emax - ((f.prec : ℤ) - 1))

/-- The multiple of the unit in the last place nearest to `q`, ties to even. -/
def rnd_val {K : Type} [LinearOrderedField K] [FloorRing K] (f : FloatFormat) (q : K) : ℚ :=
  (round_half_even (q / (2 : K) ^ ulp_exp f q) : ℚ) * (2 : ℚ) ^ ulp_exp f q

/-- Rounding of a number to a format, to nearest with ties to even; an infinity
when the nearest multiple is beyond the largest finite number. -/
def rnd {K : Type} [LinearOrderedField K] [FloorRing K] (f : FloatFormat) (q : K) : FVal :=
  if max_finite f < rnd_val f q then FVal.pinf
  else if rnd_val f q < -max_finite f then FVal.ninf
  else FVal.fin (rnd_val f q)

/-- Conversion of a value to a format (`double` to `float`: a rounding). -/
def fcvt (f : FloatFormat) : FVal → FVal
  | FVal.fin a => rnd f a
  | v => v

/-- Addition in a format. -/
def fadd (f : FloatFormat) : FVal → FVal → FVal
  | FVal.fin a, FVal.fin b => rnd f (a + b)
  | FVal.nan, _ => FVal.nan
  | _, FVal.nan => FVal.nan
  | FVal.pinf, FVal.ninf => FVal.nan
  | FVal.ninf, FVal.pinf => FVal.nan
  | FVal.pinf, _ => FVal.pinf
  | _, FVal.pinf => FVal.pinf
  | FVal.ninf, _ => FVal.ninf
  | _, FVal.ninf => FVal.ninf

/-- Subtraction in a format. -/
def fsub (f : FloatFormat) : FVal → FVal → FVal
  | FVal.fin a, FVal.fin b => rnd f (a - b)
  | FVal.nan, _ => FVal.nan
  | _, FVal.nan => FVal.nan
  | FVal.pinf, FVal.pinf => FVal.nan
  | FVal.ninf, FVal.ninf => FVal.nan
  | FVal.pinf, _ => FVal.pinf
  | _, FVal.ninf => FVal.pinf
  | FVal.ninf, _ => FVal.ninf
  | _, FVal.pinf => FVal.ninf

/-- The product of an infinity and a finite number `b`: `NaN` when `b` is zero, else
the infinity of the sign of the product; `neg` tells that the infinity is `-inf`. -/
def inf_times (neg : Bool) (b : ℚ) : FVal :=
  if b = 0 then FVal.nan
  else if 0 < b then (if neg then FVal.ninf else FVal.pinf)
  else (if neg then FVal.pinf else FVal.ninf)

/-- Multiplication in a format. -/
def fmul (f : FloatFormat) : FVal → FVal → FVal
  | FVal.fin a, FVal.fin b => rnd f (a * b)
  | FVal.nan, _ => FVal.nan
  | _, FVal.nan => FVal.nan
  | FVal.pinf, FVal.fin b => inf_times false b
  | FVal.ninf, FVal.fin b => inf_times true b
  | FVal.fin a, FVal.pinf => inf_times false a
  | FVal.fin a, FVal.ninf => inf_times true a
  | FVal.pinf, FVal.pinf => FVal.pinf
  | FVal.ninf, FVal.ninf => FVal.pinf
  | FVal.pinf, FVal.ninf => FVal.ninf
  | FVal.ninf, FVal.pinf => FVal.ninf

/-- Division in a format.  A zero divisor is the positive zero: the divisors of
`driving.cc` are differences, which are zero only as `+0`. -/
def fdiv (f : FloatFormat) : FVal → FVal → FVal
  | FVal.fin a, FVal.fin b =>
    if b = 0 then
      if a = 0 then FVal.nan else if 0 < a then FVal.pinf else FVal.ninf
    else rnd f (a / b)
  | FVal.nan, _ => FVal.nan
  | _, FVal.nan => FVal.nan
  | FVal.fin _, _ => FVal.fin 0
  | FVal.pinf, FVal.fin b => if 0 ≤ b then FVal.pinf else FVal.ninf
  | FVal.ninf, FVal.fin b => if 0 ≤ b then FVal.ninf else FVal.pinf
  | _, _ => FVal.nan

/-! ## `fill_model` in the arithmetic of the code -/

/-- The interpolation of `fill_model` in the arithmetic of the code:
`float p = (X_IDXS[xidx] - current_x_val) / (next_x_val - current_x_val);`
`plan_t[xidx] = p * T_IDXS[tidx+1] + (1 - p) * T_IDXS[tidx];`
`X_IDXS` and `T_IDXS` are tables of `double`, the positions and `p` are `float`:
the numerator is a `double` subtraction, the denominator a `float` subtraction,
the quotient a `double` division stored to the `float` `p`; `1 - p` is a `float`
subtraction, the two products and the sum are `double` operations, and the sum is
stored to the `float` `plan_t[xidx]`. -/
def interpolate_f32 (target current_x_val next_x_val t_cur t_next : ℚ) : FVal :=
  let p := fcvt binary32
    (fdiv binary64 (fsub binary64 (FVal.fin target) (FVal.fin current_x_val))
      (fsub binary32 (FVal.fin next_x_val) (FVal.fin current_x_val)))
  fcvt binary32
    (fadd binary64 (fmul binary64 p (FVal.fin t_next))
      (fmul binary64 (fsub binary32 (FVal.fin 1) p) (FVal.fin t_cur)))

/-- Variables of the outer loop of `fill_model`, with the floats of `plan_t`. -/
structure AlignStateF32 where
  tidx : Nat
  plan_t : List FVal
  stopped : Bool

/-- One iteration, for target index `xidx`, of the outer loop of `fill_model` in
the arithmetic of the code.  The comparison of the search converts the `float`
position to `double` and is exact; the fallback stores the `double`
`T_IDXS[TRAJECTORY_SIZE - 1]` to a `float`. -/
def align_step_f32 (TRAJECTORY_SIZE : Nat) (pos_x X_IDXS T_IDXS : Nat → ℚ) (xidx : Nat)
    (s : AlignStateF32) : AlignStateF32 :=
  if s.stopped then s
  else
    let tidx := advance TRAJECTORY_SIZE pos_x (X_IDXS xidx) TRAJECTORY_SIZE s.tidx
    if tidx = TRAJECTORY_SIZE - 1 then
      { tidx := tidx
        plan_t := s.plan_t.set xidx (fcvt binary32 (FVal.fin (T_IDXS (TRAJECTORY_SIZE - 1))))
        stopped := true }
    else
      { tidx := tidx
        plan_t := s.plan_t.set xidx
          (interpolate_f32 (X_IDXS xidx) (pos_x tidx) (pos_x (tidx + 1)) (T_IDXS tidx)
            (T_IDXS (tidx + 1)))
        stopped := false }

/-- State of `fill_model`, in the arithmetic of the code, after the iterations
`xidx = 1, ..., n` of its outer loop; before the loop `plan_t` is filled with `NAN`
and `plan_t[0] = 0.0`. -/
def align_upto_f32 (TRAJECTORY_SIZE : Nat) (pos_x X_IDXS T_IDXS : Nat → ℚ) :
    Nat → AlignStateF32
  | 0 =>
    { tidx := 0
      plan_t := (List.replicate TRAJECTORY_SIZE FVal.nan).set 0 (FVal.fin 0)
      stopped := false }
  | n + 1 =>
    align_step_f32 TRAJECTORY_SIZE pos_x X_IDXS T_IDXS (n + 1)
      (align_upto_f32 TRAJECTORY_SIZE pos_x X_IDXS T_IDXS n)

/-- The array `plan_t` of `fill_model` in the arithmetic of the code. -/
def plan_t_f32 (TRAJECTORY_SIZE : Nat) (pos_x X_IDXS T_IDXS : Nat → ℚ) : List FVal :=
  (align_upto_f32 TRAJECTORY_SIZE pos_x X_IDXS T_IDXS (TRAJECTORY_SIZE - 1)).plan_t

/-- Strictly increasing plan of floats that starts at `2^-6 + 3 * 2^-29` and is at
`0.1875 * i` at every later step `i`. -/
def rounding_x (i : Nat) : ℚ := if i = 0 then 1 / 64 + 3 / 2 ^ 29 else 3 * (i : ℚ) / 16

/-! ## `fill_confidence` in the arithmetic of the code -/

/-- The line `any_dp[i] = 1 - ((1-dbps[i])*(1-dgps[i])*(1-dsps[i]));` in the float
arithmetic of the code: three float subtractions from `1`, two float products
and a float subtraction from `1`, each rounded. -/
def any_dp_f32 (dbps dgps dsps : List ℚ) (i : Nat) : FVal :=
  fsub binary32 (FVal.fin 1)
    (fmul binary32
      (fmul binary32 (fsub binary32 (FVal.fin 1) (FVal.fin (rd dbps i)))
        (fsub binary32 (FVal.fin 1) (FVal.fin (rd dgps i))))
      (fsub binary32 (FVal.fin 1) (FVal.fin (rd dsps i))))

/-- The array `dp_ind` of `fill_confidence` in the float arithmetic of the code:
`dp_ind[0] = any_dp[0]`, then the loop
`dp_ind[i+1] = (any_dp[i+1] - any_dp[i]) / (1 - any_dp[i])` for `i < DISENGAGE_LEN - 1`. -/
def dp_ind_f32 (DISENGAGE_LEN : Nat) (dbps dgps dsps : List ℚ) : List FVal :=
  for_upto
    (fun i d =>
      d.set (i + 1)
        (fdiv binary32
          (fsub binary32 (any_dp_f32 dbps dgps dsps (i + 1)) (any_dp_f32 dbps dgps dsps i))
          (fsub binary32 (FVal.fin 1) (any_dp_f32 dbps dgps dsps i))))
    ((List.replicate DISENGAGE_LEN (FVal.fin 0)).set 0 (any_dp_f32 dbps dgps dsps 0))
    (DISENGAGE_LEN - 1)

/-- The float `0.999f`, the float nearest to `0.999`. -/
def near_one : ℚ := 16760439 / 16777216

/-- Five horizons with the probability `0.999f`. -/
def near_one_probs : List ℚ := [near_one, near_one, near_one, near_one, near_one]

/-- Five horizons with the probability `2^-30`. -/
def tiny_probs : List ℚ := [1 / 2 ^ 30, 1 / 2 ^ 30, 1 / 2 ^ 30, 1 / 2 ^ 30, 1 / 2 ^ 30]

/-! ## The published standard deviations -/

/-- A float that is neither negative nor `NaN`. -/
def FVal.is_nonneg : FVal → Prop
  | FVal.fin q => 0 ≤ q
  | FVal.pinf => True
  | _ => False

/-- A float that is strictly positive: a positive number or `+inf`. -/
def FVal.is_positive : FVal → Prop
  | FVal.fin q => 0 < q
  | FVal.pinf => True
  | _ => False

/-- The function `exp` on a float of the C library, taken to be correctly rounded:
the real exponential rounded to the nearest float. -/
noncomputable def exp_f32 (v : ℚ) : FVal := rnd binary32 (Real.exp (v : ℝ))

/-- A triple `x`, `y`, `z` of raw model outputs. -/
structure ModelOutputXYZ where
  x : ℚ
  y : ℚ
  z : ℚ

/-- The raw values `x`, `y`, `velocity`, `acceleration` of one step of a lead
prediction. -/
structure ModelOutputLeadElement where
  x : ℚ
  y : ℚ
  velocity : ℚ
  acceleration : ℚ

/-- The arrays `pos_x_std`, `pos_y_std`, `pos_z_std` that `fill_plan` publishes. -/
structure PlanStds where
  pos_x_std : List FVal
  pos_y_std : List FVal
  pos_z_std : List FVal

/-- The arrays `lead_x_std`, `lead_y_std`, `lead_v_std`, `lead_a_std` that `fill_lead`
publishes. -/
structure LeadStds where
  lead_x_std : List FVal
  lead_y_std : List FVal
  lead_v_std : List FVal
  lead_a_std : List FVal

/-- The standard deviations of `fill_plan`: its loop sets
`pos_x_std[i] = exp(plan.std[i].position.x)` and likewise for `y` and `z`;
`std_position i` is `plan.std[i].position`. -/
def fill_plan (exp : ℚ → FVal) (TRAJECTORY_SIZE : Nat) (std_position : Nat → ModelOutputXYZ) :
    PlanStds :=
  { pos_x_std := (List.range TRAJECTORY_SIZE).map (fun i => exp (std_position i).x)
    pos_y_std := (List.range TRAJECTORY_SIZE).map (fun i => exp (std_position i).y)
    pos_z_std := (List.range TRAJECTORY_SIZE).map (fun i => exp (std_position i).z) }

/-- The standard deviations of `fill_lead`: its loop sets
`lead_x_std[i] = exp(best_prediction.std[i].x)` and likewise for `y`, `velocity` and
`acceleration`; `std i` is `best_prediction.std[i]`. -/
def fill_lead (exp : ℚ → FVal) (LEAD_TRAJ_LEN : Nat) (std : Nat → ModelOutputLeadElement) :
    LeadStds :=
  { lead_x_std := (List.range LEAD_TRAJ_LEN).map (fun i => exp (std i).x)
    lead_y_std := (List.range LEAD_TRAJ_LEN).map (fun i => exp (std i).y)
    lead_v_std := (List.range LEAD_TRAJ_LEN).map (fun i => exp (std i).velocity)
    lead_a_std := (List.range LEAD_TRAJ_LEN).map (fun i => exp (std i).acceleration) }

/-- The list that `fill_lane_lines` passes to `setLaneLineStds`; the arguments are
`lanes.std.left_far[0].y`, `lanes.std.left_near[0].y`, `lanes.std.right_near[0].y`
and `lanes.std.right_far[0].y`. -/
def fill_lane_lines (exp : ℚ → FVal) (left_far left_near right_near right_far : ℚ) :
    List FVal :=
  [exp left_far, exp left_near, exp right_near, exp right_far]

/-- The list that `fill_road_edges` passes to `setRoadEdgeStds`; the arguments are
`edges.std.left[0].y` and `edges.std.right[0].y`. -/
def fill_road_edges (exp : ℚ → FVal) (left right : ℚ) : List FVal :=
  [exp left, exp right]

/-- The lists that `fill_model` passes to `setTransStd` and `setRotStd` of the
temporal pose. -/
def temporal_pose_stds (exp : ℚ → FVal) (v_std r_std : ModelOutputXYZ) :
    List FVal × List FVal :=
  ([exp v_std.x, exp v_std.y, exp v_std.z], [exp r_std.x, exp r_std.y, exp r_std.z])

/-- Raw log-standard-deviations `-200` at every step of a plan. -/
def deep_std (_ : Nat) : ModelOutputXYZ := { x := -200, y := -200, z := -200 }

/-! # Theorems -/

/-! ## Arrays -/

theorem getD_set_self {α : Type} (l : List α) (i : Nat) (v d : α) (h : i < l.length) :
    (l.set i v).getD i d = v := by
  simp [List.getD_eq_getElem?_getD, List.getElem?_set, h]

theorem getD_set_other {α : Type} (l : List α) (i j : Nat) (v d : α) (h : i ≠ j) :
    (l.set i v).getD j d = l.getD j d := by
  simp [List.getD_eq_getElem?_getD, List.getElem?_set, h]

/-! ## Rounding -/

theorem two_zpow_pos {K : Type} [LinearOrderedField K] (k : ℤ) : (0 : K) < (2 : K) ^ k :=
  zpow_pos (by norm_num) k

theorem zpow_split {K : Type} [LinearOrderedField K] (k t : ℤ) (hk : k ≤ t) :
    (2 : K) ^ t = (((2 : ℤ) ^ (t - k).toNat : ℤ) : K) * (2 : K) ^ k := by
  have ht : t = ((t - k).toNat : ℤ) + k := by
    rw [Int.toNat_of_nonneg (by omega)]
    omega
  conv_lhs => rw [ht]
  rw [zpow_add₀ (by norm_num), zpow_natCast]
  push_cast
  rfl

section Rounding

variable {K : Type} [LinearOrderedField K] [FloorRing K]

/-- The rounded integer is the floor or the floor plus one, the latter only for a
fractional part of at least one half. -/
theorem round_half_even_cases (r : K) :
    round_half_even r = ⌊r⌋ ∧ r - ⌊r⌋ ≤ 1 / 2 ∨
      round_half_even r = ⌊r⌋ + 1 ∧ 1 / 2 ≤ r - ⌊r⌋ := by
  unfold round_half_even
  split
  · rename_i h
    exact Or.inl ⟨rfl, le_of_lt h⟩
  · rename_i h
    split
    · rename_i h2
      exact Or.inr ⟨rfl, le_of_lt h2⟩
    · rename_i h2
      have heq : r - ⌊r⌋ = 1 / 2 := le_antisymm (not_lt.mp h2) (not_lt.mp h)
      split
      · exact Or.inl ⟨rfl, le_of_eq heq⟩
      · exact Or.inr ⟨rfl, le_of_eq heq.symm⟩

theorem round_half_even_le (r : K) (z : ℤ) (h : r ≤ z) : round_half_even r ≤ z := by
  have hfl : ⌊r⌋ ≤ z := Int.cast_le.mp (le_trans (Int.floor_le r) h)
  rcases round_half_even_cases r with ⟨he, _⟩ | ⟨he, hfrac⟩
  · rw [he]
    exact hfl
  · rw [he]
    have hlt : (⌊r⌋ : K) < z := by linarith
    have : ⌊r⌋ < z := Int.cast_lt.mp hlt
    omega

theorem le_round_half_even (r : K) (z : ℤ) (h : (z : K) ≤ r) : z ≤ round_half_even r := by
  have hfl : z ≤ ⌊r⌋ := Int.le_floor.mpr h
  rcases round_half_even_cases r with ⟨he, _⟩ | ⟨he, _⟩
  · rw [he]
    exact hfl
  · rw [he]
    omega

theorem abs_sub_round_half_even (r : K) : |r - round_half_even r| ≤ 1 / 2 := by
  have h0 : (⌊r⌋ : K) ≤ r := Int.floor_le r
  have h1 : r < ⌊r⌋ + 1 := Int.lt_floor_add_one r
  rcases round_half_even_cases r with ⟨he, hfrac⟩ | ⟨he, hfrac⟩
  · rw [he, abs_le]
    constructor <;> linarith
  · rw [he, abs_le]
    push_cast
    constructor <;> linarith

/-- Rounding to the nearest integer is monotone. -/
theorem round_half_even_mono (r s : K) (h : r ≤ s) : round_half_even r ≤ round_half_even s := by
  by_contra hlt
  have hz : round_half_even s + 1 ≤ round_half_even r := by omega
  have hzK : ((round_half_even s : ℤ) : K) + 1 ≤ (round_half_even r : K) := by exact_mod_cast hz
  have hr := abs_le.mp (abs_sub_round_half_even r)
  have hs := abs_le.mp (abs_sub_round_half_even s)
  have hrs : r = s := le_antisymm h (by linarith [hr.1, hs.2])
  rw [hrs] at hlt
  exact hlt (le_refl _)

variable (f : FloatFormat)


/-- An upper bound on the grid of `q` bounds the rounded value. -/
theorem rnd_val_le (q : K) (z : ℤ) (h : q ≤ z * (2 : K) ^ ulp_exp f q) :
    rnd_val f q ≤ z * (2 : ℚ) ^ ulp_exp f q := by
  unfold rnd_val
  have hz : round_half_even (q / (2 : K) ^ ulp_exp f q) ≤ z :=
    round_half_even_le _ z ((div_le_iff₀ (two_zpow_pos _)).mpr h)
  exact mul_le_mul_of_nonneg_right (by exact_mod_cast hz) (le_of_lt (two_zpow_pos _))

/-- A lower bound on the grid of `q` bounds the rounded value. -/
theorem le_rnd_val (q : K) (z : ℤ) (h : z * (2 : K) ^ ulp_exp f q ≤ q) :
    z * (2 : ℚ) ^ ulp_exp f q ≤ rnd_val f q := by
  unfold rnd_val
  have hz : z ≤ round_half_even (q / (2 : K) ^ ulp_exp f q) :=
    le_round_half_even _ z ((le_div_iff₀ (two_zpow_pos _)).mpr h)
  exact mul_le_mul_of_nonneg_right (by exact_mod_cast hz) (le_of_lt (two_zpow_pos _))

end Rounding
section Binade

variable {K : Type} [LinearOrderedField K] [FloorRing K] (f : FloatFormat)

theorem int_log_two_lt (r : K) (x : ℤ) (hr : 0 < r) (h : r < (2 : K) ^ x) : Int.log 2 r < x := by
  have := (Int.lt_zpow_iff_log_lt (b := 2) (x := x) (by norm_num) hr).mp (by simpa using h)
  exact this

theorem le_int_log_two (r : K) (x : ℤ) (hr : 0 < r) (h : (2 : K) ^ x ≤ r) : x ≤ Int.log 2 r := by
  have := (Int.zpow_le_iff_le_log (b := 2) (x := x) (by norm_num) hr).mp (by simpa using h)
  exact this

theorem two_zpow_int_log_le (r : K) (hr : 0 < r) : (2 : K) ^ Int.log 2 r ≤ r := by
  have := Int.zpow_log_le_self (b := 2) (r := r) (by norm_num) hr
  simpa using this

theorem lt_two_zpow_int_log (r : K) : r < (2 : K) ^ (Int.log 2 r + 1) := by
  have := Int.lt_zpow_succ_log_self (b := 2) (by norm_num) r
  simpa using this

theorem ulp_exp_ge (q : K) : f.emin - ((f.prec : ℤ) - 1) ≤ ulp_exp f q := by
  unfold ulp_exp
  split
  · exact le_refl _
  · have := le_max_right (Int.log 2 |q|) f.emin
    omega

theorem ulp_exp_le (q : K) (t : ℤ) (hmin : f.emin - ((f.prec : ℤ) - 1) ≤ t)
    (h : |q| < (2 : K) ^ (t + (f.prec : ℤ))) : ulp_exp f q ≤ t := by
  unfold ulp_exp
  split
  · exact hmin
  · rename_i hq
    have hlog := int_log_two_lt |q| _ (abs_pos.mpr hq) h
    have := max_le (a := Int.log 2 |q|) (b := f.emin) (c := t + ((f.prec : ℤ) - 1))
      (by omega) (by omega)
    omega

theorem ulp_exp_eq (q : K) (e : ℤ) (he : f.emin ≤ e) (h1 : (2 : K) ^ e ≤ |q|)
    (h2 : |q| < (2 : K) ^ (e + 1)) : ulp_exp f q = e - ((f.prec : ℤ) - 1) := by
  have hpos : 0 < |q| := lt_of_lt_of_le (two_zpow_pos e) h1
  have hq : q ≠ 0 := abs_pos.mp hpos
  have hlo := le_int_log_two |q| e hpos h1
  have hhi := int_log_two_lt |q| (e + 1) hpos h2
  have hlog : Int.log 2 |q| = e := by omega
  unfold ulp_exp
  rw [if_neg hq, hlog, max_eq_left he]

theorem ulp_exp_zero : ulp_exp f (0 : K) = f.emin - ((f.prec : ℤ) - 1) := by
  unfold ulp_exp
  rw [if_pos rfl]

/-- Every number is below the top of the binade its unit belongs to. -/
theorem abs_lt_two_zpow_ulp_exp (q : K) :
    |q| < (2 : K) ^ (ulp_exp f q + (f.prec : ℤ)) := by
  unfold ulp_exp
  split
  · rename_i hq
    rw [hq, abs_zero]
    exact two_zpow_pos _
  · have h1 := lt_two_zpow_int_log |q|
    refine lt_of_lt_of_le h1 (zpow_le_zpow_right₀ (by norm_num) ?_)
    have := le_max_left (Int.log 2 |q|) f.emin
    omega

/-- A number of the normal range is at least the bottom of its binade. -/
theorem two_zpow_ulp_exp_le_abs (q : K) (h : (2 : K) ^ f.emin ≤ |q|) :
    (2 : K) ^ (ulp_exp f q + ((f.prec : ℤ) - 1)) ≤ |q| := by
  have hpos : 0 < |q| := lt_of_lt_of_le (two_zpow_pos _) h
  have hq : q ≠ 0 := abs_pos.mp hpos
  have hlo := le_int_log_two |q| f.emin hpos h
  unfold ulp_exp
  rw [if_neg hq, max_eq_left hlo]
  have := two_zpow_int_log_le |q| hpos
  simpa using this

/-- An upper bound that is a multiple of a unit at least as coarse as the unit of `q`
bounds the rounded value. -/
theorem rnd_val_le_grid (q : K) (m t : ℤ) (hk : ulp_exp f q ≤ t)
    (h : q ≤ m * (2 : K) ^ t) : rnd_val f q ≤ m * (2 : ℚ) ^ t := by
  have h1 := rnd_val_le f q (m * (2 : ℤ) ^ (t - ulp_exp f q).toNat) (by
    rw [zpow_split (ulp_exp f q) t hk] at h
    push_cast at h ⊢
    rw [mul_assoc]
    exact h)
  rw [zpow_split (ulp_exp f q) t hk]
  push_cast at h1 ⊢
  rw [← mul_assoc]
  exact h1

theorem le_rnd_val_grid (q : K) (m t : ℤ) (hk : ulp_exp f q ≤ t)
    (h : m * (2 : K) ^ t ≤ q) : m * (2 : ℚ) ^ t ≤ rnd_val f q := by
  have h1 := le_rnd_val f q (m * (2 : ℤ) ^ (t - ulp_exp f q).toNat) (by
    rw [zpow_split (ulp_exp f q) t hk] at h
    push_cast at h ⊢
    rw [mul_assoc]
    exact h)
  rw [zpow_split (ulp_exp f q) t hk]
  push_cast at h1 ⊢
  rw [← mul_assoc]
  exact h1

theorem rnd_val_nonneg (q : K) (h : 0 ≤ q) : 0 ≤ rnd_val f q := by
  have := le_rnd_val f q 0 (by simpa using h)
  simpa using this

theorem rnd_val_nonpos (q : K) (h : q ≤ 0) : rnd_val f q ≤ 0 := by
  have := rnd_val_le f q 0 (by simpa using h)
  simpa using this

theorem rnd_val_zero : rnd_val f (0 : K) = 0 :=
  le_antisymm (rnd_val_nonpos f 0 (le_refl _)) (rnd_val_nonneg f 0 (le_refl _))

/-- A number that is a multiple of its own unit is not changed by rounding. -/
theorem rnd_val_exact (q : K) (m t : ℤ) (hk : ulp_exp f q ≤ t)
    (h : q = m * (2 : K) ^ t) : rnd_val f q = m * (2 : ℚ) ^ t :=
  le_antisymm (rnd_val_le_grid f q m t hk (le_of_eq h))
    (le_rnd_val_grid f q m t hk (le_of_eq h.symm))

theorem max_finite_nonneg : 0 ≤ max_finite f := by
  unfold max_finite
  have h1 : (1 : ℚ) ≤ (2 : ℚ) ^ f.prec := one_le_pow₀ (by norm_num)
  exact mul_nonneg (by linarith) (le_of_lt (two_zpow_pos _))

theorem rnd_eq_fin (q : K) (h1 : -max_finite f ≤ rnd_val f q) (h2 : rnd_val f q ≤ max_finite f) :
    rnd f q = FVal.fin (rnd_val f q) := by
  unfold rnd
  rw [if_neg (not_lt.mpr h2), if_neg (not_lt.mpr h1)]

theorem rnd_zero : rnd f (0 : K) = FVal.fin 0 := by
  have h := rnd_eq_fin f (0 : K) (by rw [rnd_val_zero]; linarith [max_finite_nonneg f])
    (by rw [rnd_val_zero]; exact max_finite_nonneg f)
  rw [h, rnd_val_zero]

/-- Rounding is monotone on the nonnegative numbers. -/
theorem rnd_val_mono (hp : 0 < f.prec) (x y : K) (hx : 0 ≤ x) (hxy : x ≤ y) :
    rnd_val f x ≤ rnd_val f y := by
  rcases eq_or_lt_of_le hx with h0 | hpos
  · rw [← h0, rnd_val_zero]
    exact rnd_val_nonneg f y (le_trans hx hxy)
  have hypos : 0 < y := lt_of_lt_of_le hpos hxy
  rcases lt_trichotomy (ulp_exp f x) (ulp_exp f y) with hlt | heq | hgt
  · -- `y` lies in a higher binade
    have hynorm : (2 : K) ^ f.emin ≤ |y| := by
      by_contra hsub
      have hlty : |y| < (2 : K) ^ f.emin := not_le.mp hsub
      have hk : ulp_exp f y ≤ f.emin - ((f.prec : ℤ) - 1) :=
        ulp_exp_le f y _ (le_refl _) (by
          refine lt_of_lt_of_le hlty (zpow_le_zpow_right₀ (by norm_num) ?_)
          omega)
      have := ulp_exp_ge f x
      omega
    have hylo := two_zpow_ulp_exp_le_abs f y hynorm
    rw [abs_of_pos hypos] at hylo
    have hxhi := abs_lt_two_zpow_ulp_exp f x
    rw [abs_of_pos hpos] at hxhi
    have hmid : ulp_exp f x + (f.prec : ℤ) ≤ ulp_exp f y + ((f.prec : ℤ) - 1) := by omega
    have h1 := rnd_val_le_grid f x 1 (ulp_exp f x + (f.prec : ℤ)) (by omega)
      (by simpa using le_of_lt hxhi)
    have h2 := le_rnd_val_grid f y 1 (ulp_exp f y + ((f.prec : ℤ) - 1)) (by omega)
      (by simpa using hylo)
    have h3 : (2 : ℚ) ^ (ulp_exp f x + (f.prec : ℤ)) ≤ (2 : ℚ) ^ (ulp_exp f y + ((f.prec : ℤ) - 1)) :=
      zpow_le_zpow_right₀ (by norm_num) hmid
    simp only [Int.cast_one, one_mul] at h1 h2
    linarith
  · unfold rnd_val
    rw [heq]
    have hdiv : x / (2 : K) ^ ulp_exp f y ≤ y / (2 : K) ^ ulp_exp f y :=
      div_le_div_of_nonneg_right hxy (le_of_lt (two_zpow_pos _))
    have := round_half_even_mono _ _ hdiv
    exact mul_le_mul_of_nonneg_right (by exact_mod_cast this) (le_of_lt (two_zpow_pos _))
  · exfalso
    have hxhi := abs_lt_two_zpow_ulp_exp f y
    have hle : ulp_exp f x ≤ ulp_exp f y := by
      refine ulp_exp_le f x _ (ulp_exp_ge f y) ?_
      rw [abs_of_pos hpos]
      rw [abs_of_pos hypos] at hxhi
      exact lt_of_le_of_lt hxy hxhi
    omega

end Binade
section Bounds

variable {K : Type} [LinearOrderedField K] [FloorRing K] (f : FloatFormat)

/-- An integer within one half of `r` is the rounded integer. -/
theorem round_half_even_eq_of_near (r : K) (z : ℤ) (h : |r - z| < 1 / 2) :
    round_half_even r = z := by
  have h1 := abs_le.mp (abs_sub_round_half_even r)
  have h2 := abs_lt.mp h
  have hlt : ((round_half_even r : ℤ) : K) < z + 1 := by linarith [h1.1, h2.2]
  have hgt : ((z : ℤ) : K) < round_half_even r + 1 := by linarith [h1.2, h2.1]
  have hlt2 : round_half_even r < z + 1 := by exact_mod_cast hlt
  have hgt2 : z < round_half_even r + 1 := by exact_mod_cast hgt
  omega

/-- Rounding of a number whose binade is `[2^e, 2^(e+1))` to the multiple of the
unit that is within one half of a unit. -/
theorem rnd_val_eq_of_near (q : K) (e z : ℤ) (he : f.emin ≤ e) (h1 : (2 : K) ^ e ≤ |q|)
    (h2 : |q| < (2 : K) ^ (e + 1))
    (hz : |q / (2 : K) ^ (e - ((f.prec : ℤ) - 1)) - z| < 1 / 2) :
    rnd_val f q = z * (2 : ℚ) ^ (e - ((f.prec : ℤ) - 1)) := by
  unfold rnd_val
  rw [ulp_exp_eq f q e he h1 h2, round_half_even_eq_of_near _ z hz]

/-- The rounded value is finite when the number is at most a power of two that
the format holds. -/
theorem rnd_fin_of_abs_le (q : K) (t : ℤ) (hk : ulp_exp f q ≤ t) (h : |q| ≤ (2 : K) ^ t)
    (hmax : (2 : ℚ) ^ t ≤ max_finite f) : rnd f q = FVal.fin (rnd_val f q) := by
  have hq := abs_le.mp h
  have hhi := rnd_val_le_grid f q 1 t hk (by simpa using hq.2)
  have hlo := le_rnd_val_grid f q (-1) t hk (by simpa using hq.1)
  simp only [Int.cast_one, one_mul, Int.cast_neg, neg_mul] at hhi hlo
  exact rnd_eq_fin f q (by linarith) (by linarith)

theorem int_log_le_ulp_exp (q : K) (hq : q ≠ 0) :
    Int.log 2 |q| ≤ ulp_exp f q + ((f.prec : ℤ) - 1) := by
  unfold ulp_exp
  rw [if_neg hq]
  have := le_max_left (Int.log 2 |q|) f.emin
  omega

/-- A number at least a power of two of the normal range does not round below it. -/
theorem pow_le_rnd_val (hp : 0 < f.prec) (q : K) (j : ℤ) (hj : f.emin ≤ j)
    (h : (2 : K) ^ j ≤ q) : (2 : ℚ) ^ j ≤ rnd_val f q := by
  have hpos : 0 < q := lt_of_lt_of_le (two_zpow_pos j) h
  have habs : |q| = q := abs_of_pos hpos
  have hnorm : (2 : K) ^ f.emin ≤ |q| := by
    rw [habs]
    exact le_trans (zpow_le_zpow_right₀ (by norm_num) hj) h
  have hlo := two_zpow_ulp_exp_le_abs f q hnorm
  rw [habs] at hlo
  have h1 := le_rnd_val_grid f q 1 (ulp_exp f q + ((f.prec : ℤ) - 1)) (by omega)
    (by simpa using hlo)
  have hlog := le_int_log_two |q| j (by rw [habs]; exact hpos) (by rw [habs]; exact h)
  have hk := int_log_le_ulp_exp f q (ne_of_gt hpos)
  have h2 : (2 : ℚ) ^ j ≤ (2 : ℚ) ^ (ulp_exp f q + ((f.prec : ℤ) - 1)) :=
    zpow_le_zpow_right₀ (by norm_num) (by omega)
  simp only [Int.cast_one, one_mul] at h1
  linarith

/-- A number at most the negative of a power of two of the normal range does not
round above it. -/
theorem rnd_val_le_neg_pow (hp : 0 < f.prec) (q : K) (j : ℤ) (hj : f.emin ≤ j)
    (h : q ≤ -(2 : K) ^ j) : rnd_val f q ≤ -(2 : ℚ) ^ j := by
  have hneg : q < 0 := lt_of_le_of_lt h (neg_lt_zero.mpr (two_zpow_pos j))
  have habs : |q| = -q := abs_of_neg hneg
  have hnorm : (2 : K) ^ f.emin ≤ |q| := by
    rw [habs]
    have := zpow_le_zpow_right₀ (a := (2 : K)) (by norm_num) hj
    linarith
  have hlo := two_zpow_ulp_exp_le_abs f q hnorm
  rw [habs] at hlo
  have h1 := rnd_val_le_grid f q (-1) (ulp_exp f q + ((f.prec : ℤ) - 1)) (by omega)
    (by simp only [Int.cast_neg, Int.cast_one, neg_mul, one_mul]; linarith)
  have hlog := le_int_log_two |q| j (by rw [habs]; linarith) (by rw [habs]; linarith)
  have hk := int_log_le_ulp_exp f q (ne_of_lt hneg)
  have h2 : (2 : ℚ) ^ j ≤ (2 : ℚ) ^ (ulp_exp f q + ((f.prec : ℤ) - 1)) :=
    zpow_le_zpow_right₀ (by norm_num) (by omega)
  simp only [Int.cast_neg, Int.cast_one, neg_mul, one_mul] at h1
  linarith

/-- A number at least the smallest positive number of the format does not round
below it. -/
theorem min_le_rnd_val (hp : 0 < f.prec) (q : K)
    (h : (2 : K) ^ (f.emin - ((f.prec : ℤ) - 1)) ≤ q) :
    (2 : ℚ) ^ (f.emin - ((f.prec : ℤ) - 1)) ≤ rnd_val f q := by
  have hpos : 0 < q := lt_of_lt_of_le (two_zpow_pos _) h
  rcases le_or_lt ((2 : K) ^ f.emin) q with hn | hs
  · have h1 := pow_le_rnd_val f hp q f.emin (le_refl _) hn
    have h2 : (2 : ℚ) ^ (f.emin - ((f.prec : ℤ) - 1)) ≤ (2 : ℚ) ^ f.emin :=
      zpow_le_zpow_right₀ (by norm_num) (by omega)
    linarith
  · have hk : ulp_exp f q ≤ f.emin - ((f.prec : ℤ) - 1) :=
      ulp_exp_le f q _ (le_refl _) (by
        rw [abs_of_pos hpos]
        refine lt_of_lt_of_le hs (zpow_le_zpow_right₀ (by norm_num) ?_)
        omega)
    have := le_rnd_val_grid f q 1 (f.emin - ((f.prec : ℤ) - 1)) hk (by simpa using h)
    simpa using this

/-- A number at most the negative of the smallest positive number of the format
does not round above it. -/
theorem rnd_val_le_neg_min (hp : 0 < f.prec) (q : K)
    (h : q ≤ -(2 : K) ^ (f.emin - ((f.prec : ℤ) - 1))) :
    rnd_val f q ≤ -(2 : ℚ) ^ (f.emin - ((f.prec : ℤ) - 1)) := by
  have hneg : q < 0 := lt_of_le_of_lt h (neg_lt_zero.mpr (two_zpow_pos _))
  rcases le_or_lt q (-(2 : K) ^ f.emin) with hn | hs
  · have h1 := rnd_val_le_neg_pow f hp q f.emin (le_refl _) hn
    have h2 : (2 : ℚ) ^ (f.emin - ((f.prec : ℤ) - 1)) ≤ (2 : ℚ) ^ f.emin :=
      zpow_le_zpow_right₀ (by norm_num) (by omega)
    linarith
  · have hk : ulp_exp f q ≤ f.emin - ((f.prec : ℤ) - 1) :=
      ulp_exp_le f q _ (le_refl _) (by
        rw [abs_of_neg hneg]
        have hs2 : -q < (2 : K) ^ f.emin := by linarith
        refine lt_of_lt_of_le hs2 (zpow_le_zpow_right₀ (by norm_num) ?_)
        omega)
    have := rnd_val_le_grid f q (-1) (f.emin - ((f.prec : ℤ) - 1)) hk (by simpa using h)
    simpa using this

/-- Every rounded value is a multiple of the smallest positive number of the format. -/
theorem rnd_val_multiple (q : K) :
    ∃ n : ℤ, rnd_val f q = n * (2 : ℚ) ^ (f.emin - ((f.prec : ℤ) - 1)) := by
  refine ⟨round_half_even (q / (2 : K) ^ ulp_exp f q) *
    (2 : ℤ) ^ (ulp_exp f q - (f.emin - ((f.prec : ℤ) - 1))).toNat, ?_⟩
  unfold rnd_val
  have hs := zpow_split (K := ℚ) (f.emin - ((f.prec : ℤ) - 1)) (ulp_exp f q) (ulp_exp_ge f q)
  generalize round_half_even (q / (2 : K) ^ ulp_exp f q) = z
  rw [hs]
  push_cast
  ring

/-- The rounded difference of two distinct rounded values is not zero: it has the
sign of the difference. -/
theorem rnd_val_sub_neg (hp : 0 < f.prec) (x y : K) (h : rnd_val f x < rnd_val f y) :
    rnd_val f (rnd_val f x - rnd_val f y) ≤ -(2 : ℚ) ^ (f.emin - ((f.prec : ℤ) - 1)) := by
  obtain ⟨n, hn⟩ := rnd_val_multiple f x
  obtain ⟨m, hm⟩ := rnd_val_multiple f y
  have hu : (0 : ℚ) < (2 : ℚ) ^ (f.emin - ((f.prec : ℤ) - 1)) := two_zpow_pos _
  refine rnd_val_le_neg_min f hp _ ?_
  rw [hn, hm] at h ⊢
  have hnm : n < m := by
    have := lt_of_mul_lt_mul_right h (le_of_lt hu)
    exact_mod_cast this
  have h1 : (n : ℚ) + 1 ≤ m := by exact_mod_cast hnm
  nlinarith

end Bounds

/-- A multiple of a unit of the format that has few enough digits and is not beyond
the largest finite number is a number of the format: rounding returns it. -/
theorem rnd_exact (f : FloatFormat) (q : ℚ) (m t : ℤ) (ht : f.emin - ((f.prec : ℤ) - 1) ≤ t)
    (hq : q = m * (2 : ℚ) ^ t) (habs : |q| < (2 : ℚ) ^ (t + (f.prec : ℤ)))
    (hmax : (2 : ℚ) ^ (t + (f.prec : ℤ)) ≤ max_finite f) : rnd f q = FVal.fin q := by
  have hk := ulp_exp_le f q t ht habs
  have hv : rnd_val f q = q := by
    rw [rnd_val_exact f q m t hk hq, hq]
  have hb := abs_lt.mp habs
  have := rnd_eq_fin f q (by rw [hv]; linarith [hb.1]) (by rw [hv]; linarith [hb.2])
  rw [this, hv]

/-! ## The format `binary32` -/

theorem binary32_prec_pos : 0 < binary32.prec := by decide

theorem two_zpow_le_max_finite_binary32 (t : ℤ) (ht : t ≤ 127) :
    (2 : ℚ) ^ t ≤ max_finite binary32 := by
  have h1 : (2 : ℚ) ^ t ≤ (2 : ℚ) ^ (127 : ℤ) := zpow_le_zpow_right₀ (by norm_num) ht
  have h2 : (2 : ℚ) ^ (127 : ℤ) ≤ max_finite binary32 := by
    norm_num [max_finite, binary32]
  linarith

theorem rnd_binary32_one : rnd binary32 (1 : ℚ) = FVal.fin 1 :=
  rnd_exact binary32 1 1 0 (by decide) (by norm_num) (by norm_num [binary32])
    (by simpa [binary32] using two_zpow_le_max_finite_binary32 24 (by norm_num))

section Binary32

variable {K : Type} [LinearOrderedField K] [FloorRing K]

theorem ulp_exp_binary32_le (q : K) (t : ℤ) (ht : -149 ≤ t) (h : |q| < (2 : K) ^ (t + 24)) :
    ulp_exp binary32 q ≤ t :=
  ulp_exp_le binary32 q t (by simpa [binary32] using ht) (by simpa [binary32] using h)

/-- A number of absolute value at most `2^24` rounds to a finite float. -/
theorem rnd_binary32_fin (q : K) (h : |q| ≤ (2 : K) ^ (24 : ℤ)) :
    rnd binary32 q = FVal.fin (rnd_val binary32 q) :=
  rnd_fin_of_abs_le binary32 q 24
    (ulp_exp_binary32_le q 24 (by norm_num)
      (lt_of_le_of_lt h (zpow_lt_zpow_right₀ (by norm_num) (by norm_num))))
    h (two_zpow_le_max_finite_binary32 24 (by norm_num))

theorem rnd_val_binary32_le_one (q : K) (h0 : -1 ≤ q) (h1 : q ≤ 1) : rnd_val binary32 q ≤ 1 := by
  have habs : |q| < (2 : K) ^ ((0 : ℤ) + 24) := by
    rw [abs_lt]
    constructor <;> norm_num <;> linarith
  have := rnd_val_le_grid binary32 q 1 0 (ulp_exp_binary32_le q 0 (by norm_num) habs)
    (by simpa using h1)
  simpa using this

theorem neg_one_le_rnd_val_binary32 (q : K) (h0 : -1 ≤ q) (h1 : q ≤ 1) :
    -1 ≤ rnd_val binary32 q := by
  have habs : |q| < (2 : K) ^ ((0 : ℤ) + 24) := by
    rw [abs_lt]
    constructor <;> norm_num <;> linarith
  have := le_rnd_val_grid binary32 q (-1) 0 (ulp_exp_binary32_le q 0 (by norm_num) habs)
    (by simpa using h0)
  simpa using this

end Binary32

section Multiples

variable {K : Type} [LinearOrderedField K] [FloorRing K] (f : FloatFormat)

/-- A rounded value is a multiple of every unit at most as coarse as its own. -/
theorem rnd_val_multiple_of (q : K) (t : ℤ) (ht : t ≤ ulp_exp f q) :
    ∃ n : ℤ, rnd_val f q = n * (2 : ℚ) ^ t := by
  refine ⟨round_half_even (q / (2 : K) ^ ulp_exp f q) * (2 : ℤ) ^ (ulp_exp f q - t).toNat, ?_⟩
  unfold rnd_val
  have hs := zpow_split (K := ℚ) t (ulp_exp f q) ht
  generalize round_half_even (q / (2 : K) ^ ulp_exp f q) = z
  rw [hs]
  push_cast
  ring

theorem le_ulp_exp (q : K) (t : ℤ) (h : (2 : K) ^ (t + ((f.prec : ℤ) - 1)) ≤ |q|) :
    t ≤ ulp_exp f q := by
  have hpos : 0 < |q| := lt_of_lt_of_le (two_zpow_pos _) h
  have hlog := le_int_log_two |q| _ hpos h
  have hk := int_log_le_ulp_exp f q (abs_pos.mp hpos)
  omega

end Multiples

/-! ## Floats of the unit interval -/

/-- A number of the unit interval rounds to a float of the unit interval. -/
theorem rnd_unit (q : ℚ) (h0 : 0 ≤ q) (h1 : q ≤ 1) :
    rnd binary32 q = FVal.fin (rnd_val binary32 q) ∧ 0 ≤ rnd_val binary32 q ∧
      rnd_val binary32 q ≤ 1 :=
  ⟨rnd_binary32_fin q (by rw [abs_of_nonneg h0]; exact le_trans h1 (by norm_num)),
    rnd_val_nonneg binary32 q h0, rnd_val_binary32_le_one q (by linarith) h1⟩

/-- A float below `1` is at most the float before `1`. -/
theorem rnd_val_lt_one (q : ℚ) (h0 : 0 ≤ q) (h : rnd_val binary32 q < 1) :
    rnd_val binary32 q ≤ 1 - 1 / 2 ^ 24 := by
  rcases lt_or_le q (1 / 2) with hlt | hge
  · have habs : |q| < (2 : ℚ) ^ ((-1 : ℤ) + 24) := by
      rw [abs_of_nonneg h0]
      exact lt_trans hlt (by norm_num)
    have := rnd_val_le_grid binary32 q 1 (-1) (ulp_exp_binary32_le q (-1) (by norm_num) habs)
      (by norm_num; linarith)
    norm_num at this ⊢
    linarith
  · obtain ⟨n, hn⟩ := rnd_val_multiple_of binary32 q (-24)
      (le_ulp_exp binary32 q (-24) (by
        rw [abs_of_nonneg h0]
        norm_num [binary32]
        linarith))
    rw [hn] at h ⊢
    have hlt : (n : ℚ) < 2 ^ 24 := by
      have h2 : (2 : ℚ) ^ (-24 : ℤ) = 1 / 2 ^ 24 := by norm_num [zpow_neg]
      rw [h2] at h
      have h3 : (n : ℚ) * (1 / 2 ^ 24) * 2 ^ 24 < 1 * 2 ^ 24 :=
        mul_lt_mul_of_pos_right h (by norm_num)
      norm_num at h3 ⊢
      linarith
    have hle : n ≤ 2 ^ 24 - 1 := by
      have : n < 2 ^ 24 := by exact_mod_cast hlt
      omega
    have hle2 : (n : ℚ) ≤ 2 ^ 24 - 1 := by exact_mod_cast hle
    have h2 : (2 : ℚ) ^ (-24 : ℤ) = 1 / 2 ^ 24 := by norm_num [zpow_neg]
    rw [h2]
    have := mul_le_mul_of_nonneg_right hle2 (show (0 : ℚ) ≤ 1 / 2 ^ 24 by norm_num)
    norm_num at this ⊢
    linarith

/-- A number between `1 - 2^-27` and `1` rounds to `1`. -/
theorem rnd_val_near_one (q : ℚ) (h0 : 1 - 1 / 2 ^ 27 ≤ q) (h1 : q ≤ 1) :
    rnd_val binary32 q = 1 := by
  refine le_antisymm (rnd_val_binary32_le_one q (by linarith) h1) ?_
  have hlow : rnd_val binary32 ((1 : ℚ) - 1 / 2 ^ 27) = 1 := by
    have := rnd_val_eq_of_near binary32 ((1 : ℚ) - 1 / 2 ^ 27) (-1) (2 ^ 24) (by decide)
      (by norm_num [abs_of_nonneg]) (by norm_num [abs_of_nonneg])
      (by norm_num [binary32, abs_lt])
    rw [this]
    norm_num [binary32]
  rw [← hlow]
  exact rnd_val_mono binary32 binary32_prec_pos _ _ (by norm_num) h0

/-! ## Numbers of both formats -/

theorem two_zpow_le_max_finite (f : FloatFormat) (hp : 0 < f.prec) (t : ℤ) (ht : t ≤ f.emax) :
    (2 : ℚ) ^ t ≤ max_finite f := by
  have h1 : (2 : ℚ) ^ t ≤ (2 : ℚ) ^ f.emax := zpow_le_zpow_right₀ (by norm_num) ht
  have h2 : (2 : ℚ) ^ f.emax
      = (2 : ℚ) ^ (f.prec - 1) * (2 : ℚ) ^ (f.emax - ((f.prec : ℤ) - 1)) := by
    rw [← zpow_natCast, ← zpow_add₀ (by norm_num)]
    congr 1
    have : ((f.prec - 1 : ℕ) : ℤ) = (f.prec : ℤ) - 1 := by omega
    omega
  have h3 : (2 : ℚ) ^ (f.prec - 1) ≤ (2 : ℚ) ^ f.prec - 1 := by
    obtain ⟨p, hp2⟩ : ∃ p, f.prec = p + 1 := ⟨f.prec - 1, by omega⟩
    rw [hp2, Nat.add_sub_cancel, pow_succ]
    have : (1 : ℚ) ≤ (2 : ℚ) ^ p := one_le_pow₀ (by norm_num)
    linarith
  unfold max_finite
  rw [h2] at h1
  exact le_trans h1 (mul_le_mul_of_nonneg_right h3 (le_of_lt (two_zpow_pos _)))

/-- Rounding of a number whose binade is `[2^e, 2^(e+1))` to the multiple `z` of the
unit that is within one half of a unit. -/
theorem rnd_eval (f : FloatFormat) (hp : 0 < f.prec) (q : ℚ) (e z : ℤ) (he : f.emin ≤ e)
    (he2 : e < f.emax) (h1 : (2 : ℚ) ^ e ≤ |q|) (h2 : |q| < (2 : ℚ) ^ (e + 1))
    (hz : |q / (2 : ℚ) ^ (e - ((f.prec : ℤ) - 1)) - z| < 1 / 2) :
    rnd f q = FVal.fin (z * (2 : ℚ) ^ (e - ((f.prec : ℤ) - 1))) := by
  rw [← rnd_val_eq_of_near f q e z he h1 h2 hz]
  exact rnd_fin_of_abs_le f q (e + 1)
    (by rw [ulp_exp_eq f q e he h1 h2]; omega) (le_of_lt h2)
    (two_zpow_le_max_finite f hp (e + 1) (by omega))

/-- A float is a double: a number that `binary32` holds is held by `binary64`. -/
theorem rnd_binary64_of_binary32 (q : ℚ) (h : rnd binary32 q = FVal.fin q) :
    rnd binary64 q = FVal.fin q := by
  have hv : rnd_val binary32 q = q ∧ |q| ≤ max_finite binary32 := by
    unfold rnd at h
    split at h
    · exact absurd h (by simp)
    · split at h
      · exact absurd h (by simp)
      · rename_i h1 h2
        have hq : rnd_val binary32 q = q := by
          injection h
        rw [hq] at h1 h2
        exact ⟨hq, abs_le.mpr ⟨not_lt.mp h2, not_lt.mp h1⟩⟩
  have hk : ulp_exp binary64 q ≤ ulp_exp binary32 q := by
    unfold ulp_exp
    split
    · decide
    · have h1 := le_max_left (Int.log 2 |q|) binary32.emin
      have h2 := le_max_right (Int.log 2 |q|) binary32.emin
      have h3 : max (Int.log 2 |q|) binary64.emin ≤ max (Int.log 2 |q|) binary32.emin :=
        max_le h1 (le_trans (by decide) h2)
      have h4 : (binary32.prec : ℤ) = 24 := rfl
      have h5 : (binary64.prec : ℤ) = 53 := rfl
      omega
  have hq : q = round_half_even (q / (2 : ℚ) ^ ulp_exp binary32 q)
      * (2 : ℚ) ^ ulp_exp binary32 q := hv.1.symm
  have hv64 : rnd_val binary64 q = q := by
    rw [rnd_val_exact binary64 q _ _ hk hq, ← hq]
  have hmax : max_finite binary32 ≤ max_finite binary64 := by
    norm_num [max_finite, binary32, binary64]
  have hb := abs_le.mp hv.2
  have := rnd_eq_fin binary64 q (by rw [hv64]; linarith [hb.1]) (by rw [hv64]; linarith [hb.2])
  rw [this, hv64]

theorem rnd_binary64_one : rnd binary64 (1 : ℚ) = FVal.fin 1 :=
  rnd_binary64_of_binary32 1 rnd_binary32_one

/-! ## The search of `fill_model` -/

section Aligner

variable (N : Nat) (x X T : Nat → ℚ)

/-- The inner loop does not pass a step `t` whose successor is not below the target. -/
theorem advance_le_of_stop (target : ℚ) (t : Nat) (hstop : ¬ (t + 1 < N ∧ x (t + 1) < target)) :
    ∀ fuel tidx, tidx ≤ t → advance N x target fuel tidx ≤ t
  | 0, tidx => by
    intro h
    simpa [advance] using h
  | fuel + 1, tidx => by
    intro h
    unfold advance
    split
    · rename_i hc
      have hne : tidx ≠ t := by
        rintro rfl
        exact hstop hc
      exact advance_le_of_stop target t hstop fuel (tidx + 1) (by omega)
    · exact h

/-- The inner loop stops exactly at `t` when the steps up to `t` are below the
target and the step after `t` is not. -/
theorem advance_eq_of_below (target : ℚ) (t : Nat) (ht : t < N)
    (hbelow : ∀ j, 1 ≤ j → j ≤ t → x j < target)
    (hstop : ¬ (t + 1 < N ∧ x (t + 1) < target)) :
    ∀ fuel tidx, tidx ≤ t → t - tidx ≤ fuel → advance N x target fuel tidx = t
  | 0, tidx => by
    intro h hf
    simp only [advance]
    omega
  | fuel + 1, tidx => by
    intro h hf
    unfold advance
    split
    · rename_i hc
      have hne : tidx ≠ t := by
        rintro rfl
        exact hstop hc
      exact advance_eq_of_below target t ht hbelow hstop fuel (tidx + 1) (by omega) (by omega)
    · rename_i hc
      by_contra hne
      exact hc ⟨by omega, hbelow (tidx + 1) (by omega) (by omega)⟩

theorem align_step_length (xidx : Nat) (s : AlignState) :
    (align_step N x X T xidx s).plan_t.length = s.plan_t.length := by
  unfold align_step
  split
  · rfl
  · dsimp only
    split <;> simp

theorem align_upto_length : ∀ n, (align_upto N x X T n).plan_t.length = N
  | 0 => by simp [align_upto]
  | n + 1 => by
    rw [align_upto, align_step_length, align_upto_length n]

/-- Iteration `xidx` writes no slot other than `plan_t[xidx]`. -/
theorem align_step_other (xidx j : Nat) (s : AlignState) (h : xidx ≠ j) :
    (align_step N x X T xidx s).plan_t.getD j none = s.plan_t.getD j none := by
  unfold align_step
  split
  · rfl
  · dsimp only
    split <;> exact getD_set_other _ _ _ _ _ h

/-- Once the `break` is taken the state no longer changes. -/
theorem align_upto_stopped (n : Nat) (h : (align_upto N x X T n).stopped = true) :
    ∀ m, align_upto N x X T (n + m) = align_upto N x X T n
  | 0 => rfl
  | m + 1 => by
    have ih := align_upto_stopped n h m
    rw [← Nat.add_assoc, align_upto, ih, align_step, if_pos h]

/-- A slot keeps the value it has after its own iteration. -/
theorem align_upto_later (j : Nat) :
    ∀ m, (align_upto N x X T (j + m)).plan_t.getD j none = (align_upto N x X T j).plan_t.getD j none
  | 0 => rfl
  | m + 1 => by
    rw [← Nat.add_assoc, align_upto, align_step_other N x X T _ _ _ (by omega)]
    exact align_upto_later j m

/-- A slot beyond the iterations run so far still holds the `NAN` fill. -/
theorem align_upto_unfilled (j : Nat) :
    ∀ n, n < j → (align_upto N x X T n).plan_t.getD j none = none
  | 0 => by
    intro h
    rw [align_upto]
    dsimp only
    rw [getD_set_other _ _ _ _ _ (by omega)]
    simp only [List.getD_eq_getElem?_getD, List.getElem?_replicate]
    split <;> rfl
  | n + 1 => by
    intro h
    rw [align_upto, align_step_other N x X T _ _ _ (by omega)]
    exact align_upto_unfilled j n (by omega)

/-- The final `plan_t[xidx]` is the value written by iteration `xidx`. -/
theorem plan_t_getD (xidx : Nat) (h : xidx < N) :
    (plan_t N x X T).getD xidx none = (align_upto N x X T xidx).plan_t.getD xidx none := by
  unfold plan_t
  obtain ⟨m, hm⟩ : ∃ m, N - 1 = xidx + m := ⟨N - 1 - xidx, by omega⟩
  rw [hm]
  exact align_upto_later N x X T xidx m

/-- Before a target whose first reaching step is `t + 1`, no iteration takes the
`break` and the search has not passed `t`. -/
theorem align_upto_before_reach (xidx t : Nat)
    (hmono : ∀ a b, a ≤ b → b ≤ xidx → X a ≤ X b) (ht : t + 1 < N)
    (hstop : ¬ x (t + 1) < X xidx) :
    ∀ n, n < xidx →
      (align_upto N x X T n).stopped = false ∧ (align_upto N x X T n).tidx ≤ t
  | 0 => by
    intro _
    simp [align_upto]
  | n + 1 => by
    intro hn
    obtain ⟨hrun, hle⟩ := align_upto_before_reach xidx t hmono ht hstop n (by omega)
    have hstop2 : ¬ (t + 1 < N ∧ x (t + 1) < X (n + 1)) := by
      rintro ⟨_, hlt⟩
      exact hstop (lt_of_lt_of_le hlt (hmono (n + 1) xidx (by omega) (Nat.le_refl _)))
    have hadv := advance_le_of_stop N x (X (n + 1)) t hstop2 N _ hle
    have hne : advance N x (X (n + 1)) N (align_upto N x X T n).tidx ≠ N - 1 := by omega
    rw [align_upto, align_step]
    simp only [hrun, hne, if_false, Bool.false_eq_true]
    exact ⟨trivial, hadv⟩

/-- The slot of a target whose first reaching step is `t + 1` holds the
interpolation between the steps `t` and `t + 1`. -/
theorem plan_t_first_reach (xidx t : Nat) (h1 : 1 ≤ xidx) (hN : xidx < N)
    (hmono : ∀ a b, a ≤ b → b ≤ xidx → X a ≤ X b) (ht : t + 1 < N)
    (hbelow : ∀ j, 1 ≤ j → j ≤ t → x j < X xidx)
    (hstop : ¬ x (t + 1) < X xidx) :
    (plan_t N x X T).getD xidx none =
      interpolate (X xidx) (x t) (x (t + 1)) (T t) (T (t + 1)) := by
  obtain ⟨n, rfl⟩ : ∃ n, xidx = n + 1 := ⟨xidx - 1, by omega⟩
  obtain ⟨hrun, hle⟩ := align_upto_before_reach N x X T (n + 1) t hmono ht hstop n (by omega)
  have hadv : advance N x (X (n + 1)) N (align_upto N x X T n).tidx = t :=
    advance_eq_of_below N x (X (n + 1)) t (by omega) hbelow (fun hc => hstop hc.2) N _ hle
      (by omega)
  have hne : t ≠ N - 1 := by omega
  rw [plan_t_getD N x X T (n + 1) hN, align_upto, align_step]
  simp only [hrun, hadv, hne, if_false, Bool.false_eq_true]
  exact getD_set_self _ _ _ _ (by rw [align_upto_length]; exact hN)

end Aligner

/-! ## C1: the fallback of the search -/

/-- C1, as amended: when iteration `xidx >= 1` of the search is reached and ends on
the last trajectory step, `plan_t[xidx]` is the maximum time
`T_IDXS[TRAJECTORY_SIZE-1]`, and the loop stops there: every later slot
`plan_t[j]`, `xidx < j < TRAJECTORY_SIZE`, keeps the `NAN` it was filled with. -/
theorem fallback_sets_current_slot_only (N : Nat) (x X T : Nat → ℚ) (xidx : Nat)
    (h1 : 1 ≤ xidx) (hN : xidx < N)
    (hrun : (align_upto N x X T (xidx - 1)).stopped = false)
    (hlast : advance N x (X xidx) N (align_upto N x X T (xidx - 1)).tidx = N - 1) :
    (plan_t N x X T).getD xidx none = some (T (N - 1)) ∧
      ∀ j, xidx < j → j < N → (plan_t N x X T).getD j none = none := by
  obtain ⟨n, rfl⟩ : ∃ n, xidx = n + 1 := ⟨xidx - 1, by omega⟩
  simp only [Nat.add_sub_cancel] at hrun hlast
  have hstep : align_upto N x X T (n + 1) =
      { tidx := N - 1
        plan_t := (align_upto N x X T n).plan_t.set (n + 1) (some (T (N - 1)))
        stopped := true } := by
    rw [align_upto, align_step]
    simp only [hrun, hlast, if_true, if_false, Bool.false_eq_true]
  constructor
  · rw [plan_t_getD N x X T (n + 1) hN, hstep]
    exact getD_set_self _ _ _ _ (by rw [align_upto_length]; exact hN)
  · intro j hj hjN
    obtain ⟨m, hm⟩ : ∃ m, N - 1 = (n + 1) + m := ⟨N - 1 - (n + 1), by omega⟩
    have hstopped : (align_upto N x X T (n + 1)).stopped = true := by rw [hstep]
    unfold plan_t
    rw [hm, align_upto_stopped N x X T (n + 1) hstopped m]
    exact align_upto_unfilled N x X T j (n + 1) hj

/-- C1, witness: a plan at standstill on the grid of 33 points; the search for the
first target runs to the last step. -/
theorem fallback_sets_current_slot_only_witness :
    (plan_t 33 (fun _ => 0) (quad_idxs 192) (quad_idxs 10)).getD 1 none
        = some (quad_idxs 10 (33 - 1)) ∧
      ∀ j, 1 < j → j < 33 →
        (plan_t 33 (fun _ => 0) (quad_idxs 192) (quad_idxs 10)).getD j none = none :=
  fallback_sets_current_slot_only 33 (fun _ => 0) (quad_idxs 192) (quad_idxs 10) 1
    (by decide) (by decide) (by simp [align_upto])
    (by simp [align_upto, advance, quad_idxs])

/-- C1, counterexample: for a plan at standstill the search for target index 1
ends on the last step (index 32); `plan_t[1]` is the maximum time `10`, but the
later slot `plan_t[2]` is not: it is still `NAN`. -/
theorem fallback_later_slots_counterexample :
    (align_upto 33 (fun _ => 0) (quad_idxs 192) (quad_idxs 10) 0).stopped = false ∧
      advance 33 (fun _ => 0) (quad_idxs 192 1) 33
        (align_upto 33 (fun _ => 0) (quad_idxs 192) (quad_idxs 10) 0).tidx = 32 ∧
      (plan_t 33 (fun _ => 0) (quad_idxs 192) (quad_idxs 10)).getD 1 none = some 10 ∧
      (plan_t 33 (fun _ => 0) (quad_idxs 192) (quad_idxs 10)).getD 2 none
        ≠ some (quad_idxs 10 32) := by
  refine ⟨by simp [align_upto], by simp [align_upto, advance, quad_idxs], ?_, ?_⟩
  · simp [plan_t, align_upto, align_step, advance, quad_idxs]
  · simp [plan_t, align_upto, align_step, advance, quad_idxs]

/-! ## C2: exact matches -/

/-! ### The search in the arithmetic of the code -/

section AlignerF32

variable (N : Nat) (x X T : Nat → ℚ)

/-- The search visits the same steps in the arithmetic of the code as in exact
arithmetic: its comparisons are exact. -/
theorem align_upto_f32_search :
    ∀ n, (align_upto_f32 N x X T n).tidx = (align_upto N x X T n).tidx ∧
      (align_upto_f32 N x X T n).stopped = (align_upto N x X T n).stopped
  | 0 => ⟨rfl, rfl⟩
  | n + 1 => by
    obtain ⟨ht, hs⟩ := align_upto_f32_search n
    rw [align_upto_f32, align_upto, align_step_f32, align_step, hs, ht]
    split
    · exact ⟨ht, hs⟩
    · dsimp only
      split <;> exact ⟨rfl, rfl⟩

theorem align_step_f32_length (xidx : Nat) (s : AlignStateF32) :
    (align_step_f32 N x X T xidx s).plan_t.length = s.plan_t.length := by
  unfold align_step_f32
  split
  · rfl
  · dsimp only
    split <;> simp

theorem align_upto_f32_length : ∀ n, (align_upto_f32 N x X T n).plan_t.length = N
  | 0 => by simp [align_upto_f32]
  | n + 1 => by
    rw [align_upto_f32, align_step_f32_length, align_upto_f32_length n]

theorem align_step_f32_other (xidx j : Nat) (s : AlignStateF32) (h : xidx ≠ j) :
    (align_step_f32 N x X T xidx s).plan_t.getD j FVal.nan = s.plan_t.getD j FVal.nan := by
  unfold align_step_f32
  split
  · rfl
  · dsimp only
    split <;> exact getD_set_other _ _ _ _ _ h

theorem align_upto_f32_later (j : Nat) :
    ∀ m, (align_upto_f32 N x X T (j + m)).plan_t.getD j FVal.nan
      = (align_upto_f32 N x X T j).plan_t.getD j FVal.nan
  | 0 => rfl
  | m + 1 => by
    rw [← Nat.add_assoc, align_upto_f32, align_step_f32_other N x X T _ _ _ (by omega)]
    exact align_upto_f32_later j m

theorem plan_t_f32_getD (xidx : Nat) (h : xidx < N) :
    (plan_t_f32 N x X T).getD xidx FVal.nan
      = (align_upto_f32 N x X T xidx).plan_t.getD xidx FVal.nan := by
  unfold plan_t_f32
  obtain ⟨m, hm⟩ : ∃ m, N - 1 = xidx + m := ⟨N - 1 - xidx, by omega⟩
  rw [hm]
  exact align_upto_f32_later N x X T xidx m

/-- In the arithmetic of the code, the slot of a target whose first reaching step
is `t + 1` holds the interpolation between the steps `t` and `t + 1`. -/
theorem plan_t_f32_first_reach (xidx t : Nat) (h1 : 1 ≤ xidx) (hN : xidx < N)
    (hmono : ∀ a b, a ≤ b → b ≤ xidx → X a ≤ X b) (ht : t + 1 < N)
    (hbelow : ∀ j, 1 ≤ j → j ≤ t → x j < X xidx)
    (hstop : ¬ x (t + 1) < X xidx) :
    (plan_t_f32 N x X T).getD xidx FVal.nan =
      interpolate_f32 (X xidx) (x t) (x (t + 1)) (T t) (T (t + 1)) := by
  obtain ⟨n, rfl⟩ : ∃ n, xidx = n + 1 := ⟨xidx - 1, by omega⟩
  obtain ⟨hrun, hle⟩ := align_upto_before_reach N x X T (n + 1) t hmono ht hstop n (by omega)
  obtain ⟨htid, hstp⟩ := align_upto_f32_search N x X T n
  rw [← htid] at hle
  rw [← hstp] at hrun
  have hadv : advance N x (X (n + 1)) N (align_upto_f32 N x X T n).tidx = t :=
    advance_eq_of_below N x (X (n + 1)) t (by omega) hbelow (fun hc => hstop hc.2) N _ hle
      (by omega)
  have hne : t ≠ N - 1 := by omega
  rw [plan_t_f32_getD N x X T (n + 1) hN, align_upto_f32, align_step_f32]
  simp only [hrun, hadv, hne, if_false, Bool.false_eq_true]
  exact getD_set_self _ _ _ _ (by rw [align_upto_f32_length]; exact hN)

end AlignerF32

/-! ### Exact matches in the arithmetic of the code -/

/-- The interpolation of the code at a target equal to the position of the next
step, when the float difference of the two positions is exact and the time of the
next step is a double. -/
theorem interpolate_f32_at_next (a b t0 t1 : ℚ) (h : a < b)
    (hsub : fsub binary32 (FVal.fin b) (FVal.fin a) = FVal.fin (b - a))
    (ht : rnd binary64 t1 = FVal.fin t1) :
    interpolate_f32 b a b t0 t1 = rnd binary32 t1 := by
  have hne : b - a ≠ 0 := sub_ne_zero.mpr (ne_of_gt h)
  have h32 : rnd binary32 (b - a) = FVal.fin (b - a) := hsub
  have h64 := rnd_binary64_of_binary32 _ h32
  unfold interpolate_f32
  simp only [fsub, fdiv, fmul, fadd, fcvt, h32, h64, if_neg hne, div_self hne, rnd_binary64_one,
    rnd_binary32_one, sub_self, rnd_zero, one_mul, zero_mul, add_zero, ht]

/-- The interpolation of the code at a target equal to the position of the current
step, when the float difference of the two positions is exact and the time of the
current step is a double. -/
theorem interpolate_f32_at_current (a b t0 t1 : ℚ) (h : a < b)
    (hsub : fsub binary32 (FVal.fin b) (FVal.fin a) = FVal.fin (b - a))
    (ht : rnd binary64 t0 = FVal.fin t0) :
    interpolate_f32 a a b t0 t1 = rnd binary32 t0 := by
  have hne : b - a ≠ 0 := sub_ne_zero.mpr (ne_of_gt h)
  have h32 : rnd binary32 (b - a) = FVal.fin (b - a) := hsub
  unfold interpolate_f32
  simp only [fsub, fdiv, fmul, fadd, fcvt, h32, if_neg hne, zero_div, rnd_binary32_one,
    sub_self, sub_zero, rnd_zero, one_mul, zero_mul, zero_add, ht]

/-- The time stored for an exact match at the first step that reaches the target,
in the arithmetic of the code. -/
theorem plan_t_f32_exact_match (N : Nat) (x X T : Nat → ℚ) (xidx k : Nat)
    (h1 : 1 ≤ xidx) (hN : xidx < N) (hk : k < N)
    (hmono : ∀ a b, a ≤ b → b ≤ xidx → X a ≤ X b)
    (hexact : x k = X xidx)
    (hfirst : ∀ j, j < k → x j < X xidx)
    (hzero : k = 0 → x 0 < x 1)
    (hsub : fsub binary32 (FVal.fin (x (k - 1 + 1))) (FVal.fin (x (k - 1)))
      = FVal.fin (x (k - 1 + 1) - x (k - 1)))
    (hT : rnd binary64 (T k) = FVal.fin (T k)) :
    (plan_t_f32 N x X T).getD xidx FVal.nan = rnd binary32 (T k) := by
  cases k with
  | zero =>
    have hlt := hzero rfl
    rw [plan_t_f32_first_reach N x X T xidx 0 h1 hN hmono (by omega)
      (fun j hj1 hj0 => absurd hj0 (by omega)) (by rw [← hexact]; exact not_lt.mpr (le_of_lt hlt)),
      ← hexact]
    exact interpolate_f32_at_current _ _ _ _ hlt hsub hT
  | succ t =>
    rw [plan_t_f32_first_reach N x X T xidx t h1 hN hmono hk
      (fun j _ hjt => hfirst j (by omega)) (by rw [← hexact]; exact lt_irrefl _), ← hexact]
    exact interpolate_f32_at_next _ _ _ _ (by rw [hexact]; exact hfirst t (by omega)) hsub hT

/-- C2, as amended: for an ascending `X_IDXS`, if the plan's position at grid index
`k` equals the target distance `X_IDXS[xidx]` (`xidx >= 1`), `k` is the first step
that reaches it (every earlier step is strictly below it, and for `k = 0` the
step after it is strictly beyond it), the float subtraction of the two positions
that bracket the target (steps `k - 1` and `k`, steps `0` and `1` for `k = 0`) is
exact, and `T_IDXS[k]` is a double, then `plan_t[xidx]` is `T_IDXS[k]` converted
to `float`. -/
theorem exact_match_time_f32 (N : Nat) (x X T : Nat → ℚ) (xidx k : Nat)
    (h1 : 1 ≤ xidx) (hN : xidx < N) (hk : k < N)
    (hmono : ∀ a b, a ≤ b → b ≤ xidx → X a ≤ X b)
    (hexact : x k = X xidx)
    (hfirst : ∀ j, j < k → x j < X xidx)
    (hzero : k = 0 → x 0 < x 1)
    (hsub : fsub binary32 (FVal.fin (x (k - 1 + 1))) (FVal.fin (x (k - 1)))
      = FVal.fin (x (k - 1 + 1) - x (k - 1)))
    (hT : rnd binary64 (T k) = FVal.fin (T k)) :
    (plan_t_f32 N x X T).getD xidx FVal.nan = rnd binary32 (T k) :=
  plan_t_f32_exact_match N x X T xidx k h1 hN hk hmono hexact hfirst hzero hsub hT

/-- C2, witness: the scenario plan `[0,1,2,3,5,8,13]` reaches the target distance
`5` exactly at grid index 4, and `5 - 3` is exact in float arithmetic. -/
theorem exact_match_time_f32_witness :
    (plan_t_f32 7 scenario_x (fun i => 5 * (i : ℚ)) scenario_t).getD 1 FVal.nan
      = rnd binary32 (scenario_t 4) :=
  exact_match_time_f32 7 scenario_x (fun i => 5 * (i : ℚ)) scenario_t 1 4 (by decide) (by decide)
    (by decide)
    (fun a b hab _ => by
      have : (a : ℚ) ≤ (b : ℚ) := by exact_mod_cast hab
      simpa using this)
    (by simp [scenario_x, rd])
    (fun j hj => by
      interval_cases j <;> simp [scenario_x, rd] <;> norm_num)
    (by intro h; exact absurd h (by decide))
    (rnd_exact binary32 _ 2 0 (by decide) (by simp [scenario_x, rd]; norm_num)
      (by simp [scenario_x, rd, binary32]; norm_num [abs_lt])
      (two_zpow_le_max_finite binary32 (by decide) _ (by decide)))
    (rnd_exact binary64 _ 4 0 (by decide) (by simp [scenario_t])
      (by simp [scenario_t, binary64]; norm_num [abs_lt])
      (two_zpow_le_max_finite binary64 (by decide) _ (by decide)))

theorem quad_idxs_ascending (m : ℚ) (hm : 0 ≤ m) (a b : Nat) (hab : a ≤ b) :
    quad_idxs m a ≤ quad_idxs m b := by
  have h : (a : ℚ) ≤ (b : ℚ) := by exact_mod_cast hab
  have ha : (0 : ℚ) ≤ (a : ℚ) := Nat.cast_nonneg a
  unfold quad_idxs
  have h1 : (a : ℚ) / 32 ≤ (b : ℚ) / 32 := by linarith
  have h2 : (0 : ℚ) ≤ (a : ℚ) / 32 := by positivity
  have h3 : (a : ℚ) / 32 * ((a : ℚ) / 32) ≤ (b : ℚ) / 32 * ((b : ℚ) / 32) :=
    mul_le_mul h1 h1 h2 (le_trans h2 h1)
  nlinarith

/-! ### The float rounding of an exact match -/

theorem rounding_numerator : rnd binary64 ((3 : ℚ) / 16 - (1 / 64 + 3 / 2 ^ 29))
    = FVal.fin (92274685 / 2 ^ 29) := by
  rw [rnd_exact binary64 _ 92274685 (-29) (by decide) (by norm_num)
    (by norm_num [binary64, abs_lt])
    (two_zpow_le_max_finite binary64 (by decide) _ (by decide))]
  norm_num

/-- The float subtraction `0.1875 - x[0]` rounds up to `0.171875`. -/
theorem rounding_denominator :
    rnd binary32 ((3 : ℚ) / 16 - (1 / 64 + 3 / 2 ^ 29)) = FVal.fin (11 / 64) := by
  rw [rnd_eval binary32 (by decide) _ (-3) 11534336 (by decide) (by decide)
    (by norm_num [abs_of_nonneg]) (by norm_num [abs_of_nonneg])
    (by norm_num [binary32, abs_lt])]
  norm_num [binary32]

theorem rounding_quotient : rnd binary64 ((92274685 : ℚ) / 2 ^ 29 / (11 / 64))
    = FVal.fin (9007198961902313 / 2 ^ 53) := by
  rw [rnd_eval binary64 (by decide) _ (-1) 9007198961902313 (by decide) (by decide)
    (by norm_num [abs_of_nonneg]) (by norm_num [abs_of_nonneg])
    (by norm_num [binary64, abs_lt])]
  norm_num [binary64]

/-- The quotient, stored to the float `p`, is `1 - 2^-24`. -/
theorem rounding_p :
    rnd binary32 ((9007198961902313 : ℚ) / 2 ^ 53) = FVal.fin (16777215 / 2 ^ 24) := by
  rw [rnd_eval binary32 (by decide) _ (-1) 16777215 (by decide) (by decide)
    (by norm_num [abs_of_nonneg]) (by norm_num [abs_of_nonneg])
    (by norm_num [binary32, abs_lt])]
  norm_num [binary32]

theorem rounding_one_sub_p :
    rnd binary32 ((1 : ℚ) - 16777215 / 2 ^ 24) = FVal.fin (1 / 2 ^ 24) := by
  rw [rnd_exact binary32 _ 1 (-24) (by decide) (by norm_num)
    (by norm_num [binary32, abs_lt])
    (two_zpow_le_max_finite binary32 (by decide) _ (by decide))]
  norm_num

theorem rounding_product : rnd binary64 ((16777215 : ℚ) / 2 ^ 24 * (5 / 512))
    = FVal.fin (83886075 / 2 ^ 33) := by
  rw [rnd_exact binary64 _ 83886075 (-33) (by decide) (by norm_num)
    (by norm_num [binary64, abs_lt])
    (two_zpow_le_max_finite binary64 (by decide) _ (by decide))]
  norm_num

theorem rounding_sum :
    rnd binary64 ((83886075 : ℚ) / 2 ^ 33 + 0) = FVal.fin (83886075 / 2 ^ 33) := by
  rw [rnd_exact binary64 _ 83886075 (-33) (by decide) (by norm_num)
    (by norm_num [binary64, abs_lt])
    (two_zpow_le_max_finite binary64 (by decide) _ (by decide))]
  norm_num

/-- The sum, stored to the float `plan_t[xidx]`, is one unit in the last place
below `5/512`. -/
theorem rounding_stored :
    rnd binary32 ((83886075 : ℚ) / 2 ^ 33) = FVal.fin (10485759 / 2 ^ 30) := by
  rw [rnd_eval binary32 (by decide) _ (-7) 10485759 (by decide) (by decide)
    (by norm_num [abs_of_nonneg]) (by norm_num [abs_of_nonneg])
    (by norm_num [binary32, abs_lt])]
  norm_num [binary32]

theorem rounding_p_stage :
    fcvt binary32
      (fdiv binary64 (fsub binary64 (FVal.fin (3 / 16)) (FVal.fin (1 / 64 + 3 / 2 ^ 29)))
        (fsub binary32 (FVal.fin (3 / 16)) (FVal.fin (1 / 64 + 3 / 2 ^ 29))))
      = FVal.fin (16777215 / 2 ^ 24) := by
  have e1 : fsub binary64 (FVal.fin (3 / 16)) (FVal.fin (1 / 64 + 3 / 2 ^ 29))
      = FVal.fin (92274685 / 2 ^ 29) := rounding_numerator
  have e2 : fsub binary32 (FVal.fin (3 / 16)) (FVal.fin (1 / 64 + 3 / 2 ^ 29))
      = FVal.fin (11 / 64) := rounding_denominator
  have e3 : fdiv binary64 (FVal.fin (92274685 / 2 ^ 29)) (FVal.fin (11 / 64))
      = FVal.fin (9007198961902313 / 2 ^ 53) := by
    show (if (11 / 64 : ℚ) = 0 then _ else rnd binary64 ((92274685 : ℚ) / 2 ^ 29 / (11 / 64)))
      = _
    rw [if_neg (by norm_num)]
    exact rounding_quotient
  have e4 : fcvt binary32 (FVal.fin (9007198961902313 / 2 ^ 53))
      = FVal.fin (16777215 / 2 ^ 24) := rounding_p
  rw [e1, e2, e3, e4]

theorem rounding_time_stage :
    fcvt binary32
      (fadd binary64 (fmul binary64 (FVal.fin (16777215 / 2 ^ 24)) (FVal.fin (5 / 512)))
        (fmul binary64 (fsub binary32 (FVal.fin 1) (FVal.fin (16777215 / 2 ^ 24)))
          (FVal.fin 0)))
      = FVal.fin (10485759 / 2 ^ 30) := by
  have e1 : fsub binary32 (FVal.fin 1) (FVal.fin (16777215 / 2 ^ 24)) = FVal.fin (1 / 2 ^ 24) :=
    rounding_one_sub_p
  have e2 : fmul binary64 (FVal.fin (16777215 / 2 ^ 24)) (FVal.fin (5 / 512))
      = FVal.fin (83886075 / 2 ^ 33) := rounding_product
  have e3 : fmul binary64 (FVal.fin (1 / 2 ^ 24)) (FVal.fin 0) = FVal.fin 0 := by
    show rnd binary64 ((1 : ℚ) / 2 ^ 24 * 0) = FVal.fin 0
    rw [mul_zero]
    exact rnd_zero binary64
  have e4 : fadd binary64 (FVal.fin (83886075 / 2 ^ 33)) (FVal.fin 0)
      = FVal.fin (83886075 / 2 ^ 33) := rounding_sum
  have e5 : fcvt binary32 (FVal.fin (83886075 / 2 ^ 33)) = FVal.fin (10485759 / 2 ^ 30) :=
    rounding_stored
  rw [e1, e2, e3, e4, e5]

/-- The interpolation of the code between the first two steps of `rounding_x`, for
the target `0.1875` that the second step matches: the float subtraction
`0.1875 - x[0]` rounds up, the quotient is below `1` by more than `2^-25`, `p` is
the float `1 - 2^-24`, and the stored time is one unit in the last place below
`5/512`. -/
theorem interpolate_f32_rounding :
    interpolate_f32 (3 / 16) (1 / 64 + 3 / 2 ^ 29) (3 / 16) 0 (5 / 512)
      = FVal.fin (10485759 / 2 ^ 30) := by
  unfold interpolate_f32
  rw [rounding_p_stage, rounding_time_stage]

theorem rounding_x_increasing (i : Nat) : rounding_x i < rounding_x (i + 1) := by
  unfold rounding_x
  cases i with
  | zero => norm_num
  | succ n =>
    rw [if_neg (by omega), if_neg (by omega)]
    push_cast
    linarith

/-- C2, counterexample.  First, the plan `creep_x` is non-decreasing and its
position at grid index 2 equals the target distance `X_IDXS[1] = 0.1875`, but
`plan_t[1]` is the time of grid index 1, where the plan first reaches that
distance, not the time of grid index 2.  Second, the plan `rounding_x` is a
strictly increasing plan of floats whose position at grid index 1 equals
`X_IDXS[1]`, but `plan_t[1]` is `10485759 * 2^-30`, one unit in the last place
below `T_IDXS[1] = 10485760 * 2^-30`. -/
theorem exact_match_f32_counterexample :
    (creep_x 2 = quad_idxs 192 1 ∧
      (plan_t_f32 33 creep_x (quad_idxs 192) (quad_idxs 10)).getD 1 FVal.nan
        = FVal.fin (quad_idxs 10 1) ∧
      rnd binary32 (quad_idxs 10 2) = FVal.fin (quad_idxs 10 2) ∧
      quad_idxs 10 1 ≠ quad_idxs 10 2) ∧
    (rounding_x 1 = quad_idxs 192 1 ∧ (∀ i, rounding_x i < rounding_x (i + 1)) ∧
      rnd binary32 (rounding_x 0) = FVal.fin (rounding_x 0) ∧
      rnd binary32 (rounding_x 1) = FVal.fin (rounding_x 1) ∧
      (plan_t_f32 33 rounding_x (quad_idxs 192) (quad_idxs 10)).getD 1 FVal.nan
        = FVal.fin (10485759 / 2 ^ 30) ∧
      rnd binary32 (quad_idxs 10 1) = FVal.fin (10485760 / 2 ^ 30)) := by
  have hX : quad_idxs 192 1 = 3 / 16 := by norm_num [quad_idxs]
  have hT0 : quad_idxs 10 0 = 0 := by norm_num [quad_idxs]
  have hT1 : quad_idxs 10 1 = 5 / 512 := by norm_num [quad_idxs]
  have hT2 : quad_idxs 10 2 = 5 / 128 := by norm_num [quad_idxs]
  have hr0 : rounding_x 0 = 1 / 64 + 3 / 2 ^ 29 := by simp [rounding_x]
  have hr1 : rounding_x 1 = 3 / 16 := by norm_num [rounding_x]
  have hmono : ∀ a b, a ≤ b → b ≤ 1 → quad_idxs 192 a ≤ quad_idxs 192 b :=
    fun a b hab _ => quad_idxs_ascending 192 (by norm_num) a b hab
  have e32 : rnd binary32 ((5 : ℚ) / 512) = FVal.fin (5 / 512) :=
    rnd_exact binary32 _ 5 (-9) (by decide) (by norm_num) (by norm_num [binary32, abs_lt])
      (two_zpow_le_max_finite binary32 (by decide) _ (by decide))
  refine ⟨⟨by rw [hX]; simp [creep_x], ?_, ?_, by rw [hT1, hT2]; norm_num⟩,
    ⟨by rw [hX, hr1], rounding_x_increasing, ?_, ?_, ?_, ?_⟩⟩
  · rw [plan_t_f32_exact_match 33 creep_x (quad_idxs 192) (quad_idxs 10) 1 1 (by decide)
      (by decide) (by decide) hmono (by rw [hX]; simp [creep_x])
      (fun j hj => by
        have : j = 0 := by omega
        subst this
        rw [hX]
        norm_num [creep_x])
      (fun h => absurd h (by decide))
      (rnd_exact binary32 _ 3 (-4) (by decide) (by norm_num [creep_x])
        (by norm_num [creep_x, binary32, abs_lt])
        (two_zpow_le_max_finite binary32 (by decide) _ (by decide)))
      (by
        rw [hT1]
        exact rnd_binary64_of_binary32 _ e32), hT1]
    exact e32
  · rw [hT2]
    exact rnd_exact binary32 _ 5 (-7) (by decide) (by norm_num) (by norm_num [binary32, abs_lt])
      (two_zpow_le_max_finite binary32 (by decide) _ (by decide))
  · rw [hr0]
    exact rnd_exact binary32 _ 8388611 (-29) (by decide) (by norm_num)
      (by norm_num [binary32, abs_lt])
      (two_zpow_le_max_finite binary32 (by decide) _ (by decide))
  · rw [hr1]
    exact rnd_exact binary32 _ 3 (-4) (by decide) (by norm_num)
      (by norm_num [binary32, abs_lt])
      (two_zpow_le_max_finite binary32 (by decide) _ (by decide))
  · rw [plan_t_f32_first_reach 33 rounding_x (quad_idxs 192) (quad_idxs 10) 1 0 (by decide)
      (by decide) hmono (by decide) (fun j hj1 hj0 => absurd hj0 (by omega))
      (by rw [hX, hr1]; exact lt_irrefl _), hX, hT0, hT1, hr0]
    show interpolate_f32 (3 / 16) (1 / 64 + 3 / 2 ^ 29) (rounding_x 1) 0 (5 / 512) = _
    rw [hr1]
    exact interpolate_f32_rounding
  · rw [hT1, e32]
    norm_num

/-! ## C3: the interpolation -/

/-- C3: when iteration `xidx` of the search is reached and ends on a step `k` other
than the last one, with `x[k] < X_IDXS[xidx] <= x[k+1]`, then `plan_t[xidx]` is
`T[k] + (X_IDXS[xidx] - x[k]) / (x[k+1] - x[k]) * (T[k+1] - T[k])`; and the plan
`[0,1,2,3,5,8,13]` at times `[0,1,2,3,4,5,6]` gives time `3.5` for every target
index whose distance is `4` in an ascending grid. -/
theorem interpolation_formula :
    (∀ (N : Nat) (x X T : Nat → ℚ) (xidx k : Nat), 1 ≤ xidx → xidx < N →
      (align_upto N x X T (xidx - 1)).stopped = false →
      advance N x (X xidx) N (align_upto N x X T (xidx - 1)).tidx = k →
      k ≠ N - 1 → x k < X xidx → X xidx ≤ x (k + 1) →
      (plan_t N x X T).getD xidx none =
        some (T k + (X xidx - x k) / (x (k + 1) - x k) * (T (k + 1) - T k))) ∧
    (∀ (X : Nat → ℚ) (xidx : Nat), (∀ a b, a ≤ b → b ≤ xidx → X a ≤ X b) →
      1 ≤ xidx → xidx < 7 → X xidx = 4 →
      (plan_t 7 scenario_x X scenario_t).getD xidx none = some (7 / 2)) := by
  constructor
  · intro N x X T xidx k h1 hN hrun hadv hne hlo hhi
    obtain ⟨n, rfl⟩ : ∃ n, xidx = n + 1 := ⟨xidx - 1, by omega⟩
    simp only [Nat.add_sub_cancel] at hrun hadv
    have hden : x (k + 1) - x k ≠ 0 := sub_ne_zero.mpr (ne_of_gt (lt_of_lt_of_le hlo hhi))
    rw [plan_t_getD N x X T (n + 1) hN, align_upto, align_step]
    simp only [hrun, hadv, hne, if_false, Bool.false_eq_true]
    rw [getD_set_self _ _ _ _ (by rw [align_upto_length]; exact hN), interpolate, if_neg hden]
    dsimp only
    congr 1
    ring
  · intro X xidx hmono h1 h7 h4
    rw [plan_t_first_reach 7 scenario_x X scenario_t xidx 3 h1 h7 hmono (by decide)
      (fun j hj1 hj3 => by
        rw [h4]
        interval_cases j <;> simp [scenario_x, rd] <;> norm_num)
      (by rw [h4]; simp [scenario_x, rd]; norm_num), h4]
    simp [interpolate, scenario_x, scenario_t, rd]
    norm_num

/-- C3, witness: the scenario plan on the grid of target distances `4 * i`. -/
theorem interpolation_formula_witness :
    (plan_t 7 scenario_x (fun i => 4 * (i : ℚ)) scenario_t).getD 1 none =
        some (scenario_t 3 + (4 * ((1 : Nat) : ℚ) - scenario_x 3) / (scenario_x (3 + 1) - scenario_x 3)
          * (scenario_t (3 + 1) - scenario_t 3)) ∧
      (plan_t 7 scenario_x (fun i => 4 * (i : ℚ)) scenario_t).getD 1 none = some (7 / 2) :=
  ⟨interpolation_formula.1 7 scenario_x (fun i => 4 * (i : ℚ)) scenario_t 1 3 (by decide)
      (by decide) (by simp [align_upto])
      (by simp [align_upto, advance, scenario_x, rd]; norm_num)
      (by decide) (by simp [scenario_x, rd]; norm_num) (by simp [scenario_x, rd]; norm_num),
    interpolation_formula.2 (fun i => 4 * (i : ℚ)) 1
      (fun a b hab _ => by
        have : (a : ℚ) ≤ (b : ℚ) := by exact_mod_cast hab
        simpa using this)
      (by decide) (by decide) (by simp)⟩

/-! ## The desire pulses of `model_eval_frame` -/

theorem rd_set_self (l : List ℚ) (i : Nat) (v : ℚ) (h : i < l.length) :
    rd (l.set i v) i = v :=
  getD_set_self l i v 0 h

theorem rd_set_other (l : List ℚ) (i j : Nat) (v : ℚ) (h : i ≠ j) :
    rd (l.set i v) j = rd l j :=
  getD_set_other l i j v 0 h

theorem memmove_front_length (buf : List ℚ) (src n : Nat) (h : src + n ≤ buf.length) :
    (memmove_front buf src n).length = buf.length := by
  simp only [memmove_front, List.length_append, List.length_take, List.length_drop]
  omega

section Desire

variable (DL HBL : Nat) (d : List ℚ)

theorem desire_step_pulse (i : Nat) (s : ModelState) :
    (desire_step DL HBL d i s).pulse_desire =
      s.pulse_desire.set (DL * HBL + i)
        (if rd d i - rd s.prev_desire i > 99 / 100 then rd d i else 0) := by
  unfold desire_step
  split <;> rfl

theorem desire_step_prev (i : Nat) (s : ModelState) :
    (desire_step DL HBL d i s).prev_desire = s.prev_desire.set i (rd d i) := by
  unfold desire_step
  split <;> rfl

/-- Invariant of the desire loop after the categories `1, ..., n`. -/
theorem desire_loop_spec (s0 : ModelState) (hp : DL * HBL + DL ≤ s0.pulse_desire.length)
    (hd : s0.prev_desire.length = DL) :
    ∀ n, n < DL →
      (for_upto (fun k st => desire_step DL HBL d (1 + k) st) s0 n).pulse_desire.length
          = s0.pulse_desire.length ∧
      (for_upto (fun k st => desire_step DL HBL d (1 + k) st) s0 n).prev_desire.length
          = s0.prev_desire.length ∧
      (∀ i, n < i →
        rd (for_upto (fun k st => desire_step DL HBL d (1 + k) st) s0 n).prev_desire i
          = rd s0.prev_desire i) ∧
      (∀ i, 1 ≤ i → i ≤ n →
        rd (for_upto (fun k st => desire_step DL HBL d (1 + k) st) s0 n).prev_desire i = rd d i ∧
        rd (for_upto (fun k st => desire_step DL HBL d (1 + k) st) s0 n).pulse_desire (DL * HBL + i)
          = if rd d i - rd s0.prev_desire i > 99 / 100 then rd d i else 0)
  | 0 => by
    intro _
    refine ⟨rfl, rfl, fun i _ => rfl, fun i h1 h0 => absurd h0 (by omega)⟩
  | n + 1 => by
    intro hn
    obtain ⟨hlp, hld, hkeep, hdone⟩ := desire_loop_spec s0 hp hd n (by omega)
    simp only [for_upto]
    rw [desire_step_pulse, desire_step_prev]
    refine ⟨by rw [List.length_set, hlp], by rw [List.length_set, hld], ?_, ?_⟩
    · intro i hi
      rw [rd_set_other _ _ _ _ (by omega)]
      exact hkeep i (by omega)
    · intro i h1 hi
      by_cases hlast : i = 1 + n
      · subst hlast
        rw [rd_set_self _ _ _ (by rw [hld, hd]; omega),
          rd_set_self _ _ _ (by rw [hlp]; omega), hkeep (1 + n) (by omega)]
        exact ⟨rfl, rfl⟩
      · rw [rd_set_other _ _ _ _ (by omega), rd_set_other _ _ _ _ (by omega)]
        exact hdone i h1 (by omega)

end Desire

/-- The rest of `model_eval_frame` leaves `pulse_desire` as the desire block made it. -/
theorem model_eval_frame_pulse_desire (DL HBL FL OS : Nat) (execute : ModelState → List ℚ)
    (s : ModelState) (desire_in : Option (List ℚ)) (is_rhd prepare_only : Bool) :
    (model_eval_frame DL HBL FL OS execute s desire_in is_rhd prepare_only).1.pulse_desire
      = (desire_enqueue DL HBL desire_in s).pulse_desire := by
  unfold model_eval_frame
  dsimp only
  split <;> rfl

/-- The rest of `model_eval_frame` leaves `prev_desire` as the desire block made it. -/
theorem model_eval_frame_prev_desire (DL HBL FL OS : Nat) (execute : ModelState → List ℚ)
    (s : ModelState) (desire_in : Option (List ℚ)) (is_rhd prepare_only : Bool) :
    (model_eval_frame DL HBL FL OS execute s desire_in is_rhd prepare_only).1.prev_desire
      = (desire_enqueue DL HBL desire_in s).prev_desire := by
  unfold model_eval_frame
  dsimp only
  split <;> rfl

/-- What the desire block does for a non-null input: lengths are kept, and each
category other than "none" gets its pulse and its new `prev_desire`. -/
theorem desire_enqueue_spec (DL HBL : Nat) (d : List ℚ) (s : ModelState)
    (hp : s.pulse_desire.length = DL * (HBL + 1)) (hd : s.prev_desire.length = DL) :
    (desire_enqueue DL HBL (some d) s).pulse_desire.length = DL * (HBL + 1) ∧
    (desire_enqueue DL HBL (some d) s).prev_desire.length = DL ∧
    ∀ i, 1 ≤ i → i < DL →
      rd (desire_enqueue DL HBL (some d) s).prev_desire i = rd d i ∧
      rd (desire_enqueue DL HBL (some d) s).pulse_desire (DL * HBL + i)
        = if rd d i - rd s.prev_desire i > 99 / 100 then rd d i else 0 := by
  have hmove : (memmove_front s.pulse_desire DL (DL * HBL)).length = DL * (HBL + 1) := by
    rw [memmove_front_length _ _ _ (by rw [hp, Nat.mul_succ]; omega), hp]
  rcases Nat.eq_zero_or_pos DL with h0 | hpos
  · subst h0
    refine ⟨?_, ?_, fun i _ hi => absurd hi (by omega)⟩
    · simpa [desire_enqueue, for_upto] using hmove
    · simpa [desire_enqueue, for_upto] using hd
  · obtain ⟨hlp, hld, _, hdone⟩ :=
      desire_loop_spec DL HBL d
        { s with pulse_desire := memmove_front s.pulse_desire DL (DL * HBL) }
        (by
          show DL * HBL + DL ≤ (memmove_front s.pulse_desire DL (DL * HBL)).length
          rw [hmove, Nat.mul_succ])
        hd (DL - 1) (by omega)
    refine ⟨?_, ?_, ?_⟩
    · unfold desire_enqueue
      exact hlp.trans hmove
    · unfold desire_enqueue
      exact hld.trans hd
    · intro i h1 hi
      unfold desire_enqueue
      exact hdone i h1 (by omega)

/-- Pulse and `prev_desire` of a category after one call of `model_eval_frame`
with a non-null input, and the array lengths after it. -/
theorem model_eval_frame_desire (DL HBL FL OS : Nat) (execute : ModelState → List ℚ)
    (s : ModelState) (d : List ℚ) (is_rhd prepare_only : Bool)
    (hp : s.pulse_desire.length = DL * (HBL + 1)) (hd : s.prev_desire.length = DL) :
    (model_eval_frame DL HBL FL OS execute s (some d) is_rhd prepare_only).1.pulse_desire.length
        = DL * (HBL + 1) ∧
    (model_eval_frame DL HBL FL OS execute s (some d) is_rhd prepare_only).1.prev_desire.length
        = DL ∧
    ∀ i, 1 ≤ i → i < DL →
      rd (model_eval_frame DL HBL FL OS execute s (some d) is_rhd prepare_only).1.prev_desire i
          = rd d i ∧
      newest_pulse DL HBL (model_eval_frame DL HBL FL OS execute s (some d) is_rhd prepare_only).1 i
          = if rd d i - rd s.prev_desire i > 99 / 100 then rd d i else 0 := by
  unfold newest_pulse
  rw [model_eval_frame_pulse_desire, model_eval_frame_prev_desire]
  exact desire_enqueue_spec DL HBL d s hp hd

/-! ## C4: the desire pulse -/

/-- C4: after a call of `model_eval_frame` with a non-null desire input, for every
category `i` with `1 <= i < DESIRE_LEN` the entry `i` of the newest pulse slot is
`desire_in[i]` if `desire_in[i] - prev_desire[i] > 0.99` and `0.0` otherwise, and
`prev_desire[i]` is `desire_in[i]` in both cases. -/
theorem desire_pulse_encoding (DESIRE_LEN HISTORY_BUFFER_LEN FEATURE_LEN OUTPUT_SIZE : Nat)
    (execute : ModelState → List ℚ) (s : ModelState) (desire_in : List ℚ)
    (is_rhd prepare_only : Bool) (i : Nat)
    (hp : s.pulse_desire.length = DESIRE_LEN * (HISTORY_BUFFER_LEN + 1))
    (hd : s.prev_desire.length = DESIRE_LEN) (h1 : 1 ≤ i) (hi : i < DESIRE_LEN) :
    rd (model_eval_frame DESIRE_LEN HISTORY_BUFFER_LEN FEATURE_LEN OUTPUT_SIZE execute s
        (some desire_in) is_rhd prepare_only).1.pulse_desire (DESIRE_LEN * HISTORY_BUFFER_LEN + i)
      = (if rd desire_in i - rd s.prev_desire i > 99 / 100 then rd desire_in i else 0) ∧
    rd (model_eval_frame DESIRE_LEN HISTORY_BUFFER_LEN FEATURE_LEN OUTPUT_SIZE execute s
        (some desire_in) is_rhd prepare_only).1.prev_desire i = rd desire_in i := by
  obtain ⟨_, _, hcat⟩ :=
    model_eval_frame_desire DESIRE_LEN HISTORY_BUFFER_LEN FEATURE_LEN OUTPUT_SIZE execute s
      desire_in is_rhd prepare_only hp hd
  exact ⟨(hcat i h1 hi).2, (hcat i h1 hi).1⟩

/-- C4, witness: category 3 rises from `0` to `1` on the zero state. -/
theorem desire_pulse_encoding_witness :
    rd (model_eval_frame 8 99 0 0 (fun _ => []) zero_model_state
        (some [0, 0, 0, 1, 0, 0, 0, 0]) false false).1.pulse_desire (8 * 99 + 3)
      = (if rd [0, 0, 0, 1, 0, 0, 0, 0] 3 - rd zero_model_state.prev_desire 3 > 99 / 100
          then rd [0, 0, 0, 1, 0, 0, 0, 0] 3 else 0) ∧
    rd (model_eval_frame 8 99 0 0 (fun _ => []) zero_model_state
        (some [0, 0, 0, 1, 0, 0, 0, 0]) false false).1.prev_desire 3
      = rd [0, 0, 0, 1, 0, 0, 0, 0] 3 :=
  desire_pulse_encoding 8 99 0 0 (fun _ => []) zero_model_state [0, 0, 0, 1, 0, 0, 0, 0]
    false false 3 (List.length_replicate 800 (0 : ℚ)) (List.length_replicate 8 (0 : ℚ))
    (by decide) (by decide)

/-! ## C5: the pulse lasts one frame -/

/-- C5: for a category `i >= 1` and two consecutive calls of `model_eval_frame` with
non-null desire inputs, where `prev_desire[i] >= 0` before the first call and the
second input has `desire[i] <= 1`: if the first call emits a non-zero pulse for
`i`, the second call emits `0.0` for `i`; and when `desire[i]` jumps from `0.0` to
`1.0` the pulse is `1.0` on that frame and `0.0` on the next, whatever the next
input within the range. -/
theorem desire_pulse_one_frame (DESIRE_LEN HISTORY_BUFFER_LEN FEATURE_LEN OUTPUT_SIZE : Nat)
    (execute : ModelState → List ℚ) (s : ModelState) (desire1 desire2 : List ℚ)
    (is_rhd1 prepare_only1 is_rhd2 prepare_only2 : Bool) (i : Nat)
    (hp : s.pulse_desire.length = DESIRE_LEN * (HISTORY_BUFFER_LEN + 1))
    (hd : s.prev_desire.length = DESIRE_LEN) (h1 : 1 ≤ i) (hi : i < DESIRE_LEN)
    (hprev : 0 ≤ rd s.prev_desire i) (hin2 : rd desire2 i ≤ 1) :
    (newest_pulse DESIRE_LEN HISTORY_BUFFER_LEN
        (model_eval_frame DESIRE_LEN HISTORY_BUFFER_LEN FEATURE_LEN OUTPUT_SIZE execute s
          (some desire1) is_rhd1 prepare_only1).1 i ≠ 0 →
      newest_pulse DESIRE_LEN HISTORY_BUFFER_LEN
        (model_eval_frame DESIRE_LEN HISTORY_BUFFER_LEN FEATURE_LEN OUTPUT_SIZE execute
          (model_eval_frame DESIRE_LEN HISTORY_BUFFER_LEN FEATURE_LEN OUTPUT_SIZE execute s
            (some desire1) is_rhd1 prepare_only1).1
          (some desire2) is_rhd2 prepare_only2).1 i = 0) ∧
    (rd s.prev_desire i = 0 → rd desire1 i = 1 →
      newest_pulse DESIRE_LEN HISTORY_BUFFER_LEN
        (model_eval_frame DESIRE_LEN HISTORY_BUFFER_LEN FEATURE_LEN OUTPUT_SIZE execute s
          (some desire1) is_rhd1 prepare_only1).1 i = 1 ∧
      newest_pulse DESIRE_LEN HISTORY_BUFFER_LEN
        (model_eval_frame DESIRE_LEN HISTORY_BUFFER_LEN FEATURE_LEN OUTPUT_SIZE execute
          (model_eval_frame DESIRE_LEN HISTORY_BUFFER_LEN FEATURE_LEN OUTPUT_SIZE execute s
            (some desire1) is_rhd1 prepare_only1).1
          (some desire2) is_rhd2 prepare_only2).1 i = 0) := by
  obtain ⟨hp1, hd1, hcat1⟩ :=
    model_eval_frame_desire DESIRE_LEN HISTORY_BUFFER_LEN FEATURE_LEN OUTPUT_SIZE execute s
      desire1 is_rhd1 prepare_only1 hp hd
  obtain ⟨_, _, hcat2⟩ :=
    model_eval_frame_desire DESIRE_LEN HISTORY_BUFFER_LEN FEATURE_LEN OUTPUT_SIZE execute _
      desire2 is_rhd2 prepare_only2 hp1 hd1
  obtain ⟨hprev1, hpulse1⟩ := hcat1 i h1 hi
  obtain ⟨_, hpulse2⟩ := hcat2 i h1 hi
  rw [hpulse1, hpulse2, hprev1]
  constructor
  · intro hne
    by_cases hc : rd desire1 i - rd s.prev_desire i > 99 / 100
    · have hgt : rd desire2 i - rd desire1 i ≤ 99 / 100 := by linarith
      rw [if_neg (not_lt.mpr hgt)]
    · rw [if_neg hc] at hne
      exact absurd rfl hne
  · intro h0 h11
    have hc : rd desire1 i - rd s.prev_desire i > 99 / 100 := by
      rw [h0, h11]
      norm_num
    have hgt : rd desire2 i - rd desire1 i ≤ 99 / 100 := by linarith
    rw [if_pos hc, if_neg (not_lt.mpr hgt)]
    exact ⟨h11, rfl⟩

/-- C5, witness: category 3 jumps from `0` to `1` and stays at `1`. -/
theorem desire_pulse_one_frame_witness :
    newest_pulse 8 99
        (model_eval_frame 8 99 0 0 (fun _ => []) zero_model_state
          (some [0, 0, 0, 1, 0, 0, 0, 0]) false false).1 3 = 1 ∧
      newest_pulse 8 99
        (model_eval_frame 8 99 0 0 (fun _ => [])
          (model_eval_frame 8 99 0 0 (fun _ => []) zero_model_state
            (some [0, 0, 0, 1, 0, 0, 0, 0]) false false).1
          (some [0, 0, 0, 1, 0, 0, 0, 0]) false false).1 3 = 0 :=
  (desire_pulse_one_frame 8 99 0 0 (fun _ => []) zero_model_state [0, 0, 0, 1, 0, 0, 0, 0]
    [0, 0, 0, 1, 0, 0, 0, 0] false false false false 3 (List.length_replicate 800 (0 : ℚ))
    (List.length_replicate 8 (0 : ℚ)) (by decide) (by decide) (le_of_eq rfl)
    (by simp [rd])).2 rfl (by simp [rd])

/-! ## The hazard rings of `fill_meta` -/

/-- A loop `above = above && P(i)` ends true exactly when it starts true and every
`P(i)` holds. -/
theorem for_upto_and (P : Nat → Prop) [DecidablePred P] (b : Bool) :
    ∀ n, for_upto (fun i above => above && decide (P i)) b n = true ↔
      b = true ∧ ∀ i, i < n → P i
  | 0 => by simp [for_upto]
  | n + 1 => by
    simp only [for_upto, Bool.and_eq_true, decide_eq_true_eq, for_upto_and P b n]
    constructor
    · rintro ⟨⟨hb, hall⟩, hn⟩
      refine ⟨hb, fun i hi => ?_⟩
      rcases Nat.lt_succ_iff_lt_or_eq.mp hi with h | h
      · exact hall i h
      · exact h ▸ hn
    · rintro ⟨hb, hall⟩
      exact ⟨⟨hb, fun i hi => hall i (Nat.lt_succ_of_lt hi)⟩, hall n (Nat.lt_succ_self n)⟩

/-- The flag of the two loops: every slot of each ring is above its threshold. -/
theorem above_fcw_threshold_iff (c : FcwThresholds) (ps : PublishState) :
    above_fcw_threshold c ps = true ↔
      (∀ i, i < ps.prev_brake_5ms2_probs.length →
        rd ps.prev_brake_5ms2_probs i > fcw_threshold_5ms2 c i) ∧
      (∀ i, i < ps.prev_brake_3ms2_probs.length →
        rd ps.prev_brake_3ms2_probs i > c.FCW_THRESHOLD_3MS2) := by
  unfold above_fcw_threshold
  dsimp only
  rw [for_upto_and (fun i => rd ps.prev_brake_3ms2_probs i > c.FCW_THRESHOLD_3MS2),
    for_upto_and (fun i => rd ps.prev_brake_5ms2_probs i > fcw_threshold_5ms2 c i)]
  simp

/-- Pushing into the ring of five: drop the oldest, append the newest. -/
theorem push_ring5 (l : List ℚ) (v : ℚ) (h : l.length = 5) :
    (memmove_front l 1 4).set 4 v = l.drop 1 ++ [v] := by
  match l, h with
  | [_, _, _, _, _], _ => rfl

/-- Pushing into the ring of three: drop the oldest, append the newest. -/
theorem push_ring3 (l : List ℚ) (v : ℚ) (h : l.length = 3) :
    (memmove_front l 1 2).set 2 v = l.drop 1 ++ [v] := by
  match l, h with
  | [_, _, _], _ => rfl

theorem rd_map_range_zero (f : Nat → ℚ) (n : Nat) (h : 0 < n) :
    rd ((List.range n).map f) 0 = f 0 := by
  obtain ⟨m, rfl⟩ : ∃ m, n = m + 1 := ⟨n - 1, by omega⟩
  simp [rd, List.range_succ_eq_map]

section Meta

variable (DESIRE_LEN DESIRE_PRED_LEN DISENGAGE_LEN : Nat) (sigmoid : ℚ → ℚ)
  (softmax : List ℚ → List ℚ) (c : FcwThresholds)

/-- The ring of five after `fill_meta`. -/
theorem fill_meta_ring5 (m : ModelOutputMeta) (ps : PublishState) (hD : 0 < DISENGAGE_LEN)
    (h5 : ps.prev_brake_5ms2_probs.length = 5) :
    (fill_meta DESIRE_LEN DESIRE_PRED_LEN DISENGAGE_LEN sigmoid softmax c m ps).2.prev_brake_5ms2_probs
      = ps.prev_brake_5ms2_probs.drop 1 ++ [brake_5ms2_0 sigmoid m] := by
  unfold fill_meta push_brake_probs brake_5ms2_0
  dsimp only
  rw [rd_map_range_zero _ _ hD, push_ring5 _ _ h5]

/-- The ring of three after `fill_meta`. -/
theorem fill_meta_ring3 (m : ModelOutputMeta) (ps : PublishState) (hD : 0 < DISENGAGE_LEN)
    (h3 : ps.prev_brake_3ms2_probs.length = 3) :
    (fill_meta DESIRE_LEN DESIRE_PRED_LEN DISENGAGE_LEN sigmoid softmax c m ps).2.prev_brake_3ms2_probs
      = ps.prev_brake_3ms2_probs.drop 1 ++ [brake_3ms2_0 sigmoid m] := by
  unfold fill_meta push_brake_probs brake_3ms2_0
  dsimp only
  rw [rd_map_range_zero _ _ hD, push_ring3 _ _ h3]

/-- The flag that `fill_meta` publishes is computed on the rings it leaves. -/
theorem fill_meta_flag (m : ModelOutputMeta) (ps : PublishState) :
    (fill_meta DESIRE_LEN DESIRE_PRED_LEN DISENGAGE_LEN sigmoid softmax c m ps).1.hardBrakePredicted
      = above_fcw_threshold c
          (fill_meta DESIRE_LEN DESIRE_PRED_LEN DISENGAGE_LEN sigmoid softmax c m ps).2 :=
  rfl

end Meta

/-! ## C6: which threshold applies to which slot -/

/-- C6, as amended: in the ring of five (oldest at index 0, newest at index 4) the
flag computed by `fill_meta` compares the two oldest slots (indices 0 and 1) with
`FCW_THRESHOLD_5MS2_LOW` and the three newest slots (indices 2, 3 and 4) with
`FCW_THRESHOLD_5MS2_HIGH`. -/
theorem fcw_threshold_assignment (c : FcwThresholds) (ps : PublishState)
    (h5 : ps.prev_brake_5ms2_probs.length = 5) (h3 : ps.prev_brake_3ms2_probs.length = 3) :
    above_fcw_threshold c ps = true ↔
      (rd ps.prev_brake_5ms2_probs 0 > c.FCW_THRESHOLD_5MS2_LOW ∧
        rd ps.prev_brake_5ms2_probs 1 > c.FCW_THRESHOLD_5MS2_LOW ∧
        rd ps.prev_brake_5ms2_probs 2 > c.FCW_THRESHOLD_5MS2_HIGH ∧
        rd ps.prev_brake_5ms2_probs 3 > c.FCW_THRESHOLD_5MS2_HIGH ∧
        rd ps.prev_brake_5ms2_probs 4 > c.FCW_THRESHOLD_5MS2_HIGH) ∧
      (rd ps.prev_brake_3ms2_probs 0 > c.FCW_THRESHOLD_3MS2 ∧
        rd ps.prev_brake_3ms2_probs 1 > c.FCW_THRESHOLD_3MS2 ∧
        rd ps.prev_brake_3ms2_probs 2 > c.FCW_THRESHOLD_3MS2) := by
  rw [above_fcw_threshold_iff, h5, h3]
  constructor
  · rintro ⟨ha, hb⟩
    exact ⟨⟨ha 0 (by decide), ha 1 (by decide), ha 2 (by decide), ha 3 (by decide),
      ha 4 (by decide)⟩, hb 0 (by decide), hb 1 (by decide), hb 2 (by decide)⟩
  · rintro ⟨⟨a0, a1, a2, a3, a4⟩, b0, b1, b2⟩
    constructor
    · intro i hi
      interval_cases i
      · exact a0
      · exact a1
      · exact a2
      · exact a3
      · exact a4
    · intro i hi
      interval_cases i
      · exact b0
      · exact b1
      · exact b2

/-- C6, witness: a ring of five whose slots are all `1`. -/
theorem fcw_threshold_assignment_witness :
    above_fcw_threshold fcw_example ⟨[], [1, 1, 1, 1, 1], [1, 1, 1]⟩ = true :=
  (fcw_threshold_assignment fcw_example ⟨[], [1, 1, 1, 1, 1], [1, 1, 1]⟩ rfl rfl).mpr
    (by simp [rd, fcw_example]; norm_num)

/-- C6, counterexample: with `LOW = 0.05` and `HIGH = 0.15` the threshold of slot 2
is `HIGH`, not `LOW`; the ring `[1, 1, 0.1, 1, 1]` has its three oldest slots above
`LOW` and its two newest above `HIGH`, and the flag is false. -/
theorem fcw_threshold_slot2_counterexample :
    fcw_threshold_5ms2 fcw_example 2 = fcw_example.FCW_THRESHOLD_5MS2_HIGH ∧
      fcw_threshold_5ms2 fcw_example 2 ≠ fcw_example.FCW_THRESHOLD_5MS2_LOW ∧
      ((1 : ℚ) > fcw_example.FCW_THRESHOLD_5MS2_LOW ∧
        (1 / 10 : ℚ) > fcw_example.FCW_THRESHOLD_5MS2_LOW ∧
        (1 : ℚ) > fcw_example.FCW_THRESHOLD_5MS2_HIGH ∧
        (1 : ℚ) > fcw_example.FCW_THRESHOLD_3MS2) ∧
      above_fcw_threshold fcw_example ⟨[], [1, 1, 1 / 10, 1, 1], [1, 1, 1]⟩ = false := by
  refine ⟨rfl, ?_, ?_, ?_⟩
  · simp [fcw_threshold_5ms2, fcw_example]
    norm_num
  · simp [fcw_example]
    norm_num
  · simp [above_fcw_threshold, for_upto, rd, fcw_threshold_5ms2, fcw_example]
    norm_num

/-! ## C7: the hazard flag -/

/-- C7: for rings of five and three slots and any model output, `fill_meta` pushes
the nearest-horizon readings (oldest slot dropped, newest appended), and the
published `hardBrakePredicted` is true if and only if, on the rings after the
push, each of the five entries of `prev_brake_5ms2_probs` is strictly greater
than the 5ms2 threshold used for its position and each of the three entries of
`prev_brake_3ms2_probs` is strictly greater than `FCW_THRESHOLD_3MS2`. -/
theorem hard_brake_flag_iff (DESIRE_LEN DESIRE_PRED_LEN DISENGAGE_LEN : Nat) (sigmoid : ℚ → ℚ)
    (softmax : List ℚ → List ℚ) (c : FcwThresholds) (m : ModelOutputMeta) (ps : PublishState)
    (hD : 0 < DISENGAGE_LEN) (h5 : ps.prev_brake_5ms2_probs.length = 5)
    (h3 : ps.prev_brake_3ms2_probs.length = 3) :
    ((fill_meta DESIRE_LEN DESIRE_PRED_LEN DISENGAGE_LEN sigmoid softmax c m ps).2.prev_brake_5ms2_probs
        = ps.prev_brake_5ms2_probs.drop 1 ++ [brake_5ms2_0 sigmoid m] ∧
      (fill_meta DESIRE_LEN DESIRE_PRED_LEN DISENGAGE_LEN sigmoid softmax c m ps).2.prev_brake_3ms2_probs
        = ps.prev_brake_3ms2_probs.drop 1 ++ [brake_3ms2_0 sigmoid m]) ∧
    ((fill_meta DESIRE_LEN DESIRE_PRED_LEN DISENGAGE_LEN sigmoid softmax c m ps).1.hardBrakePredicted
        = true ↔
      (∀ i, i < 5 →
        rd (fill_meta DESIRE_LEN DESIRE_PRED_LEN DISENGAGE_LEN sigmoid softmax c m
          ps).2.prev_brake_5ms2_probs i > fcw_threshold_5ms2 c i) ∧
      (∀ i, i < 3 →
        rd (fill_meta DESIRE_LEN DESIRE_PRED_LEN DISENGAGE_LEN sigmoid softmax c m
          ps).2.prev_brake_3ms2_probs i > c.FCW_THRESHOLD_3MS2)) := by
  have e5 := fill_meta_ring5 DESIRE_LEN DESIRE_PRED_LEN DISENGAGE_LEN sigmoid softmax c m ps hD h5
  have e3 := fill_meta_ring3 DESIRE_LEN DESIRE_PRED_LEN DISENGAGE_LEN sigmoid softmax c m ps hD h3
  refine ⟨⟨e5, e3⟩, ?_⟩
  have l5 : (fill_meta DESIRE_LEN DESIRE_PRED_LEN DISENGAGE_LEN sigmoid softmax c m
      ps).2.prev_brake_5ms2_probs.length = 5 := by
    rw [e5]
    simp [h5]
  have l3 : (fill_meta DESIRE_LEN DESIRE_PRED_LEN DISENGAGE_LEN sigmoid softmax c m
      ps).2.prev_brake_3ms2_probs.length = 3 := by
    rw [e3]
    simp [h3]
  rw [fill_meta_flag, above_fcw_threshold_iff, l5, l3]

/-- C7, witness: four earlier high readings in the ring of five, two in the ring
of three, and a frame whose readings are `1`. -/
theorem hard_brake_flag_iff_witness :
    (fill_meta 8 4 5 (fun v => v) (fun l => l) fcw_example (flat_meta 1)
        ⟨[], [0, 1, 1, 1, 1], [0, 1, 1]⟩).1.hardBrakePredicted = true :=
  (hard_brake_flag_iff 8 4 5 (fun v => v) (fun l => l) fcw_example (flat_meta 1)
    ⟨[], [0, 1, 1, 1, 1], [0, 1, 1]⟩ (by decide) rfl rfl).2.mpr
    ⟨fun i hi => by
        interval_cases i <;>
          simp [fill_meta, push_brake_probs, memmove_front, flat_meta, rd, fcw_threshold_5ms2,
            fcw_example] <;> norm_num,
      fun i hi => by
        interval_cases i <;>
          simp [fill_meta, push_brake_probs, memmove_front, flat_meta, rd, fcw_example] <;>
            norm_num⟩

/-! ## C8: sustained evidence -/

section Frames

variable (DESIRE_LEN DESIRE_PRED_LEN DISENGAGE_LEN : Nat) (sigmoid : ℚ → ℚ)
  (softmax : List ℚ → List ℚ) (c : FcwThresholds)

/-- Running one more frame is one more call of `fill_meta`. -/
theorem fill_meta_frames_snoc (m : ModelOutputMeta) :
    ∀ (init : List ModelOutputMeta) (ps : PublishState),
      fill_meta_frames DESIRE_LEN DESIRE_PRED_LEN DISENGAGE_LEN sigmoid softmax c ps (init ++ [m])
        = (fill_meta DESIRE_LEN DESIRE_PRED_LEN DISENGAGE_LEN sigmoid softmax c m
            (fill_meta_frames DESIRE_LEN DESIRE_PRED_LEN DISENGAGE_LEN sigmoid softmax c ps init)).2
  | [], _ => rfl
  | f :: rest, ps => by
    simp only [List.cons_append, fill_meta_frames]
    exact fill_meta_frames_snoc m rest _

/-- The rings after a sequence of frames hold the last readings of the sequence,
preceded by what is left of the initial content. -/
theorem fill_meta_frames_rings (hD : 0 < DISENGAGE_LEN) :
    ∀ (frames : List ModelOutputMeta) (ps : PublishState),
      ps.prev_brake_5ms2_probs.length = 5 → ps.prev_brake_3ms2_probs.length = 3 →
      (fill_meta_frames DESIRE_LEN DESIRE_PRED_LEN DISENGAGE_LEN sigmoid softmax c ps
          frames).prev_brake_5ms2_probs
        = (ps.prev_brake_5ms2_probs ++ frames.map (brake_5ms2_0 sigmoid)).drop frames.length ∧
      (fill_meta_frames DESIRE_LEN DESIRE_PRED_LEN DISENGAGE_LEN sigmoid softmax c ps
          frames).prev_brake_3ms2_probs
        = (ps.prev_brake_3ms2_probs ++ frames.map (brake_3ms2_0 sigmoid)).drop frames.length
  | [], ps => by
    intro _ _
    simp [fill_meta_frames]
  | m :: rest, ps => by
    intro h5 h3
    have e5 := fill_meta_ring5 DESIRE_LEN DESIRE_PRED_LEN DISENGAGE_LEN sigmoid softmax c m ps hD h5
    have e3 := fill_meta_ring3 DESIRE_LEN DESIRE_PRED_LEN DISENGAGE_LEN sigmoid softmax c m ps hD h3
    obtain ⟨i5, i3⟩ := fill_meta_frames_rings hD rest
      (fill_meta DESIRE_LEN DESIRE_PRED_LEN DISENGAGE_LEN sigmoid softmax c m ps).2
      (by rw [e5]; simp [h5]) (by rw [e3]; simp [h3])
    rw [fill_meta_frames, i5, i3, e5, e3]
    constructor
    · match hl : ps.prev_brake_5ms2_probs, h5 with
      | a :: tl, _ => simp
    · match hl : ps.prev_brake_3ms2_probs, h3 with
      | a :: tl, _ => simp

end Frames

/-- Reading behind the zero-filled part of a ring. -/
theorem rd_drop_zeros_append (z n i : Nat) (B : List ℚ) (h : z ≤ n + i) :
    rd ((List.replicate z 0 ++ B).drop n) i = rd B (n + i - z) := by
  simp only [rd, List.getD_eq_getElem?_getD, List.getElem?_drop]
  rw [List.getElem?_append_right (by simpa using h)]
  simp

/-- Reading inside the zero-filled part of a ring. -/
theorem rd_drop_zeros_append_lt (z n i : Nat) (B : List ℚ) (h : n + i < z) :
    rd ((List.replicate z 0 ++ B).drop n) i = 0 := by
  simp only [rd, List.getD_eq_getElem?_getD, List.getElem?_drop]
  rw [List.getElem?_append_left (by simpa using h)]
  simp [List.getElem?_replicate, h]

/-- A reading of a frame of the sequence. -/
theorem rd_map_frames (f : ModelOutputMeta → ℚ) (frames : List ModelOutputMeta) (j : Nat)
    (h : j < frames.length) :
    ∃ m, frames[j]? = some m ∧ rd (frames.map f) j = f m := by
  refine ⟨frames[j], List.getElem?_eq_getElem h, ?_⟩
  simp [rd, List.getD_eq_getElem?_getD, List.getElem?_map, List.getElem?_eq_getElem h]

/-- The flag of the last frame of a sequence is computed on the rings left by
the whole sequence. -/
theorem last_hard_brake_eq (DESIRE_LEN DESIRE_PRED_LEN DISENGAGE_LEN : Nat) (sigmoid : ℚ → ℚ)
    (softmax : List ℚ → List ℚ) (c : FcwThresholds) (ps : PublishState)
    (frames : List ModelOutputMeta)
    (h : last_hard_brake DESIRE_LEN DESIRE_PRED_LEN DISENGAGE_LEN sigmoid softmax c ps frames
      = true) :
    above_fcw_threshold c
      (fill_meta_frames DESIRE_LEN DESIRE_PRED_LEN DISENGAGE_LEN sigmoid softmax c ps frames)
      = true := by
  unfold last_hard_brake at h
  cases hlast : frames.getLast? with
  | none =>
    rw [hlast] at h
    exact absurd h Bool.false_ne_true
  | some m =>
    rw [hlast] at h
    have hsplit : frames.dropLast ++ [m] = frames :=
      List.dropLast_append_getLast? m (by rw [hlast]; exact rfl)
    rw [← hsplit, fill_meta_frames_snoc, ← fill_meta_flag]
    exact h

/-! ### The theorem of C8 -/

/-- C8: for a sequence of `fill_meta` calls started from all-zero rings, with
`0 <= FCW_THRESHOLD_5MS2_LOW <= FCW_THRESHOLD_5MS2_HIGH`: if `hardBrakePredicted`
is true on the last frame, frame `n`, then `n >= 5`, the nearest-horizon
brake_5ms2 readings of frame `n` and of each of the four frames before it all
exceed `FCW_THRESHOLD_5MS2_LOW`, and the nearest-horizon brake_3ms2 readings of
frame `n` and of the two frames before it all exceed `FCW_THRESHOLD_3MS2`. -/
theorem hard_brake_needs_sustained_evidence (DESIRE_LEN DESIRE_PRED_LEN DISENGAGE_LEN : Nat)
    (sigmoid : ℚ → ℚ) (softmax : List ℚ → List ℚ) (c : FcwThresholds) (ps : PublishState)
    (frames : List ModelOutputMeta) (hD : 0 < DISENGAGE_LEN)
    (hz5 : ps.prev_brake_5ms2_probs = List.replicate 5 0)
    (hz3 : ps.prev_brake_3ms2_probs = List.replicate 3 0)
    (hlow : 0 ≤ c.FCW_THRESHOLD_5MS2_LOW)
    (hhigh : c.FCW_THRESHOLD_5MS2_LOW ≤ c.FCW_THRESHOLD_5MS2_HIGH)
    (hflag : last_hard_brake DESIRE_LEN DESIRE_PRED_LEN DISENGAGE_LEN sigmoid softmax c ps frames
      = true) :
    5 ≤ frames.length ∧
    (∀ k, k < 5 → ∃ m, frames[frames.length - 1 - k]? = some m ∧
      brake_5ms2_0 sigmoid m > c.FCW_THRESHOLD_5MS2_LOW) ∧
    (∀ k, k < 3 → ∃ m, frames[frames.length - 1 - k]? = some m ∧
      brake_3ms2_0 sigmoid m > c.FCW_THRESHOLD_3MS2) := by
  have habove :=
    last_hard_brake_eq DESIRE_LEN DESIRE_PRED_LEN DISENGAGE_LEN sigmoid softmax c ps frames hflag
  obtain ⟨e5, e3⟩ :=
    fill_meta_frames_rings DESIRE_LEN DESIRE_PRED_LEN DISENGAGE_LEN sigmoid softmax c hD frames ps
      (by rw [hz5]; exact List.length_replicate 5 0) (by rw [hz3]; exact List.length_replicate 3 0)
  rw [above_fcw_threshold_iff, e5, e3, hz5, hz3] at habove
  simp only [List.length_drop, List.length_append, List.length_replicate, List.length_map]
    at habove
  obtain ⟨h5, h3⟩ := habove
  have hthr : ∀ i, c.FCW_THRESHOLD_5MS2_LOW ≤ fcw_threshold_5ms2 c i := by
    intro i
    unfold fcw_threshold_5ms2
    split
    · exact le_refl _
    · exact hhigh
  have hlen : 5 ≤ frames.length := by
    by_contra hshort
    have h0 := h5 0 (by omega)
    rw [rd_drop_zeros_append_lt 5 frames.length 0 _ (by omega)] at h0
    exact absurd (lt_of_le_of_lt (le_trans hlow (hthr 0)) h0) (lt_irrefl _)
  refine ⟨hlen, ?_, ?_⟩
  · intro k hk
    have hi := h5 (4 - k) (by omega)
    rw [rd_drop_zeros_append 5 frames.length (4 - k) _ (by omega)] at hi
    obtain ⟨m, hm, hrd⟩ :=
      rd_map_frames (brake_5ms2_0 sigmoid) frames (frames.length + (4 - k) - 5) (by omega)
    have hidx : frames.length + (4 - k) - 5 = frames.length - 1 - k := by omega
    rw [hrd] at hi
    rw [hidx] at hm
    exact ⟨m, hm, lt_of_le_of_lt (hthr (4 - k)) hi⟩
  · intro k hk
    have hi := h3 (2 - k) (by omega)
    rw [rd_drop_zeros_append 3 frames.length (2 - k) _ (by omega)] at hi
    obtain ⟨m, hm, hrd⟩ :=
      rd_map_frames (brake_3ms2_0 sigmoid) frames (frames.length + (2 - k) - 3) (by omega)
    have hidx : frames.length + (2 - k) - 3 = frames.length - 1 - k := by omega
    rw [hrd] at hi
    rw [hidx] at hm
    exact ⟨m, hm, hi⟩

/-- C8, witness: five frames in a row whose readings are `1`. -/
theorem hard_brake_needs_sustained_evidence_witness :
    5 ≤ (List.replicate 5 (flat_meta 1)).length ∧
    (∀ k, k < 5 → ∃ m, (List.replicate 5 (flat_meta 1))[(List.replicate 5 (flat_meta 1)).length
        - 1 - k]? = some m ∧
      brake_5ms2_0 (fun v => v) m > fcw_example.FCW_THRESHOLD_5MS2_LOW) ∧
    (∀ k, k < 3 → ∃ m, (List.replicate 5 (flat_meta 1))[(List.replicate 5 (flat_meta 1)).length
        - 1 - k]? = some m ∧
      brake_3ms2_0 (fun v => v) m > fcw_example.FCW_THRESHOLD_3MS2) :=
  hard_brake_needs_sustained_evidence 8 4 5 (fun v => v) (fun l => l) fcw_example
    zero_publish_state (List.replicate 5 (flat_meta 1)) (by decide) rfl rfl
    (by simp [fcw_example]) (by simp [fcw_example]; norm_num)
    (by
      simp [last_hard_brake, fill_meta_frames, fill_meta, push_brake_probs, memmove_front,
        above_fcw_threshold, for_upto, flat_meta, rd, fcw_threshold_5ms2, fcw_example,
        zero_publish_state, List.replicate]
      norm_num)

/-! ## The score and the row of `fill_confidence` -/

/-- An accumulation loop `acc += f(i)` computes the sum of the `f(i)`. -/
theorem for_upto_sum (f : Nat → ℚ) :
    ∀ n, for_upto (fun i acc => acc + f i) 0 n = ∑ i in Finset.range n, f i
  | 0 => by simp [for_upto]
  | n + 1 => by
    rw [Finset.sum_range_succ, ← for_upto_sum f n]
    rfl

/-- The score is the mean of the anti-diagonal of the buffer. -/
theorem confidence_score_eq (H : Nat) (ps : PublishState) :
    confidence_score H ps
      = 1 / (H : ℚ) * ∑ h in Finset.range H, rd ps.disengage_buffer (h * H + (H - 1 - h)) := by
  unfold confidence_score
  rw [for_upto_sum, Finset.mul_sum]
  refine Finset.sum_congr rfl (fun h hh => ?_)
  have hlt : h < H := Finset.mem_range.mp hh
  have hidx : h * H + H - 1 - h = h * H + (H - 1 - h) := by omega
  rw [hidx]
  ring

/-- Reading the block that a `memcpy` wrote. -/
theorem rd_memcpy_at (buf from_buf : List ℚ) (dst src n h : Nat) (hdst : dst ≤ buf.length)
    (hh : h < n) (hsrc : src + n ≤ from_buf.length) :
    rd (memcpy_at buf dst from_buf src n) (dst + h) = rd from_buf (src + h) := by
  have hA : (buf.take dst).length = dst := by
    rw [List.length_take]
    omega
  have hB : ((from_buf.drop src).take n).length = n := by
    rw [List.length_take, List.length_drop]
    omega
  unfold memcpy_at rd
  simp only [List.getD_eq_getElem?_getD]
  rw [List.getElem?_append_left (by rw [List.length_append, hA, hB]; omega),
    List.getElem?_append_right (by rw [hA]; omega), hA, Nat.add_sub_cancel_left,
    List.getElem?_take_of_lt hh, List.getElem?_drop]

section Row

variable (H : Nat) (dbps dgps dsps : List ℚ)

/-- Invariant of the loop that fills `dp_ind`, after `n` iterations. -/
theorem dp_ind_loop :
    ∀ n, n + 1 ≤ H →
      (for_upto
        (fun i d =>
          d.set (i + 1)
            ((any_dp dbps dgps dsps (i + 1) - any_dp dbps dgps dsps i)
              / (1 - any_dp dbps dgps dsps i)))
        ((List.replicate H 0).set 0 (any_dp dbps dgps dsps 0)) n).length = H ∧
      rd (for_upto
        (fun i d =>
          d.set (i + 1)
            ((any_dp dbps dgps dsps (i + 1) - any_dp dbps dgps dsps i)
              / (1 - any_dp dbps dgps dsps i)))
        ((List.replicate H 0).set 0 (any_dp dbps dgps dsps 0)) n) 0 = any_dp dbps dgps dsps 0 ∧
      ∀ i, i < n →
        rd (for_upto
          (fun i d =>
            d.set (i + 1)
              ((any_dp dbps dgps dsps (i + 1) - any_dp dbps dgps dsps i)
                / (1 - any_dp dbps dgps dsps i)))
          ((List.replicate H 0).set 0 (any_dp dbps dgps dsps 0)) n) (i + 1)
          = (any_dp dbps dgps dsps (i + 1) - any_dp dbps dgps dsps i)
              / (1 - any_dp dbps dgps dsps i)
  | 0 => by
    intro hH
    refine ⟨by simp [for_upto], ?_, fun i hi => absurd hi (by omega)⟩
    exact rd_set_self _ _ _ (by rw [List.length_replicate]; omega)
  | n + 1 => by
    intro hH
    obtain ⟨hlen, hzero, hdone⟩ := dp_ind_loop n (by omega)
    simp only [for_upto]
    refine ⟨by rw [List.length_set, hlen], ?_, ?_⟩
    · rw [rd_set_other _ _ _ _ (by omega)]
      exact hzero
    · intro i hi
      by_cases hlast : i = n
      · subst hlast
        exact rd_set_self _ _ _ (by rw [hlen]; omega)
      · rw [rd_set_other _ _ _ _ (by omega)]
        exact hdone i (by omega)

/-- The array `dp_ind`: its length and its entries. -/
theorem dp_ind_spec (hH : 0 < H) :
    (dp_ind H dbps dgps dsps).length = H ∧
    rd (dp_ind H dbps dgps dsps) 0 = any_dp dbps dgps dsps 0 ∧
    ∀ i, i + 1 < H →
      rd (dp_ind H dbps dgps dsps) (i + 1)
        = (any_dp dbps dgps dsps (i + 1) - any_dp dbps dgps dsps i)
            / (1 - any_dp dbps dgps dsps i) := by
  obtain ⟨hlen, hzero, hdone⟩ := dp_ind_loop H dbps dgps dsps (H - 1) (by omega)
  exact ⟨hlen, hzero, fun i hi => hdone i (by omega)⟩

end Row

/-- On a cadence tick the newest row of the buffer is `dp_ind`. -/
theorem update_disengage_buffer_newest_row (H MODEL_FREQ : Nat) (framed : ModelDataV2)
    (ps : PublishState) (htick : framed.frameId % (2 * MODEL_FREQ) = 0)
    (hbuf : ps.disengage_buffer.length = H * H) (h : Nat) (hh : h < H) :
    rd (update_disengage_buffer H MODEL_FREQ framed ps).disengage_buffer (H * (H - 1) + h)
      = rd (dp_ind H framed.meta_msg.disengagePredictions.brakeDisengageProbs
          framed.meta_msg.disengagePredictions.gasDisengageProbs
          framed.meta_msg.disengagePredictions.steerOverrideProbs) h := by
  have hH : 0 < H := by omega
  have hsplit : H + H * (H - 1) = H * H := by
    obtain ⟨k, rfl⟩ : ∃ k, H = k + 1 := ⟨H - 1, by omega⟩
    simp only [Nat.add_sub_cancel]
    ring
  have hmoved : (memmove_front ps.disengage_buffer H (H * (H - 1))).length = H * H := by
    rw [memmove_front_length _ _ _ (by rw [hbuf, hsplit]), hbuf]
  unfold update_disengage_buffer
  rw [if_pos htick]
  dsimp only
  rw [rd_memcpy_at _ _ _ _ _ _ (by rw [hmoved]; omega) hh
    (by rw [(dp_ind_spec H _ _ _ hH).1]; omega), Nat.zero_add]

/-! ## C9: the consensus score -/

/-- C9: for every content of the buffer, the score that `fill_confidence` classifies
is the mean over `h` in `0..H-1` of the entry at row `h`, column `H-1-h` of the
buffer it leaves, `(1/H) * sum_h disengage_buffer[h*H + H-1-h]`. -/
theorem consensus_score_is_antidiagonal_mean (DISENGAGE_LEN MODEL_FREQ : Nat)
    (RYG_GREEN RYG_YELLOW : ℚ) (framed : ModelDataV2) (ps : PublishState) :
    (fill_confidence DISENGAGE_LEN MODEL_FREQ RYG_GREEN RYG_YELLOW framed ps).1.confidence
      = classify RYG_GREEN RYG_YELLOW
          (1 / (DISENGAGE_LEN : ℚ) * ∑ h in Finset.range DISENGAGE_LEN,
            rd (fill_confidence DISENGAGE_LEN MODEL_FREQ RYG_GREEN RYG_YELLOW framed
              ps).2.disengage_buffer (h * DISENGAGE_LEN + (DISENGAGE_LEN - 1 - h))) := by
  rw [← confidence_score_eq]
  rfl

/-! ## C10: the row pushed on a cadence tick -/

/-- C10: on a frame id that is a multiple of `2*MODEL_FREQ`, with
`any[h] = 1 - (1-p_brake[h])(1-p_gas[h])(1-p_override[h])`, the newest row `r` of the
`H x H` buffer after `fill_confidence` has `r[0] = any[0]` and
`r[h] = (any[h] - any[h-1]) / (1 - any[h-1])` for every `1 <= h < H`. -/
theorem pushed_row_is_hazard_rate (DISENGAGE_LEN MODEL_FREQ : Nat) (RYG_GREEN RYG_YELLOW : ℚ)
    (framed : ModelDataV2) (ps : PublishState) (any : Nat → ℚ)
    (htick : framed.frameId % (2 * MODEL_FREQ) = 0)
    (hbuf : ps.disengage_buffer.length = DISENGAGE_LEN * DISENGAGE_LEN)
    (hany : ∀ h, any h =
      1 - (1 - rd framed.meta_msg.disengagePredictions.brakeDisengageProbs h)
        * (1 - rd framed.meta_msg.disengagePredictions.gasDisengageProbs h)
        * (1 - rd framed.meta_msg.disengagePredictions.steerOverrideProbs h)) :
    (0 < DISENGAGE_LEN →
      rd (fill_confidence DISENGAGE_LEN MODEL_FREQ RYG_GREEN RYG_YELLOW framed
        ps).2.disengage_buffer (DISENGAGE_LEN * (DISENGAGE_LEN - 1)) = any 0) ∧
    ∀ h, 1 ≤ h → h < DISENGAGE_LEN →
      rd (fill_confidence DISENGAGE_LEN MODEL_FREQ RYG_GREEN RYG_YELLOW framed
        ps).2.disengage_buffer (DISENGAGE_LEN * (DISENGAGE_LEN - 1) + h)
        = (any h - any (h - 1)) / (1 - any (h - 1)) := by
  have hfun : any = any_dp framed.meta_msg.disengagePredictions.brakeDisengageProbs
      framed.meta_msg.disengagePredictions.gasDisengageProbs
      framed.meta_msg.disengagePredictions.steerOverrideProbs := by
    funext h
    rw [hany h, any_dp]
  have hps : (fill_confidence DISENGAGE_LEN MODEL_FREQ RYG_GREEN RYG_YELLOW framed ps).2
      = update_disengage_buffer DISENGAGE_LEN MODEL_FREQ framed ps := rfl
  rw [hps, hfun]
  constructor
  · intro hH
    have hrow := update_disengage_buffer_newest_row DISENGAGE_LEN MODEL_FREQ framed ps htick hbuf
      0 hH
    rw [Nat.add_zero] at hrow
    rw [hrow]
    exact (dp_ind_spec DISENGAGE_LEN _ _ _ hH).2.1
  · intro h h1 hh
    obtain ⟨i, rfl⟩ : ∃ i, h = i + 1 := ⟨h - 1, by omega⟩
    rw [update_disengage_buffer_newest_row DISENGAGE_LEN MODEL_FREQ framed ps htick hbuf
      (i + 1) hh, Nat.add_sub_cancel]
    exact (dp_ind_spec DISENGAGE_LEN _ _ _ (by omega)).2.2 i hh

/-- C10, witness: frame id 40 with `MODEL_FREQ = 20`; the entry of the second
horizon in the newest row. -/
theorem pushed_row_is_hazard_rate_witness :
    rd (fill_confidence 5 20 (233 / 20000) (6157 / 100000)
        (example_framed 40 example_probs example_probs example_probs)
        zero_publish_state).2.disengage_buffer (5 * (5 - 1) + 1)
      = ((1 - (1 - rd example_probs 1) * (1 - rd example_probs 1) * (1 - rd example_probs 1))
          - (1 - (1 - rd example_probs (1 - 1)) * (1 - rd example_probs (1 - 1))
              * (1 - rd example_probs (1 - 1))))
        / (1 - (1 - (1 - rd example_probs (1 - 1)) * (1 - rd example_probs (1 - 1))
              * (1 - rd example_probs (1 - 1)))) :=
  (pushed_row_is_hazard_rate 5 20 (233 / 20000) (6157 / 100000)
    (example_framed 40 example_probs example_probs example_probs) zero_publish_state
    (fun h => 1 - (1 - rd example_probs h) * (1 - rd example_probs h) * (1 - rd example_probs h))
    rfl (List.length_replicate 25 (0 : ℚ)) (fun _ => rfl)).2 1 (by decide) (by decide)

/-! ## The rows of the disengage buffer -/

/-- A `memmove` by one row followed by a `memcpy` into the last row: the buffer
loses its first row and gains the copied block as last row. -/
theorem memcpy_memmove_shift (buf from_buf : List ℚ) (w n src : Nat) (hn : 1 ≤ n)
    (hbuf : buf.length = w * n) :
    memcpy_at (memmove_front buf w (w * (n - 1))) (w * (n - 1)) from_buf src w
      = buf.drop w ++ (from_buf.drop src).take w := by
  obtain ⟨m, rfl⟩ : ∃ m, n = m + 1 := ⟨n - 1, by omega⟩
  simp only [Nat.add_sub_cancel]
  have hlen : buf.length = w * m + w := by rw [hbuf, Nat.mul_succ]
  have hdrop : (buf.drop w).length = w * m := by
    rw [List.length_drop, hlen]
    omega
  have hmoved : memmove_front buf w (w * m) = buf.drop w ++ buf.drop (w * m) := by
    unfold memmove_front
    rw [List.take_of_length_le (by rw [hdrop])]
  have hlast : (buf.drop (w * m)).length = w := by
    rw [List.length_drop, hlen]
    omega
  have htake : (buf.drop w ++ buf.drop (w * m)).take (w * m) = buf.drop w :=
    List.take_left' hdrop
  have hnil : (buf.drop w ++ buf.drop (w * m)).drop (w * m + w) = [] :=
    List.drop_eq_nil_of_le (by rw [List.length_append, hdrop, hlast])
  rw [hmoved]
  unfold memcpy_at
  rw [htake, hnil, List.append_nil]

/-- The row `dp_ind` has `DISENGAGE_LEN` entries. -/
theorem dp_ind_length (H : Nat) (dbps dgps dsps : List ℚ) :
    (dp_ind H dbps dgps dsps).length = H := by
  rcases Nat.eq_zero_or_pos H with h0 | hpos
  · subst h0
    simp [dp_ind, for_upto]
  · exact (dp_ind_spec H dbps dgps dsps hpos).1

/-- The row computed from a message has `DISENGAGE_LEN` entries. -/
theorem row_of_length (H : Nat) (framed : ModelDataV2) : (row_of H framed).length = H :=
  dp_ind_length H _ _ _

/-- Pushing a row of `H` entries into a buffer of `H * H` entries. -/
theorem push_row_eq (H : Nat) (row buf : List ℚ) (hH : 0 < H) (hbuf : buf.length = H * H)
    (hrow : row.length = H) :
    push_row H row buf = buf.drop H ++ row := by
  unfold push_row
  rw [memcpy_memmove_shift buf row H H 0 hH hbuf, List.drop_zero,
    List.take_of_length_le (by omega)]

/-- On a cadence tick the buffer is the old one with the row pushed. -/
theorem update_disengage_buffer_tick (H MODEL_FREQ : Nat) (framed : ModelDataV2)
    (ps : PublishState) (htick : framed.frameId % (2 * MODEL_FREQ) = 0) :
    (update_disengage_buffer H MODEL_FREQ framed ps).disengage_buffer
      = push_row H (row_of H framed) ps.disengage_buffer := by
  unfold update_disengage_buffer
  rw [if_pos htick]
  rfl

/-- Off the cadence the state is left as it is. -/
theorem update_disengage_buffer_off (H MODEL_FREQ : Nat) (framed : ModelDataV2)
    (ps : PublishState) (htick : framed.frameId % (2 * MODEL_FREQ) ≠ 0) :
    update_disengage_buffer H MODEL_FREQ framed ps = ps := by
  unfold update_disengage_buffer
  rw [if_neg htick]

/-- A call of `fill_confidence` keeps the size of the buffer. -/
theorem fill_confidence_length (H MODEL_FREQ : Nat) (G Y : ℚ) (framed : ModelDataV2)
    (ps : PublishState) (hbuf : ps.disengage_buffer.length = H * H) :
    (fill_confidence H MODEL_FREQ G Y framed ps).2.disengage_buffer.length = H * H := by
  show (update_disengage_buffer H MODEL_FREQ framed ps).disengage_buffer.length = H * H
  by_cases htick : framed.frameId % (2 * MODEL_FREQ) = 0
  · rw [update_disengage_buffer_tick H MODEL_FREQ framed ps htick]
    rcases Nat.eq_zero_or_pos H with h0 | hpos
    · subst h0
      have hnil : ps.disengage_buffer = [] := List.length_eq_zero.mp (by simpa using hbuf)
      simp [push_row, memcpy_at, memmove_front, hnil]
    · rw [push_row_eq H (row_of H framed) ps.disengage_buffer hpos hbuf (row_of_length H framed),
        List.length_append, List.length_drop, hbuf, row_of_length]
      have : H ≤ H * H := Nat.le_mul_of_pos_left H hpos
      omega
  · rw [update_disengage_buffer_off H MODEL_FREQ framed ps htick]
    exact hbuf

/-- Any number of calls of `fill_confidence` keeps the size of the buffer. -/
theorem fill_confidence_frames_length (H MODEL_FREQ : Nat) (G Y : ℚ) :
    ∀ (frames : List ModelDataV2) (ps : PublishState),
      ps.disengage_buffer.length = H * H →
      (fill_confidence_frames H MODEL_FREQ G Y ps frames).disengage_buffer.length = H * H
  | [], _ => fun h => h
  | framed :: rest, ps => fun h =>
    fill_confidence_frames_length H MODEL_FREQ G Y rest _
      (fill_confidence_length H MODEL_FREQ G Y framed ps h)

/-- Reading an old row after a push: it has moved up by one row. -/
theorem rd_push_row_old (H : Nat) (row buf : List ℚ) (hbuf : buf.length = H * H)
    (hrow : row.length = H) (k j : Nat) (hk : k + 1 < H) (hj : j < H) :
    rd (push_row H row buf) (k * H + j) = rd buf ((k + 1) * H + j) := by
  have hH : 0 < H := by omega
  have hsucc : (k + 1) * H = k * H + H := Nat.succ_mul k H
  have hrows : (k + 1) * H ≤ (H - 1) * H := Nat.mul_le_mul_right H (by omega)
  have hsq : H * H = (H - 1) * H + H := by
    obtain ⟨m, rfl⟩ : ∃ m, H = m + 1 := ⟨H - 1, by omega⟩
    simp only [Nat.add_sub_cancel, Nat.succ_mul]
  rw [push_row_eq H row buf hH hbuf hrow]
  unfold rd
  simp only [List.getD_eq_getElem?_getD]
  rw [List.getElem?_append_left (by rw [List.length_drop, hbuf]; omega), List.getElem?_drop,
    Nat.succ_mul]
  congr 2
  omega

/-- Reading the newest row after a push. -/
theorem rd_push_row_new (H : Nat) (row buf : List ℚ) (hbuf : buf.length = H * H)
    (hrow : row.length = H) (j : Nat) (hj : j < H) :
    rd (push_row H row buf) ((H - 1) * H + j) = rd row j := by
  have hH : 0 < H := by omega
  have hsq : H * H = (H - 1) * H + H := by
    obtain ⟨m, rfl⟩ : ∃ m, H = m + 1 := ⟨H - 1, by omega⟩
    simp only [Nat.add_sub_cancel, Nat.succ_mul]
  rw [push_row_eq H row buf hH hbuf hrow]
  unfold rd
  simp only [List.getD_eq_getElem?_getD]
  rw [List.getElem?_append_right (by rw [List.length_drop, hbuf]; omega), List.length_drop,
    hbuf]
  congr 2
  omega

/-! ## C11: shape and order of the disengage buffer -/

/-- C11: a buffer of `H * H` entries still has `H * H` entries after any number of
`fill_confidence` calls, and a cadence update drops the oldest row and appends
the new one: for every `k < H - 1` the new row `k` is the old row `k + 1`, and
the new row `H - 1` is the freshly computed vector `dp_ind`. -/
theorem disengage_buffer_shape_and_order (DISENGAGE_LEN MODEL_FREQ : Nat)
    (RYG_GREEN RYG_YELLOW : ℚ) (ps : PublishState)
    (hbuf : ps.disengage_buffer.length = DISENGAGE_LEN * DISENGAGE_LEN) :
    (∀ frames : List ModelDataV2,
      (fill_confidence_frames DISENGAGE_LEN MODEL_FREQ RYG_GREEN RYG_YELLOW ps
        frames).disengage_buffer.length = DISENGAGE_LEN * DISENGAGE_LEN) ∧
    ∀ framed : ModelDataV2, framed.frameId % (2 * MODEL_FREQ) = 0 →
      (∀ k j, k + 1 < DISENGAGE_LEN → j < DISENGAGE_LEN →
        rd (fill_confidence DISENGAGE_LEN MODEL_FREQ RYG_GREEN RYG_YELLOW framed
          ps).2.disengage_buffer (k * DISENGAGE_LEN + j)
          = rd ps.disengage_buffer ((k + 1) * DISENGAGE_LEN + j)) ∧
      (∀ j, j < DISENGAGE_LEN →
        rd (fill_confidence DISENGAGE_LEN MODEL_FREQ RYG_GREEN RYG_YELLOW framed
          ps).2.disengage_buffer ((DISENGAGE_LEN - 1) * DISENGAGE_LEN + j)
          = rd (dp_ind DISENGAGE_LEN framed.meta_msg.disengagePredictions.brakeDisengageProbs
              framed.meta_msg.disengagePredictions.gasDisengageProbs
              framed.meta_msg.disengagePredictions.steerOverrideProbs) j) := by
  refine ⟨fun frames =>
    fill_confidence_frames_length DISENGAGE_LEN MODEL_FREQ RYG_GREEN RYG_YELLOW frames ps hbuf,
    fun framed htick => ?_⟩
  have hps : (fill_confidence DISENGAGE_LEN MODEL_FREQ RYG_GREEN RYG_YELLOW framed
      ps).2.disengage_buffer
      = push_row DISENGAGE_LEN (row_of DISENGAGE_LEN framed) ps.disengage_buffer :=
    update_disengage_buffer_tick DISENGAGE_LEN MODEL_FREQ framed ps htick
  rw [hps]
  exact ⟨fun k j hk hj =>
      rd_push_row_old DISENGAGE_LEN _ _ hbuf (row_of_length DISENGAGE_LEN framed) k j hk hj,
    fun j hj => rd_push_row_new DISENGAGE_LEN _ _ hbuf (row_of_length DISENGAGE_LEN framed) j hj⟩

/-- C11, witness: the zero-filled `5 x 5` buffer and a cadence frame. -/
theorem disengage_buffer_shape_and_order_witness :
    (fill_confidence_frames 5 20 (233 / 20000) (6157 / 100000) zero_publish_state
        [example_framed 40 example_probs example_probs example_probs,
          example_framed 41 example_probs example_probs example_probs]).disengage_buffer.length
      = 5 * 5 :=
  (disengage_buffer_shape_and_order 5 20 (233 / 20000) (6157 / 100000) zero_publish_state
    (List.length_replicate 25 (0 : ℚ))).1
    [example_framed 40 example_probs example_probs example_probs,
      example_framed 41 example_probs example_probs example_probs]

/-! ## C12: the score is monotone in the pushed row -/

/-- The score after pushing a row, compared for two rows. -/
theorem score_push_row_mono (H : Nat) (ps : PublishState) (r r' : List ℚ)
    (hbuf : ps.disengage_buffer.length = H * H) (hr : r.length = H) (hr' : r'.length = H)
    (hle : ∀ h, h < H → rd r h ≤ rd r' h) :
    confidence_score H { ps with disengage_buffer := push_row H r ps.disengage_buffer }
      ≤ confidence_score H { ps with disengage_buffer := push_row H r' ps.disengage_buffer } := by
  rw [confidence_score_eq, confidence_score_eq]
  refine mul_le_mul_of_nonneg_left (Finset.sum_le_sum (fun h hh => ?_)) (by positivity)
  have hlt : h < H := Finset.mem_range.mp hh
  dsimp only
  by_cases hold : h + 1 < H
  · rw [rd_push_row_old H r _ hbuf hr h (H - 1 - h) hold (by omega),
      rd_push_row_old H r' _ hbuf hr' h (H - 1 - h) hold (by omega)]
  · have hh1 : h = H - 1 := by omega
    have h0 : H - 1 - h = 0 := by omega
    rw [h0, hh1, rd_push_row_new H r _ hbuf hr 0 (by omega),
      rd_push_row_new H r' _ hbuf hr' 0 (by omega)]
    exact hle 0 (by omega)

/-- C12: for every prior buffer of `H * H` entries and every two rows `r`, `r'` of `H`
entries with `r[h] <= r'[h]` for all `h`, the consensus score computed after
pushing `r'` is at least the score computed after pushing `r`; in particular for
two cadence frames whose rows `dp_ind` are so ordered, the score that
`fill_confidence` computes for the second is at least the one for the first. -/
theorem consensus_score_monotone (DISENGAGE_LEN MODEL_FREQ : Nat) (RYG_GREEN RYG_YELLOW : ℚ)
    (ps : PublishState) (hbuf : ps.disengage_buffer.length = DISENGAGE_LEN * DISENGAGE_LEN) :
    (∀ r r' : List ℚ, r.length = DISENGAGE_LEN → r'.length = DISENGAGE_LEN →
      (∀ h, h < DISENGAGE_LEN → rd r h ≤ rd r' h) →
      confidence_score DISENGAGE_LEN
          { ps with disengage_buffer := push_row DISENGAGE_LEN r ps.disengage_buffer }
        ≤ confidence_score DISENGAGE_LEN
          { ps with disengage_buffer := push_row DISENGAGE_LEN r' ps.disengage_buffer }) ∧
    (∀ framed framed' : ModelDataV2, framed.frameId % (2 * MODEL_FREQ) = 0 →
      framed'.frameId % (2 * MODEL_FREQ) = 0 →
      (∀ h, h < DISENGAGE_LEN →
        rd (row_of DISENGAGE_LEN framed) h ≤ rd (row_of DISENGAGE_LEN framed') h) →
      confidence_score DISENGAGE_LEN
          (fill_confidence DISENGAGE_LEN MODEL_FREQ RYG_GREEN RYG_YELLOW framed ps).2
        ≤ confidence_score DISENGAGE_LEN
          (fill_confidence DISENGAGE_LEN MODEL_FREQ RYG_GREEN RYG_YELLOW framed' ps).2) := by
  refine ⟨fun r r' hr hr' hle => score_push_row_mono DISENGAGE_LEN ps r r' hbuf hr hr' hle,
    fun framed framed' ht ht' hle => ?_⟩
  have e : ∀ f : ModelDataV2, f.frameId % (2 * MODEL_FREQ) = 0 →
      (fill_confidence DISENGAGE_LEN MODEL_FREQ RYG_GREEN RYG_YELLOW f ps).2
        = { ps with
            disengage_buffer := push_row DISENGAGE_LEN (row_of DISENGAGE_LEN f) ps.disengage_buffer } := by
    intro f hf
    show update_disengage_buffer DISENGAGE_LEN MODEL_FREQ f ps = _
    unfold update_disengage_buffer
    rw [if_pos hf]
    rfl
  rw [e framed ht, e framed' ht']
  exact score_push_row_mono DISENGAGE_LEN ps _ _ hbuf (row_of_length DISENGAGE_LEN framed)
    (row_of_length DISENGAGE_LEN framed') hle

/-- C12, witness: the row of zeros and the row of ones, pushed into the zero buffer. -/
theorem consensus_score_monotone_witness :
    confidence_score 5
        { zero_publish_state with
          disengage_buffer := push_row 5 [0, 0, 0, 0, 0] zero_publish_state.disengage_buffer }
      ≤ confidence_score 5
        { zero_publish_state with
          disengage_buffer := push_row 5 [1, 1, 1, 1, 1] zero_publish_state.disengage_buffer } :=
  (consensus_score_monotone 5 20 (233 / 20000) (6157 / 100000) zero_publish_state
    (List.length_replicate 25 (0 : ℚ))).1 [0, 0, 0, 0, 0] [1, 1, 1, 1, 1] rfl rfl
    (fun h hh => by
      interval_cases h <;> simp [rd])

/-! ## C13: a constant row on every tick -/

/-- Running frames that are all off the cadence leaves the state as it is. -/
theorem fill_confidence_frames_off (H MODEL_FREQ : Nat) (G Y : ℚ) :
    ∀ (frames : List ModelDataV2) (ps : PublishState),
      (∀ f, f ∈ frames → f.frameId % (2 * MODEL_FREQ) ≠ 0) →
      fill_confidence_frames H MODEL_FREQ G Y ps frames = ps
  | [], _ => fun _ => rfl
  | f :: rest, ps => fun hall => by
    have hstep : (fill_confidence H MODEL_FREQ G Y f ps).2 = ps :=
      update_disengage_buffer_off H MODEL_FREQ f ps (hall f (List.mem_cons_self f rest))
    rw [fill_confidence_frames, hstep]
    exact fill_confidence_frames_off H MODEL_FREQ G Y rest ps
      (fun g hg => hall g (List.mem_cons_of_mem f hg))

/-- Running two sequences of frames one after the other. -/
theorem fill_confidence_frames_append (H MODEL_FREQ : Nat) (G Y : ℚ) :
    ∀ (l1 l2 : List ModelDataV2) (ps : PublishState),
      fill_confidence_frames H MODEL_FREQ G Y ps (l1 ++ l2)
        = fill_confidence_frames H MODEL_FREQ G Y (fill_confidence_frames H MODEL_FREQ G Y ps l1) l2
  | [], _, _ => rfl
  | f :: rest, l2, ps => by
    simp only [List.cons_append, fill_confidence_frames]
    exact fill_confidence_frames_append H MODEL_FREQ G Y rest l2 _

/-- Among `M` consecutive numbers starting at `a` one is a multiple of `M`. -/
theorem exists_multiple_in_window (M a : Nat) (hM : 0 < M) :
    ∃ j, j < M ∧ (a + j) % M = 0 := by
  by_cases hr : a % M = 0
  · exact ⟨0, hM, by simpa using hr⟩
  · refine ⟨M - a % M, by omega, ?_⟩
    have hlt : a % M < M := Nat.mod_lt a hM
    have hdiv : M * (a / M) + a % M = a := Nat.div_add_mod a M
    have hsum : a + (M - a % M) = M * (a / M) + M := by omega
    rw [hsum, Nat.add_mod_right, Nat.mul_mod_right]

/-- Two multiples of `M` among `M` consecutive numbers are the same number. -/
theorem multiple_in_window_unique (M a i j : Nat) (hi : i < M) (hj : j < M)
    (hmi : (a + i) % M = 0) (hmj : (a + j) % M = 0) : i = j := by
  have key : ∀ u v, u < v → v < M → (a + u) % M = 0 → (a + v) % M = 0 → False := by
    intro u v huv hv hmu hmv
    have hd : M ∣ (a + v) - (a + u) :=
      Nat.dvd_sub' (Nat.dvd_of_mod_eq_zero hmv) (Nat.dvd_of_mod_eq_zero hmu)
    have hle := Nat.le_of_dvd (by omega) hd
    omega
  rcases Nat.lt_trichotomy i j with h | h | h
  · exact (key i j h hj hmi hmj).elim
  · exact h
  · exact (key j i h hi hmj hmi).elim

/-- Over `2*MODEL_FREQ` frames with consecutive ids exactly one frame is on the
cadence, and the state at the end is the one that this frame's update leaves. -/
theorem fill_confidence_frames_window (H MODEL_FREQ : Nat) (G Y : ℚ) (hF : 0 < MODEL_FREQ)
    (a : Nat) (frames : List ModelDataV2) (ps : PublishState)
    (hlen : frames.length = 2 * MODEL_FREQ)
    (hids : ∀ (i : Nat) (f : ModelDataV2), frames[i]? = some f → f.frameId = a + i) :
    ∃ (j : Nat) (m : ModelDataV2), frames[j]? = some m ∧ m.frameId % (2 * MODEL_FREQ) = 0 ∧
      (∀ (i : Nat) (f : ModelDataV2), frames[i]? = some f →
        f.frameId % (2 * MODEL_FREQ) = 0 → i = j) ∧
      fill_confidence_frames H MODEL_FREQ G Y ps frames
        = update_disengage_buffer H MODEL_FREQ m ps := by
  obtain ⟨j, hj, hmod⟩ := exists_multiple_in_window (2 * MODEL_FREQ) a (by omega)
  have hjlen : j < frames.length := by rw [hlen]; exact hj
  have hget : frames[j]? = some frames[j] := List.getElem?_eq_getElem hjlen
  have hid : frames[j].frameId = a + j := hids j _ hget
  have huniq : ∀ i f, frames[i]? = some f → f.frameId % (2 * MODEL_FREQ) = 0 → i = j := by
    intro i f hf htick
    have hi : i < frames.length := (List.getElem?_eq_some.mp hf).1
    rw [hids i f hf] at htick
    exact multiple_in_window_unique (2 * MODEL_FREQ) a i j (by rw [← hlen]; exact hi) hj htick hmod
  have hsplit : frames = frames.take j ++ frames[j] :: frames.drop (j + 1) := by
    rw [← List.drop_eq_getElem_cons hjlen, List.take_append_drop]
  generalize frames[j] = m at hget hid hsplit
  refine ⟨j, m, hget, by rw [hid]; exact hmod, huniq, ?_⟩
  have hpre : ∀ f, f ∈ frames.take j → f.frameId % (2 * MODEL_FREQ) ≠ 0 := by
    intro f hf htick
    obtain ⟨i, hi⟩ := List.mem_iff_getElem?.mp hf
    rw [List.getElem?_take] at hi
    split at hi
    · rename_i hlt
      have := huniq i f hi htick
      omega
    · exact absurd hi (by simp)
  have hpost : ∀ f, f ∈ frames.drop (j + 1) → f.frameId % (2 * MODEL_FREQ) ≠ 0 := by
    intro f hf htick
    obtain ⟨i, hi⟩ := List.mem_iff_getElem?.mp hf
    rw [List.getElem?_drop] at hi
    have := huniq (j + 1 + i) f hi htick
    omega
  rw [hsplit, fill_confidence_frames_append,
    fill_confidence_frames_off H MODEL_FREQ G Y _ ps hpre, fill_confidence_frames,
    fill_confidence_frames_off H MODEL_FREQ G Y _ _ hpost]
  rfl

/-- C15: `fill_confidence` rewrites the disengage buffer (pushes the row) when the
frame id is a multiple of `2*MODEL_FREQ` and only then: on every other frame the
state is left unchanged and the confidence is the class of the score of the
unchanged buffer; and over any `2*MODEL_FREQ` frames with consecutive ids exactly
one frame is on the cadence, so that exactly one row is added. -/
theorem cadence_of_buffer_update (DISENGAGE_LEN MODEL_FREQ : Nat) (RYG_GREEN RYG_YELLOW : ℚ)
    (hF : 0 < MODEL_FREQ) :
    (∀ (framed : ModelDataV2) (ps : PublishState), framed.frameId % (2 * MODEL_FREQ) = 0 →
      (fill_confidence DISENGAGE_LEN MODEL_FREQ RYG_GREEN RYG_YELLOW framed ps).2.disengage_buffer
        = push_row DISENGAGE_LEN (row_of DISENGAGE_LEN framed) ps.disengage_buffer) ∧
    (∀ (framed : ModelDataV2) (ps : PublishState), framed.frameId % (2 * MODEL_FREQ) ≠ 0 →
      (fill_confidence DISENGAGE_LEN MODEL_FREQ RYG_GREEN RYG_YELLOW framed ps).2 = ps ∧
      (fill_confidence DISENGAGE_LEN MODEL_FREQ RYG_GREEN RYG_YELLOW framed ps).1.confidence
        = classify RYG_GREEN RYG_YELLOW (confidence_score DISENGAGE_LEN ps)) ∧
    (∀ (a : Nat) (frames : List ModelDataV2) (ps : PublishState),
      frames.length = 2 * MODEL_FREQ →
      (∀ (i : Nat) (f : ModelDataV2), frames[i]? = some f → f.frameId = a + i) →
      ∃ (j : Nat) (m : ModelDataV2), frames[j]? = some m ∧ m.frameId % (2 * MODEL_FREQ) = 0 ∧
        (∀ (i : Nat) (f : ModelDataV2), frames[i]? = some f →
        f.frameId % (2 * MODEL_FREQ) = 0 → i = j) ∧
        (fill_confidence_frames DISENGAGE_LEN MODEL_FREQ RYG_GREEN RYG_YELLOW ps
          frames).disengage_buffer
          = push_row DISENGAGE_LEN (row_of DISENGAGE_LEN m) ps.disengage_buffer) := by
  refine ⟨fun framed ps htick =>
      update_disengage_buffer_tick DISENGAGE_LEN MODEL_FREQ framed ps htick,
    fun framed ps hoff => ?_, fun a frames ps hlen hids => ?_⟩
  · have hps : (fill_confidence DISENGAGE_LEN MODEL_FREQ RYG_GREEN RYG_YELLOW framed ps).2 = ps :=
      update_disengage_buffer_off DISENGAGE_LEN MODEL_FREQ framed ps hoff
    refine ⟨hps, ?_⟩
    show classify RYG_GREEN RYG_YELLOW
      (confidence_score DISENGAGE_LEN
        (fill_confidence DISENGAGE_LEN MODEL_FREQ RYG_GREEN RYG_YELLOW framed ps).2) = _
    rw [hps]
  · obtain ⟨j, m, hget, htick, huniq, hfinal⟩ :=
      fill_confidence_frames_window DISENGAGE_LEN MODEL_FREQ RYG_GREEN RYG_YELLOW hF a frames ps
        hlen hids
    refine ⟨j, m, hget, htick, huniq, ?_⟩
    rw [hfinal]
    exact update_disengage_buffer_tick DISENGAGE_LEN MODEL_FREQ m ps htick

/-- C15, witness: the forty frames with ids `7, ..., 46` at `MODEL_FREQ = 20`. -/
theorem cadence_of_buffer_update_witness :
    ∃ (j : Nat) (m : ModelDataV2), (window_frames 7)[j]? = some m ∧ m.frameId % (2 * 20) = 0 ∧
      (∀ (i : Nat) (f : ModelDataV2), (window_frames 7)[i]? = some f →
        f.frameId % (2 * 20) = 0 → i = j) ∧
      (fill_confidence_frames 5 20 (233 / 20000) (6157 / 100000) zero_publish_state
        (window_frames 7)).disengage_buffer
        = push_row 5 (row_of 5 m) zero_publish_state.disengage_buffer :=
  (cadence_of_buffer_update 5 20 (233 / 20000) (6157 / 100000) (by decide)).2.2 7
    (window_frames 7) zero_publish_state (by simp [window_frames])
    (fun i f hf => by
      simp only [window_frames, List.getElem?_map, Option.map_eq_some'] at hf
      obtain ⟨k, hk, rfl⟩ := hf
      obtain ⟨hlt, hki⟩ := List.getElem?_eq_some.mp hk
      rw [List.getElem_range] at hki
      rw [← hki]
      rfl)

/-! ## C16: the feature buffer -/

/-- Reading a slice that was already in a buffer of `n` slices of `w` entries,
after the first slice is dropped and a block appended. -/
theorem rd_shift_old (buf blk : List ℚ) (w n k j : Nat) (hbuf : buf.length = w * n)
    (hk : k + 1 < n) (hj : j < w) :
    rd (buf.drop w ++ blk) (k * w + j) = rd buf ((k + 1) * w + j) := by
  have hsucc : (k + 1) * w = k * w + w := Nat.succ_mul k w
  have hrows : (k + 1) * w + w ≤ n * w := by
    have := Nat.mul_le_mul_right w (show k + 2 ≤ n by omega)
    rw [Nat.succ_mul] at this
    exact this
  have hcomm : w * n = n * w := Nat.mul_comm w n
  unfold rd
  simp only [List.getD_eq_getElem?_getD]
  rw [List.getElem?_append_left (by rw [List.length_drop, hbuf]; omega), List.getElem?_drop]
  congr 2
  omega

/-- Reading the appended block after the first slice is dropped. -/
theorem rd_shift_new (buf blk : List ℚ) (w n j : Nat) (hbuf : buf.length = w * n)
    (hn : 1 ≤ n) :
    rd (buf.drop w ++ blk) ((n - 1) * w + j) = rd blk j := by
  have hsq : w * n = (n - 1) * w + w := by
    obtain ⟨m, rfl⟩ : ∃ m, n = m + 1 := ⟨n - 1, by omega⟩
    rw [Nat.add_sub_cancel, Nat.mul_comm, Nat.succ_mul]
  unfold rd
  simp only [List.getD_eq_getElem?_getD]
  rw [List.getElem?_append_right (by rw [List.length_drop, hbuf]; omega), List.length_drop,
    hbuf]
  congr 2
  omega

/-- Reading a block taken out of an array. -/
theorem rd_take_drop (l : List ℚ) (src n j : Nat) (hj : j < n) :
    rd ((l.drop src).take n) j = rd l (src + j) := by
  unfold rd
  simp only [List.getD_eq_getElem?_getD]
  rw [List.getElem?_take_of_lt hj, List.getElem?_drop]

theorem desire_step_feature_buffer (DL HBL : Nat) (d : List ℚ) (i : Nat) (s : ModelState) :
    (desire_step DL HBL d i s).feature_buffer = s.feature_buffer := by
  unfold desire_step
  split <;> rfl

/-- The desire block does not touch the feature buffer. -/
theorem desire_enqueue_feature_buffer (DL HBL : Nat) (desire_in : Option (List ℚ))
    (s : ModelState) :
    (desire_enqueue DL HBL desire_in s).feature_buffer = s.feature_buffer := by
  cases desire_in with
  | none => rfl
  | some d =>
    unfold desire_enqueue
    dsimp only
    generalize DL - 1 = n
    induction n with
    | zero => rfl
    | succ n ih =>
      rw [for_upto, desire_step_feature_buffer]
      exact ih

/-- The feature buffer and the result of a call of `model_eval_frame` that runs
the inference. -/
theorem model_eval_frame_feature_buffer (DL HBL FL OS : Nat) (execute : ModelState → List ℚ)
    (s : ModelState) (desire_in : Option (List ℚ)) (is_rhd : Bool) :
    (model_eval_frame DL HBL FL OS execute s desire_in is_rhd false).1.feature_buffer
      = memcpy_at (memmove_front s.feature_buffer FL (FL * (HBL - 1))) (FL * (HBL - 1))
          (model_eval_frame DL HBL FL OS execute s desire_in is_rhd false).1.output OS FL ∧
    (∃ st, (model_eval_frame DL HBL FL OS execute s desire_in is_rhd false).1.output
      = execute st) ∧
    (model_eval_frame DL HBL FL OS execute s desire_in is_rhd false).2
      = some (model_eval_frame DL HBL FL OS execute s desire_in is_rhd false).1.output := by
  unfold model_eval_frame
  simp only [Bool.false_eq_true, if_false]
  rw [desire_enqueue_feature_buffer]
  exact ⟨rfl, ⟨_, rfl⟩, trivial⟩

/-- C16: when inference runs (`prepare_only` false), the feature buffer keeps its
length `FEATURE_LEN*HISTORY_BUFFER_LEN`, for every slot `k < HISTORY_BUFFER_LEN-1`
the new slice `k` is the old slice `k+1`, the last slice is the slice
`output[OUTPUT_SIZE .. OUTPUT_SIZE+FEATURE_LEN)` of the new model output, and
that output is what the call returns. -/
theorem feature_buffer_update (DESIRE_LEN HISTORY_BUFFER_LEN FEATURE_LEN OUTPUT_SIZE : Nat)
    (execute : ModelState → List ℚ) (s : ModelState) (desire_in : Option (List ℚ))
    (is_rhd : Bool) (hH : 1 ≤ HISTORY_BUFFER_LEN)
    (hfb : s.feature_buffer.length = FEATURE_LEN * HISTORY_BUFFER_LEN)
    (hout : ∀ st, OUTPUT_SIZE + FEATURE_LEN ≤ (execute st).length) :
    (model_eval_frame DESIRE_LEN HISTORY_BUFFER_LEN FEATURE_LEN OUTPUT_SIZE execute s desire_in
        is_rhd false).1.feature_buffer.length = FEATURE_LEN * HISTORY_BUFFER_LEN ∧
    (∀ k j, k + 1 < HISTORY_BUFFER_LEN → j < FEATURE_LEN →
      rd (model_eval_frame DESIRE_LEN HISTORY_BUFFER_LEN FEATURE_LEN OUTPUT_SIZE execute s desire_in
          is_rhd false).1.feature_buffer (k * FEATURE_LEN + j)
        = rd s.feature_buffer ((k + 1) * FEATURE_LEN + j)) ∧
    (∀ j, j < FEATURE_LEN →
      rd (model_eval_frame DESIRE_LEN HISTORY_BUFFER_LEN FEATURE_LEN OUTPUT_SIZE execute s desire_in
          is_rhd false).1.feature_buffer ((HISTORY_BUFFER_LEN - 1) * FEATURE_LEN + j)
        = rd (model_eval_frame DESIRE_LEN HISTORY_BUFFER_LEN FEATURE_LEN OUTPUT_SIZE execute s
            desire_in is_rhd false).1.output (OUTPUT_SIZE + j)) ∧
    (model_eval_frame DESIRE_LEN HISTORY_BUFFER_LEN FEATURE_LEN OUTPUT_SIZE execute s desire_in
        is_rhd false).2
      = some (model_eval_frame DESIRE_LEN HISTORY_BUFFER_LEN FEATURE_LEN OUTPUT_SIZE execute s
          desire_in is_rhd false).1.output := by
  obtain ⟨hcopy, ⟨st, hst⟩, hret⟩ :=
    model_eval_frame_feature_buffer DESIRE_LEN HISTORY_BUFFER_LEN FEATURE_LEN OUTPUT_SIZE execute s
      desire_in is_rhd
  have hfeat := hcopy
  rw [memcpy_memmove_shift s.feature_buffer _ FEATURE_LEN HISTORY_BUFFER_LEN OUTPUT_SIZE hH hfb]
    at hfeat
  have hblk : (((model_eval_frame DESIRE_LEN HISTORY_BUFFER_LEN FEATURE_LEN OUTPUT_SIZE execute s
      desire_in is_rhd false).1.output.drop OUTPUT_SIZE).take FEATURE_LEN).length
      = FEATURE_LEN := by
    have ho := hout st
    rw [← hst] at ho
    rw [List.length_take, List.length_drop]
    omega
  refine ⟨?_, ?_, ?_, ?_⟩
  · have hle : FEATURE_LEN ≤ FEATURE_LEN * HISTORY_BUFFER_LEN := Nat.le_mul_of_pos_right _ hH
    rw [hfeat, List.length_append, List.length_drop, hblk, hfb]
    omega
  · intro k j hk hj
    rw [hfeat]
    exact rd_shift_old _ _ FEATURE_LEN HISTORY_BUFFER_LEN k j hfb hk hj
  · intro j hj
    rw [hfeat, rd_shift_new _ _ FEATURE_LEN HISTORY_BUFFER_LEN j hfb hH, rd_take_drop _ _ _ _ hj]
  · exact hret

/-- C16, witness: three slices of two features, a model output `[9, 7, 8]` with
`OUTPUT_SIZE = 1`. -/
theorem feature_buffer_update_witness :
    (model_eval_frame 2 3 2 1 (fun _ => [9, 7, 8]) small_model_state none false
        false).1.feature_buffer.length = 2 * 3 ∧
      rd (model_eval_frame 2 3 2 1 (fun _ => [9, 7, 8]) small_model_state none false
          false).1.feature_buffer (0 * 2 + 1) = rd small_model_state.feature_buffer ((0 + 1) * 2 + 1) ∧
      rd (model_eval_frame 2 3 2 1 (fun _ => [9, 7, 8]) small_model_state none false
          false).1.feature_buffer ((3 - 1) * 2 + 1)
        = rd (model_eval_frame 2 3 2 1 (fun _ => [9, 7, 8]) small_model_state none false
            false).1.output (1 + 1) :=
  have h := feature_buffer_update 2 3 2 1 (fun _ => [9, 7, 8]) small_model_state none false
    (by decide) rfl (fun _ => Nat.le_refl 3)
  ⟨h.1, h.2.1 0 1 (by decide) (by decide), h.2.2.1 1 (by decide)⟩

/-! ## The exponential of the standard deviations -/

section Underflow

variable {K : Type} [LinearOrderedField K] [FloorRing K] (f : FloatFormat)

/-- A nonnegative number below half of the smallest positive number of the format
rounds to zero. -/
theorem rnd_val_underflow (q : K) (h0 : 0 ≤ q) (h : q < (2 : K) ^ (f.emin - (f.prec : ℤ))) :
    rnd_val f q = 0 := by
  have hle : ulp_exp f q ≤ f.emin - ((f.prec : ℤ) - 1) :=
    ulp_exp_le f q _ (le_refl _) (by
      rw [abs_of_nonneg h0]
      exact lt_trans h (zpow_lt_zpow_right₀ (by norm_num) (by omega)))
  have hk : ulp_exp f q = f.emin - ((f.prec : ℤ) - 1) := le_antisymm hle (ulp_exp_ge f q)
  have hhalf : (2 : K) ^ (f.emin - (f.prec : ℤ)) = (2 : K) ^ (f.emin - ((f.prec : ℤ) - 1)) / 2 := by
    have : f.emin - (f.prec : ℤ) = f.emin - ((f.prec : ℤ) - 1) - 1 := by omega
    rw [this, zpow_sub_one₀ (by norm_num), div_eq_mul_inv]
  have hz : round_half_even (q / (2 : K) ^ ulp_exp f q) = 0 := by
    refine round_half_even_eq_of_near _ 0 ?_
    rw [hk, Int.cast_zero, sub_zero, abs_of_nonneg (div_nonneg h0 (le_of_lt (two_zpow_pos _))),
      div_lt_iff₀ (two_zpow_pos _)]
    rw [hhalf] at h
    linarith
  unfold rnd_val
  rw [hz]
  simp

end Underflow

theorem exp_nat (n : ℕ) : Real.exp (n : ℝ) = Real.exp 1 ^ n := by
  rw [← Real.exp_nat_mul, mul_one]

theorem exp_104_gt : (2 : ℝ) ^ (150 : ℕ) < Real.exp (104 : ℕ) := by
  rw [exp_nat]
  have h := Real.exp_one_gt_d9
  have h1 : (2.7182818283 : ℝ) ^ 104 < Real.exp 1 ^ 104 :=
    pow_lt_pow_left₀ h (by norm_num) (by norm_num)
  have h2 : (2 : ℝ) ^ (150 : ℕ) < (2.7182818283 : ℝ) ^ 104 := by norm_num
  linarith

theorem exp_103_lt : Real.exp (103 : ℕ) < (2 : ℝ) ^ (149 : ℕ) := by
  rw [exp_nat]
  have h := Real.exp_one_lt_d9
  have h1 : Real.exp 1 ^ 103 < (2.7182818286 : ℝ) ^ 103 :=
    pow_lt_pow_left₀ h (le_of_lt (Real.exp_pos 1)) (by norm_num)
  have h2 : (2.7182818286 : ℝ) ^ 103 < (2 : ℝ) ^ (149 : ℕ) := by norm_num
  linarith

theorem exp_88_lt : Real.exp (88 : ℕ) < (2 : ℝ) ^ (127 : ℕ) := by
  rw [exp_nat]
  have h := Real.exp_one_lt_d9
  have h1 : Real.exp 1 ^ 88 < (2.7182818286 : ℝ) ^ 88 :=
    pow_lt_pow_left₀ h (le_of_lt (Real.exp_pos 1)) (by norm_num)
  have h2 : (2.7182818286 : ℝ) ^ 88 < (2 : ℝ) ^ (127 : ℕ) := by norm_num
  linarith

theorem exp_89_gt : (2 : ℝ) ^ (128 : ℕ) < Real.exp (89 : ℕ) := by
  rw [exp_nat]
  have h := Real.exp_one_gt_d9
  have h1 : (2.7182818283 : ℝ) ^ 89 < Real.exp 1 ^ 89 :=
    pow_lt_pow_left₀ h (by norm_num) (by norm_num)
  have h2 : (2 : ℝ) ^ (128 : ℕ) < (2.7182818283 : ℝ) ^ 89 := by norm_num
  linarith

/-! ## C17: the published standard deviations -/

theorem neg_le_of_natCast_real (v : ℚ) (n : ℕ) (h : -(n : ℚ) ≤ v) : -(n : ℝ) ≤ (v : ℝ) := by
  have : ((-(n : ℚ) : ℚ) : ℝ) ≤ (v : ℝ) := by exact_mod_cast h
  simpa using this

/-- The float exponential is never negative and never `NaN`. -/
theorem exp_f32_nonneg (v : ℚ) : (exp_f32 v).is_nonneg := by
  have h0 := rnd_val_nonneg binary32 (Real.exp (v : ℝ)) (le_of_lt (Real.exp_pos _))
  unfold exp_f32 rnd
  split
  · trivial
  · split
    · rename_i hlt
      exact absurd hlt (not_lt.mpr (by linarith [max_finite_nonneg binary32]))
    · exact h0

/-- The float exponential of a value of at least `-103` is strictly positive. -/
theorem exp_f32_positive (v : ℚ) (hv : -103 ≤ v) : (exp_f32 v).is_positive := by
  have hexp : (2 : ℝ) ^ (binary32.emin - ((binary32.prec : ℤ) - 1)) ≤ Real.exp (v : ℝ) := by
    have h1 : Real.exp (-((103 : ℕ) : ℝ)) ≤ Real.exp (v : ℝ) :=
      Real.exp_le_exp.mpr (neg_le_of_natCast_real v 103 (by simpa using hv))
    have h2 : (2 : ℝ) ^ (binary32.emin - ((binary32.prec : ℤ) - 1)) ≤ Real.exp (-((103 : ℕ) : ℝ)) := by
      rw [Real.exp_neg]
      have h3 : (2 : ℝ) ^ (binary32.emin - ((binary32.prec : ℤ) - 1)) = ((2 : ℝ) ^ (149 : ℕ))⁻¹ := by
        norm_num [binary32, zpow_neg]
      rw [h3]
      exact inv_anti₀ (Real.exp_pos _) (le_of_lt exp_103_lt)
    linarith
  have hpos := min_le_rnd_val binary32 binary32_prec_pos (Real.exp (v : ℝ)) hexp
  have hu : (0 : ℚ) < (2 : ℚ) ^ (binary32.emin - ((binary32.prec : ℤ) - 1)) := two_zpow_pos _
  unfold exp_f32 rnd
  split
  · trivial
  · split
    · rename_i hlt
      exact absurd hlt (not_lt.mpr (by linarith [max_finite_nonneg binary32]))
    · show 0 < rnd_val binary32 (Real.exp (v : ℝ))
      linarith

/-- The float exponential of a value of at most `-104` underflows to zero. -/
theorem exp_f32_underflow (v : ℚ) (hv : v ≤ -104) : exp_f32 v = FVal.fin 0 := by
  have hexp : Real.exp (v : ℝ) < (2 : ℝ) ^ (binary32.emin - (binary32.prec : ℤ)) := by
    have hv2 : (v : ℝ) ≤ -((104 : ℕ) : ℝ) := by
      have : (v : ℝ) ≤ ((-104 : ℚ) : ℝ) := by exact_mod_cast hv
      simpa using this
    have h1 : Real.exp (v : ℝ) ≤ Real.exp (-((104 : ℕ) : ℝ)) := Real.exp_le_exp.mpr hv2
    have h2 : Real.exp (-((104 : ℕ) : ℝ)) < (2 : ℝ) ^ (binary32.emin - (binary32.prec : ℤ)) := by
      rw [Real.exp_neg]
      have h3 : (2 : ℝ) ^ (binary32.emin - (binary32.prec : ℤ)) = ((2 : ℝ) ^ (150 : ℕ))⁻¹ := by
        norm_num [binary32, zpow_neg]
      rw [h3]
      exact inv_strictAnti₀ (by norm_num) exp_104_gt
    linarith
  have hz := rnd_val_underflow binary32 (Real.exp (v : ℝ)) (le_of_lt (Real.exp_pos _)) hexp
  unfold exp_f32
  rw [rnd_eq_fin binary32 _ (by rw [hz]; linarith [max_finite_nonneg binary32])
    (by rw [hz]; exact max_finite_nonneg binary32), hz]

/-- The float exponential of a value of at most `88` is finite. -/
theorem exp_f32_finite (v : ℚ) (hv : v ≤ 88) : ∃ r : ℚ, exp_f32 v = FVal.fin r := by
  have hexp : Real.exp (v : ℝ) ≤ (2 : ℝ) ^ (127 : ℤ) := by
    have hv2 : (v : ℝ) ≤ ((88 : ℕ) : ℝ) := by
      have : (v : ℝ) ≤ ((88 : ℚ) : ℝ) := by exact_mod_cast hv
      simpa using this
    have h1 : Real.exp (v : ℝ) ≤ Real.exp ((88 : ℕ) : ℝ) := Real.exp_le_exp.mpr hv2
    have h2 := exp_88_lt
    have h3 : (2 : ℝ) ^ (127 : ℤ) = (2 : ℝ) ^ (127 : ℕ) := by norm_num
    rw [h3]
    linarith
  have habs : |Real.exp (v : ℝ)| ≤ (2 : ℝ) ^ (127 : ℤ) := by
    rw [abs_of_pos (Real.exp_pos _)]
    exact hexp
  exact ⟨_, rnd_fin_of_abs_le binary32 _ 127
    (ulp_exp_le binary32 _ 127 (by decide)
      (lt_of_le_of_lt habs (zpow_lt_zpow_right₀ (by norm_num) (by norm_num [binary32]))))
    habs (two_zpow_le_max_finite_binary32 127 (le_refl _))⟩

/-- The float exponential of a value of at least `89` overflows to `+inf`. -/
theorem exp_f32_overflow (v : ℚ) (hv : 89 ≤ v) : exp_f32 v = FVal.pinf := by
  have hexp : (2 : ℝ) ^ (128 : ℤ) ≤ Real.exp (v : ℝ) := by
    have hv2 : ((89 : ℕ) : ℝ) ≤ (v : ℝ) := by
      have : ((89 : ℚ) : ℝ) ≤ (v : ℝ) := by exact_mod_cast hv
      simpa using this
    have h1 : Real.exp ((89 : ℕ) : ℝ) ≤ Real.exp (v : ℝ) := Real.exp_le_exp.mpr hv2
    have h2 := exp_89_gt
    have h3 : (2 : ℝ) ^ (128 : ℤ) = (2 : ℝ) ^ (128 : ℕ) := by norm_num
    rw [h3]
    linarith
  have hbig := pow_le_rnd_val binary32 binary32_prec_pos (Real.exp (v : ℝ)) 128 (by decide) hexp
  have hmax : max_finite binary32 < (2 : ℚ) ^ (128 : ℤ) := by
    norm_num [max_finite, binary32]
  unfold exp_f32 rnd
  rw [if_pos (lt_of_lt_of_le hmax hbig)]

theorem getD_map_range {α : Type} (g : Nat → α) (n i : Nat) (d : α) (hi : i < n) :
    ((List.range n).map g).getD i d = g i := by
  simp [List.getD_eq_getElem?_getD, List.getElem?_map, List.getElem?_range hi]

/-- C17, as amended: for every raw log-std value of the selected plan, `fill_plan`
publishes for each step and axis the float `exp(log_std)`, and so do `fill_lead`,
`fill_lane_lines`, `fill_road_edges` and `fill_model` for the lead, lane-line,
road-edge and temporal-pose standard deviations.  That float is never negative
and never `NaN`; it is strictly positive when `log_std >= -103`, it is zero when
`log_std <= -104` (the exponential underflows), it is finite when `log_std <= 88`
and `+inf` when `log_std >= 89`. -/
theorem published_std_is_exp :
    (∀ (TRAJECTORY_SIZE : Nat) (std_position : Nat → ModelOutputXYZ) (i : Nat),
      i < TRAJECTORY_SIZE →
      (fill_plan exp_f32 TRAJECTORY_SIZE std_position).pos_x_std.getD i FVal.nan
          = exp_f32 (std_position i).x ∧
        (fill_plan exp_f32 TRAJECTORY_SIZE std_position).pos_y_std.getD i FVal.nan
          = exp_f32 (std_position i).y ∧
        (fill_plan exp_f32 TRAJECTORY_SIZE std_position).pos_z_std.getD i FVal.nan
          = exp_f32 (std_position i).z) ∧
    (∀ (LEAD_TRAJ_LEN : Nat) (std : Nat → ModelOutputLeadElement) (i : Nat),
      i < LEAD_TRAJ_LEN →
      (fill_lead exp_f32 LEAD_TRAJ_LEN std).lead_x_std.getD i FVal.nan = exp_f32 (std i).x ∧
        (fill_lead exp_f32 LEAD_TRAJ_LEN std).lead_y_std.getD i FVal.nan = exp_f32 (std i).y ∧
        (fill_lead exp_f32 LEAD_TRAJ_LEN std).lead_v_std.getD i FVal.nan
          = exp_f32 (std i).velocity ∧
        (fill_lead exp_f32 LEAD_TRAJ_LEN std).lead_a_std.getD i FVal.nan
          = exp_f32 (std i).acceleration) ∧
    (∀ left_far left_near right_near right_far : ℚ,
      fill_lane_lines exp_f32 left_far left_near right_near right_far
        = [exp_f32 left_far, exp_f32 left_near, exp_f32 right_near, exp_f32 right_far]) ∧
    (∀ left right : ℚ, fill_road_edges exp_f32 left right = [exp_f32 left, exp_f32 right]) ∧
    (∀ v_std r_std : ModelOutputXYZ,
      temporal_pose_stds exp_f32 v_std r_std
        = ([exp_f32 v_std.x, exp_f32 v_std.y, exp_f32 v_std.z],
          [exp_f32 r_std.x, exp_f32 r_std.y, exp_f32 r_std.z])) ∧
    (∀ log_std : ℚ,
      (exp_f32 log_std).is_nonneg ∧
        (-103 ≤ log_std → (exp_f32 log_std).is_positive) ∧
        (log_std ≤ -104 → exp_f32 log_std = FVal.fin 0) ∧
        (log_std ≤ 88 → ∃ r : ℚ, exp_f32 log_std = FVal.fin r) ∧
        (89 ≤ log_std → exp_f32 log_std = FVal.pinf)) :=
  ⟨fun N _ i hi =>
      ⟨getD_map_range _ N i _ hi, getD_map_range _ N i _ hi, getD_map_range _ N i _ hi⟩,
    fun L _ i hi =>
      ⟨getD_map_range _ L i _ hi, getD_map_range _ L i _ hi, getD_map_range _ L i _ hi,
        getD_map_range _ L i _ hi⟩,
    fun _ _ _ _ => rfl, fun _ _ => rfl, fun _ _ => rfl,
    fun v => ⟨exp_f32_nonneg v, exp_f32_positive v, exp_f32_underflow v, exp_f32_finite v,
      exp_f32_overflow v⟩⟩

/-- C17, witness: the first position standard deviation of a plan whose raw values
are all `-200` is the float `exp(-200)`, and the float `exp(0)` is strictly
positive. -/
theorem published_std_is_exp_witness :
    (fill_plan exp_f32 33 deep_std).pos_x_std.getD 0 FVal.nan = exp_f32 (deep_std 0).x ∧
      (exp_f32 0).is_positive :=
  ⟨(published_std_is_exp.1 33 deep_std 0 (by decide)).1,
    (published_std_is_exp.2.2.2.2.2 0).2.1 (by norm_num)⟩

/-- C17, counterexample: for the raw log-std value `-200` the real exponential is
about `1.4e-87`, far below the smallest positive float, and the position standard
deviation that `fill_plan` publishes is `0`, which is not strictly positive. -/
theorem published_std_zero :
    (fill_plan exp_f32 33 deep_std).pos_x_std.getD 0 FVal.nan = FVal.fin 0 ∧
      ¬ ((fill_plan exp_f32 33 deep_std).pos_x_std.getD 0 FVal.nan).is_positive := by
  have h : (fill_plan exp_f32 33 deep_std).pos_x_std.getD 0 FVal.nan = FVal.fin 0 := by
    unfold fill_plan
    rw [getD_map_range _ 33 0 _ (by decide)]
    exact exp_f32_underflow _ (by norm_num [deep_std])
  refine ⟨h, ?_⟩
  rw [h]
  exact lt_irrefl (0 : ℚ)

/-! ## The bracket of the search -/

section Bracket

variable (N : Nat) (x X T : Nat → ℚ)

end Bracket

/-! ## C18: the bracketing invariant -/

section Order

variable (N : Nat) (x X T : Nat → ℚ)

end Order

/-! ## C19: monotone time alignment -/

theorem rd_map_range (f : Nat → ℚ) (n h : Nat) (hh : h < n) :
    rd ((List.range n).map f) h = f h := by
  simp [rd, List.getElem?_map, List.getElem?_range hh]

theorem rnd_val_ge_pow (q : ℚ) (j : ℤ) (hj : -126 ≤ j) (h : (2 : ℚ) ^ j ≤ q) :
    (2 : ℚ) ^ j ≤ rnd_val binary32 q :=
  pow_le_rnd_val binary32 binary32_prec_pos q j hj h

theorem rnd_val_le_pow (q : ℚ) (j : ℤ) (hj : -149 ≤ j) (h0 : 0 ≤ q)
    (h : q ≤ (2 : ℚ) ^ j) : rnd_val binary32 q ≤ (2 : ℚ) ^ j := by
  have habs : |q| < (2 : ℚ) ^ (j + 24) := by
    rw [abs_of_nonneg h0]
    exact lt_of_le_of_lt h (zpow_lt_zpow_right₀ (by norm_num) (by omega))
  have := rnd_val_le_grid binary32 q 1 j (ulp_exp_binary32_le q j hj habs) (by simpa using h)
  simpa using this

/-- The product `(1-a)*(1-b)*(1-c)` of the code for three probabilities of the unit
interval: a float `P` of the unit interval with `any_dp = 1 - P` rounded; `P` is
at least `2^-24` when the probabilities are at most `255/256` and at most `2^-27`
when they are at least `511/512`. -/
theorem any_dp_f32_eq (dbps dgps dsps : List ℚ) (i : Nat)
    (hb : 0 ≤ rd dbps i ∧ rd dbps i ≤ 1) (hg : 0 ≤ rd dgps i ∧ rd dgps i ≤ 1)
    (hs : 0 ≤ rd dsps i ∧ rd dsps i ≤ 1) :
    ∃ P : ℚ, 0 ≤ P ∧ P ≤ 1 ∧
      any_dp_f32 dbps dgps dsps i = FVal.fin (rnd_val binary32 (1 - P)) ∧
      (rd dbps i ≤ 255 / 256 ∧ rd dgps i ≤ 255 / 256 ∧ rd dsps i ≤ 255 / 256 →
        1 / 2 ^ 24 ≤ P) ∧
      (511 / 512 ≤ rd dbps i ∧ 511 / 512 ≤ rd dgps i ∧ 511 / 512 ≤ rd dsps i →
        P ≤ 1 / 2 ^ 27) := by
  obtain ⟨ea, ha0, ha1⟩ := rnd_unit (1 - rd dbps i) (by linarith [hb.2]) (by linarith [hb.1])
  obtain ⟨eb, hb0, hb1⟩ := rnd_unit (1 - rd dgps i) (by linarith [hg.2]) (by linarith [hg.1])
  obtain ⟨ec, hc0, hc1⟩ := rnd_unit (1 - rd dsps i) (by linarith [hs.2]) (by linarith [hs.1])
  obtain ⟨e2, h20, h21⟩ := rnd_unit
    (rnd_val binary32 (1 - rd dbps i) * rnd_val binary32 (1 - rd dgps i))
    (mul_nonneg ha0 hb0) (mul_le_one₀ ha1 hb0 hb1)
  obtain ⟨e3, h30, h31⟩ := rnd_unit
    (rnd_val binary32 (rnd_val binary32 (1 - rd dbps i) * rnd_val binary32 (1 - rd dgps i))
      * rnd_val binary32 (1 - rd dsps i))
    (mul_nonneg h20 hc0) (mul_le_one₀ h21 hc0 hc1)
  obtain ⟨e4, _, _⟩ := rnd_unit
    (1 - rnd_val binary32
      (rnd_val binary32 (rnd_val binary32 (1 - rd dbps i) * rnd_val binary32 (1 - rd dgps i))
        * rnd_val binary32 (1 - rd dsps i)))
    (by linarith) (by linarith)
  refine ⟨_, h30, h31, ?_, ?_, ?_⟩
  · unfold any_dp_f32
    simp only [fsub, fmul, ea, eb, ec, e2, e3, e4]
  · rintro ⟨h1, h2, h3⟩
    have ta := rnd_val_ge_pow (1 - rd dbps i) (-8) (by norm_num) (by norm_num; linarith)
    have tb := rnd_val_ge_pow (1 - rd dgps i) (-8) (by norm_num) (by norm_num; linarith)
    have tc := rnd_val_ge_pow (1 - rd dsps i) (-8) (by norm_num) (by norm_num; linarith)
    have hu : (0 : ℚ) ≤ (2 : ℚ) ^ (-8 : ℤ) := by norm_num
    have t2 := rnd_val_ge_pow
      (rnd_val binary32 (1 - rd dbps i) * rnd_val binary32 (1 - rd dgps i)) (-16) (by norm_num)
      (by
        have := mul_le_mul ta tb hu ha0
        norm_num at this ⊢
        linarith)
    have hu2 : (0 : ℚ) ≤ (2 : ℚ) ^ (-16 : ℤ) := by norm_num
    have t3 := rnd_val_ge_pow
      (rnd_val binary32 (rnd_val binary32 (1 - rd dbps i) * rnd_val binary32 (1 - rd dgps i))
        * rnd_val binary32 (1 - rd dsps i)) (-24) (by norm_num)
      (by
        have := mul_le_mul t2 tc hu h20
        norm_num at this ⊢
        linarith)
    norm_num at t3 ⊢
    linarith
  · rintro ⟨h1, h2, h3⟩
    have ta := rnd_val_le_pow (1 - rd dbps i) (-9) (by norm_num)
      (by linarith [hb.2]) (by norm_num; linarith)
    have tb := rnd_val_le_pow (1 - rd dgps i) (-9) (by norm_num)
      (by linarith [hg.2]) (by norm_num; linarith)
    have tc := rnd_val_le_pow (1 - rd dsps i) (-9) (by norm_num)
      (by linarith [hs.2]) (by norm_num; linarith)
    have t2 := rnd_val_le_pow
      (rnd_val binary32 (1 - rd dbps i) * rnd_val binary32 (1 - rd dgps i)) (-18) (by norm_num)
      (mul_nonneg ha0 hb0)
      (by
        have := mul_le_mul ta tb hb0 (by norm_num)
        norm_num at this ⊢
        linarith)
    have t3 := rnd_val_le_pow
      (rnd_val binary32 (rnd_val binary32 (1 - rd dbps i) * rnd_val binary32 (1 - rd dgps i))
        * rnd_val binary32 (1 - rd dsps i)) (-27) (by norm_num)
      (mul_nonneg h20 hc0)
      (by
        have := mul_le_mul t2 tc hc0 (by norm_num)
        norm_num at this ⊢
        linarith)
    norm_num at t3 ⊢
    linarith

/-- The denominator `1 - any_dp` for `any_dp = 1 - P` rounded, `P` a number of the
unit interval. -/
theorem hazard_denominator (P : ℚ) (h0 : 0 ≤ P) (h1 : P ≤ 1) :
    rnd binary32 (1 - rnd_val binary32 (1 - P))
        = FVal.fin (rnd_val binary32 (1 - rnd_val binary32 (1 - P))) ∧
      0 ≤ rnd_val binary32 (1 - P) ∧ rnd_val binary32 (1 - P) ≤ 1 ∧
      0 ≤ rnd_val binary32 (1 - rnd_val binary32 (1 - P)) ∧
      rnd_val binary32 (1 - rnd_val binary32 (1 - P)) ≤ 1 ∧
      (rnd_val binary32 (1 - P) < 1 →
        1 / 2 ^ 24 ≤ rnd_val binary32 (1 - rnd_val binary32 (1 - P))) ∧
      (rnd_val binary32 (1 - P) = 1 → rnd_val binary32 (1 - rnd_val binary32 (1 - P)) = 0) ∧
      (1 / 2 ^ 24 ≤ P → rnd_val binary32 (1 - P) < 1) ∧
      (P ≤ 1 / 2 ^ 27 → rnd_val binary32 (1 - P) = 1) := by
  obtain ⟨_, hA0, hA1⟩ := rnd_unit (1 - P) (by linarith) (by linarith)
  obtain ⟨ed, hd0, hd1⟩ := rnd_unit (1 - rnd_val binary32 (1 - P)) (by linarith) (by linarith)
  refine ⟨ed, hA0, hA1, hd0, hd1, ?_, ?_, ?_, ?_⟩
  · intro hlt
    have hle := rnd_val_lt_one (1 - P) (by linarith) hlt
    have := rnd_val_ge_pow (1 - rnd_val binary32 (1 - P)) (-24) (by norm_num)
      (by norm_num; linarith)
    norm_num at this ⊢
    linarith
  · intro h
    rw [h, sub_self]
    exact rnd_val_zero binary32
  · intro hP
    have hq : (1 : ℚ) - P ≤ ((2 ^ 24 - 1 : ℤ) : ℚ) * (2 : ℚ) ^ (-24 : ℤ) := by
      norm_num
      linarith
    have habs : |1 - P| < (2 : ℚ) ^ ((-24 : ℤ) + 24) := by
      rw [abs_of_nonneg (by linarith)]
      norm_num
      linarith
    have := rnd_val_le_grid binary32 (1 - P) (2 ^ 24 - 1) (-24)
      (ulp_exp_binary32_le (1 - P) (-24) (by norm_num) habs) hq
    norm_num at this
    linarith
  · intro hP
    exact rnd_val_near_one (1 - P) (by linarith) (by linarith)

/-! ## C20: the denominators of the hazard-rate recurrence -/

/-- The cumulative value and the denominator at one horizon, for probabilities of
the unit interval. -/
theorem any_dp_f32_at (dbps dgps dsps : List ℚ) (h : Nat)
    (hb : 0 ≤ rd dbps h ∧ rd dbps h ≤ 1) (hg : 0 ≤ rd dgps h ∧ rd dgps h ≤ 1)
    (hs : 0 ≤ rd dsps h ∧ rd dsps h ≤ 1) :
    ∃ a d : ℚ, any_dp_f32 dbps dgps dsps h = FVal.fin a ∧
      fsub binary32 (FVal.fin 1) (any_dp_f32 dbps dgps dsps h) = FVal.fin d ∧
      0 ≤ a ∧ a ≤ 1 ∧ 0 ≤ d ∧ d ≤ 1 ∧ (d = 0 ↔ a = 1) ∧ (a < 1 → 1 / 2 ^ 24 ≤ d) ∧
      (rd dbps h ≤ 255 / 256 ∧ rd dgps h ≤ 255 / 256 ∧ rd dsps h ≤ 255 / 256 →
        1 / 2 ^ 24 ≤ d) ∧
      (511 / 512 ≤ rd dbps h ∧ 511 / 512 ≤ rd dgps h ∧ 511 / 512 ≤ rd dsps h →
        a = 1 ∧ d = 0) := by
  obtain ⟨P, hP0, hP1, hany, hlow, hhigh⟩ := any_dp_f32_eq dbps dgps dsps h hb hg hs
  obtain ⟨ed, hA0, hA1, hd0, hd1, hpos, hzero, hlt, hone⟩ := hazard_denominator P hP0 hP1
  refine ⟨_, _, hany, ?_, hA0, hA1, hd0, hd1, ⟨fun hd => ?_, hzero⟩, hpos,
    fun hp => hpos (hlt (hlow hp)), fun hp => ⟨hone (hhigh hp), hzero (hone (hhigh hp))⟩⟩
  · rw [hany]
    exact ed
  · by_contra hne
    have := hpos (lt_of_le_of_ne hA1 hne)
    rw [hd] at this
    norm_num at this

/-- C20, as amended: for brake, gas and steer-override probabilities in `[0, 1]`,
every cumulative `any_dp[h]` that `fill_confidence` computes is a float in
`[0, 1]` and every denominator `1 - any_dp[h]` is a float in `[0, 1]`, never
negative and never `NaN`; the denominator is zero exactly when `any_dp[h]` is
`1.0f`, and otherwise at least `2^-24`.  It is at least `2^-24` whenever the three
probabilities are at most `255/256`, and it is zero whenever they are at least
`511/512`.  The probabilities that `fill_meta` publishes are in `[0, 1]` whenever
`sigmoid` takes its values there. -/
theorem any_dp_f32_denominator (DISENGAGE_LEN : Nat) :
    (∀ dbps dgps dsps : List ℚ,
      (∀ h, h < DISENGAGE_LEN → 0 ≤ rd dbps h ∧ rd dbps h ≤ 1) →
      (∀ h, h < DISENGAGE_LEN → 0 ≤ rd dgps h ∧ rd dgps h ≤ 1) →
      (∀ h, h < DISENGAGE_LEN → 0 ≤ rd dsps h ∧ rd dsps h ≤ 1) →
      ∀ h, h < DISENGAGE_LEN →
        ∃ a d : ℚ, any_dp_f32 dbps dgps dsps h = FVal.fin a ∧
          fsub binary32 (FVal.fin 1) (any_dp_f32 dbps dgps dsps h) = FVal.fin d ∧
          0 ≤ a ∧ a ≤ 1 ∧ 0 ≤ d ∧ d ≤ 1 ∧ (d = 0 ↔ a = 1) ∧ (a < 1 → 1 / 2 ^ 24 ≤ d) ∧
          (rd dbps h ≤ 255 / 256 ∧ rd dgps h ≤ 255 / 256 ∧ rd dsps h ≤ 255 / 256 →
            1 / 2 ^ 24 ≤ d) ∧
          (511 / 512 ≤ rd dbps h ∧ 511 / 512 ≤ rd dgps h ∧ 511 / 512 ≤ rd dsps h →
            a = 1 ∧ d = 0)) ∧
    (∀ (DESIRE_LEN DESIRE_PRED_LEN : Nat) (sigmoid : ℚ → ℚ) (softmax : List ℚ → List ℚ)
      (c : FcwThresholds) (meta_data : ModelOutputMeta) (ps : PublishState),
      (∀ v, 0 ≤ sigmoid v ∧ sigmoid v ≤ 1) →
      ∀ h, h < DISENGAGE_LEN →
        ∃ d : ℚ, fsub binary32 (FVal.fin 1) (any_dp_f32
          (fill_meta DESIRE_LEN DESIRE_PRED_LEN DISENGAGE_LEN sigmoid softmax c meta_data
            ps).1.disengagePredictions.brakeDisengageProbs
          (fill_meta DESIRE_LEN DESIRE_PRED_LEN DISENGAGE_LEN sigmoid softmax c meta_data
            ps).1.disengagePredictions.gasDisengageProbs
          (fill_meta DESIRE_LEN DESIRE_PRED_LEN DISENGAGE_LEN sigmoid softmax c meta_data
            ps).1.disengagePredictions.steerOverrideProbs h) = FVal.fin d ∧ 0 ≤ d) := by
  refine ⟨fun dbps dgps dsps hb hg hs h hh =>
    any_dp_f32_at dbps dgps dsps h (hb h hh) (hg h hh) (hs h hh),
    fun DESIRE_LEN DESIRE_PRED_LEN sigmoid softmax c meta_data ps hsig h hh => ?_⟩
  obtain ⟨a, d, _, hd, _, _, hd0, _⟩ := any_dp_f32_at
    (fill_meta DESIRE_LEN DESIRE_PRED_LEN DISENGAGE_LEN sigmoid softmax c meta_data
      ps).1.disengagePredictions.brakeDisengageProbs
    (fill_meta DESIRE_LEN DESIRE_PRED_LEN DISENGAGE_LEN sigmoid softmax c meta_data
      ps).1.disengagePredictions.gasDisengageProbs
    (fill_meta DESIRE_LEN DESIRE_PRED_LEN DISENGAGE_LEN sigmoid softmax c meta_data
      ps).1.disengagePredictions.steerOverrideProbs h
    (by
      show 0 ≤ rd ((List.range DISENGAGE_LEN).map _) h ∧ rd ((List.range DISENGAGE_LEN).map _) h ≤ 1
      rw [rd_map_range _ _ _ hh]
      exact hsig _)
    (by
      show 0 ≤ rd ((List.range DISENGAGE_LEN).map _) h ∧ rd ((List.range DISENGAGE_LEN).map _) h ≤ 1
      rw [rd_map_range _ _ _ hh]
      exact hsig _)
    (by
      show 0 ≤ rd ((List.range DISENGAGE_LEN).map _) h ∧ rd ((List.range DISENGAGE_LEN).map _) h ≤ 1
      rw [rd_map_range _ _ _ hh]
      exact hsig _)
  exact ⟨d, hd, hd0⟩

theorem example_probs_unit : ∀ h, h < 5 → 0 ≤ rd example_probs h ∧ rd example_probs h ≤ 1 :=
  fun h hh => by
    interval_cases h <;> simp [example_probs, rd] <;> norm_num

theorem near_one_probs_unit :
    ∀ h, h < 5 → 0 ≤ rd near_one_probs h ∧ rd near_one_probs h ≤ 1 :=
  fun h hh => by
    interval_cases h <;> simp [near_one_probs, near_one, rd] <;> norm_num

theorem near_one_probs_high : ∀ h, h < 5 → 511 / 512 ≤ rd near_one_probs h :=
  fun h hh => by
    interval_cases h <;> simp [near_one_probs, near_one, rd] <;> norm_num

/-- C20, witness: with the probabilities `[0.1, 0.2, 0.3, 0.4, 0.5]` for brake, gas
and steering override the denominator of the last horizon is a float of `[0, 1]`
that is at least `2^-24`. -/
theorem any_dp_f32_denominator_witness :
    ∃ a d : ℚ, any_dp_f32 example_probs example_probs example_probs 4 = FVal.fin a ∧
      fsub binary32 (FVal.fin 1) (any_dp_f32 example_probs example_probs example_probs 4)
        = FVal.fin d ∧ 0 ≤ a ∧ a ≤ 1 ∧ 0 ≤ d ∧ d ≤ 1 ∧ 1 / 2 ^ 24 ≤ d := by
  obtain ⟨a, d, ha, hd, ha0, ha1, hd0, hd1, _, _, hlow, _⟩ :=
    (any_dp_f32_denominator 5).1 example_probs example_probs example_probs example_probs_unit
      example_probs_unit example_probs_unit 4 (by decide)
  exact ⟨a, d, ha, hd, ha0, ha1, hd0, hd1,
    hlow (by simp [example_probs, rd]; norm_num)⟩

/-- C20, counterexample: the float `0.999f` is strictly inside `(0, 1)`, but with
it as brake, gas and steer-override probability the product
`(1-0.999f)*(1-0.999f)*(1-0.999f)` is about `1e-9`, `1` minus it rounds to
`1.0f`, and the denominator `1 - any_dp[0]` is zero. -/
theorem any_dp_f32_zero_denominator :
    0 < near_one ∧ near_one < 1 ∧
      rnd binary32 near_one = FVal.fin near_one ∧
      any_dp_f32 near_one_probs near_one_probs near_one_probs 0 = FVal.fin 1 ∧
      fsub binary32 (FVal.fin 1) (any_dp_f32 near_one_probs near_one_probs near_one_probs 0)
        = FVal.fin 0 := by
  obtain ⟨a, d, ha, hd, _, _, _, _, _, _, _, hhigh⟩ :=
    any_dp_f32_at near_one_probs near_one_probs near_one_probs 0
      (near_one_probs_unit 0 (by decide)) (near_one_probs_unit 0 (by decide))
      (near_one_probs_unit 0 (by decide))
  obtain ⟨ha1, hd0⟩ := hhigh ⟨near_one_probs_high 0 (by decide), near_one_probs_high 0 (by decide),
    near_one_probs_high 0 (by decide)⟩
  rw [ha1] at ha
  rw [hd0] at hd
  exact ⟨by norm_num [near_one], by norm_num [near_one],
    rnd_exact binary32 near_one 16760439 (-24) (by decide) (by norm_num [near_one])
      (by norm_num [near_one, binary32, abs_lt])
      (by simpa [binary32] using two_zpow_le_max_finite_binary32 0 (by norm_num)),
    ha, hd⟩

/-! ## C21: the row `dp_ind` in float arithmetic -/

/-- A loop `for (i = 0; i < n; i++) d[i+1] = g(i);` on an array whose slot `0` holds
`v`: afterwards slot `0` still holds `v` and slot `i + 1` holds `g(i)`. -/
theorem set_loop {α : Type} (H : Nat) (g : Nat → α) (z v d : α) :
    ∀ n, n + 1 ≤ H →
      (for_upto (fun i l => l.set (i + 1) (g i)) ((List.replicate H z).set 0 v) n).length = H ∧
      (for_upto (fun i l => l.set (i + 1) (g i)) ((List.replicate H z).set 0 v) n).getD 0 d = v ∧
      ∀ i, i < n →
        (for_upto (fun i l => l.set (i + 1) (g i)) ((List.replicate H z).set 0 v) n).getD
          (i + 1) d = g i
  | 0 => by
    intro hH
    refine ⟨by simp [for_upto], ?_, fun i hi => absurd hi (by omega)⟩
    exact getD_set_self _ _ _ _ (by rw [List.length_replicate]; omega)
  | n + 1 => by
    intro hH
    obtain ⟨hlen, hzero, hdone⟩ := set_loop H g z v d n (by omega)
    simp only [for_upto]
    refine ⟨by rw [List.length_set, hlen], ?_, ?_⟩
    · rw [getD_set_other _ _ _ _ _ (by omega)]
      exact hzero
    · intro i hi
      by_cases hlast : i = n
      · subst hlast
        exact getD_set_self _ _ _ _ (by rw [hlen]; omega)
      · rw [getD_set_other _ _ _ _ _ (by omega)]
        exact hdone i (by omega)

/-- The array `dp_ind` in float arithmetic: its length and its entries. -/
theorem dp_ind_f32_spec (H : Nat) (dbps dgps dsps : List ℚ) (hH : 0 < H) :
    (dp_ind_f32 H dbps dgps dsps).length = H ∧
    (dp_ind_f32 H dbps dgps dsps).getD 0 FVal.nan = any_dp_f32 dbps dgps dsps 0 ∧
    ∀ i, i + 1 < H →
      (dp_ind_f32 H dbps dgps dsps).getD (i + 1) FVal.nan
        = fdiv binary32
          (fsub binary32 (any_dp_f32 dbps dgps dsps (i + 1)) (any_dp_f32 dbps dgps dsps i))
          (fsub binary32 (FVal.fin 1) (any_dp_f32 dbps dgps dsps i)) := by
  obtain ⟨hlen, hzero, hdone⟩ := set_loop H
    (fun i => fdiv binary32
      (fsub binary32 (any_dp_f32 dbps dgps dsps (i + 1)) (any_dp_f32 dbps dgps dsps i))
      (fsub binary32 (FVal.fin 1) (any_dp_f32 dbps dgps dsps i)))
    (FVal.fin 0) (any_dp_f32 dbps dgps dsps 0) FVal.nan (H - 1) (by omega)
  exact ⟨hlen, hzero, fun i hi => hdone i (by omega)⟩

/-- The float quotient `(b - a) / (1 - a)` for floats `a` and `b` of the unit
interval.  For `a < 1` it is a finite float, at most `1`, with the sign of `b - a`;
for `a = 1` the division is by zero and gives `NaN` (`b = 1`) or `-inf` (`b < 1`). -/
theorem hazard_quotient_f32 (qa qb : ℚ) (hqa0 : 0 ≤ qa) (hqa1 : qa ≤ 1) (hqb0 : 0 ≤ qb)
    (hqb1 : qb ≤ 1) :
    (rnd_val binary32 qa < 1 →
      ∃ r : ℚ,
        fdiv binary32
          (fsub binary32 (FVal.fin (rnd_val binary32 qb)) (FVal.fin (rnd_val binary32 qa)))
          (fsub binary32 (FVal.fin 1) (FVal.fin (rnd_val binary32 qa))) = FVal.fin r ∧
        r ≤ 1 ∧ (0 ≤ r ↔ rnd_val binary32 qa ≤ rnd_val binary32 qb) ∧
        (r < 0 ↔ rnd_val binary32 qb < rnd_val binary32 qa)) ∧
    (rnd_val binary32 qa = 1 → rnd_val binary32 qb = 1 →
      fdiv binary32
        (fsub binary32 (FVal.fin (rnd_val binary32 qb)) (FVal.fin (rnd_val binary32 qa)))
        (fsub binary32 (FVal.fin 1) (FVal.fin (rnd_val binary32 qa))) = FVal.nan) ∧
    (rnd_val binary32 qa = 1 → rnd_val binary32 qb < 1 →
      fdiv binary32
        (fsub binary32 (FVal.fin (rnd_val binary32 qb)) (FVal.fin (rnd_val binary32 qa)))
        (fsub binary32 (FVal.fin 1) (FVal.fin (rnd_val binary32 qa))) = FVal.ninf) := by
  obtain ⟨_, ha0, ha1⟩ := rnd_unit qa hqa0 hqa1
  obtain ⟨_, hb0, hb1⟩ := rnd_unit qb hqb0 hqb1
  have hu : (0 : ℚ) < (2 : ℚ) ^ (binary32.emin - ((binary32.prec : ℤ) - 1)) := two_zpow_pos _
  have enum : rnd binary32 (rnd_val binary32 qb - rnd_val binary32 qa)
      = FVal.fin (rnd_val binary32 (rnd_val binary32 qb - rnd_val binary32 qa)) :=
    rnd_binary32_fin _ (by
      rw [abs_le]
      constructor <;> norm_num <;> linarith)
  have hnum1 : rnd_val binary32 (rnd_val binary32 qb - rnd_val binary32 qa) ≤ 1 :=
    rnd_val_binary32_le_one _ (by linarith) (by linarith)
  have hnum0 : -1 ≤ rnd_val binary32 (rnd_val binary32 qb - rnd_val binary32 qa) :=
    neg_one_le_rnd_val_binary32 _ (by linarith) (by linarith)
  obtain ⟨eden, hd0, hd1⟩ := rnd_unit (1 - rnd_val binary32 qa) (by linarith) (by linarith)
  refine ⟨fun hlt => ?_, fun h1 h2 => ?_, fun h1 h2 => ?_⟩
  · have hale := rnd_val_lt_one qa hqa0 hlt
    have hden : 1 / 2 ^ 24 ≤ rnd_val binary32 (1 - rnd_val binary32 qa) := by
      have := rnd_val_ge_pow (1 - rnd_val binary32 qa) (-24) (by norm_num)
        (by norm_num; linarith)
      norm_num at this ⊢
      linarith
    have hdpos : 0 < rnd_val binary32 (1 - rnd_val binary32 qa) :=
      lt_of_lt_of_le (by norm_num) hden
    have hquot : |rnd_val binary32 (rnd_val binary32 qb - rnd_val binary32 qa)
        / rnd_val binary32 (1 - rnd_val binary32 qa)| ≤ (2 : ℚ) ^ (24 : ℤ) := by
      rw [abs_div, abs_of_pos hdpos, div_le_iff₀ hdpos]
      have habs : |rnd_val binary32 (rnd_val binary32 qb - rnd_val binary32 qa)| ≤ 1 :=
        abs_le.mpr ⟨hnum0, hnum1⟩
      have : (1 : ℚ) ≤ (2 : ℚ) ^ (24 : ℤ) * rnd_val binary32 (1 - rnd_val binary32 qa) := by
        have := mul_le_mul_of_nonneg_left hden (show (0 : ℚ) ≤ (2 : ℚ) ^ (24 : ℤ) by norm_num)
        norm_num at this ⊢
        linarith
      linarith
    refine ⟨rnd_val binary32 (rnd_val binary32 (rnd_val binary32 qb - rnd_val binary32 qa)
        / rnd_val binary32 (1 - rnd_val binary32 qa)), ?_, ?_⟩
    · simp only [fsub, fdiv, enum, eden, if_neg (ne_of_gt hdpos)]
      exact rnd_binary32_fin _ hquot
    · rcases le_or_lt (rnd_val binary32 qa) (rnd_val binary32 qb) with hab | hba
      · have hn0 : 0 ≤ rnd_val binary32 (rnd_val binary32 qb - rnd_val binary32 qa) :=
          rnd_val_nonneg binary32 _ (by linarith)
        have hmono : rnd_val binary32 (rnd_val binary32 qb - rnd_val binary32 qa)
            ≤ rnd_val binary32 (1 - rnd_val binary32 qa) :=
          rnd_val_mono binary32 binary32_prec_pos _ _ (by linarith) (by linarith)
        have hq0 : 0 ≤ rnd_val binary32 (rnd_val binary32 qb - rnd_val binary32 qa)
            / rnd_val binary32 (1 - rnd_val binary32 qa) := div_nonneg hn0 hd0
        have hq1 : rnd_val binary32 (rnd_val binary32 qb - rnd_val binary32 qa)
            / rnd_val binary32 (1 - rnd_val binary32 qa) ≤ 1 := (div_le_one hdpos).mpr hmono
        have hr0 := rnd_val_nonneg binary32 _ hq0
        have hr1 := rnd_val_binary32_le_one _ (by linarith) hq1
        exact ⟨hr1, ⟨fun _ => hab, fun _ => hr0⟩,
          ⟨fun h => absurd hr0 (not_le.mpr h), fun h => absurd hab (not_le.mpr h)⟩⟩
      · have hneg := rnd_val_sub_neg binary32 binary32_prec_pos qb qa hba
        have hqle : rnd_val binary32 (rnd_val binary32 qb - rnd_val binary32 qa)
            / rnd_val binary32 (1 - rnd_val binary32 qa)
            ≤ -(2 : ℚ) ^ (binary32.emin - ((binary32.prec : ℤ) - 1)) := by
          rw [div_le_iff₀ hdpos]
          nlinarith
        have hr := rnd_val_le_neg_min binary32 binary32_prec_pos _ hqle
        have hrneg : rnd_val binary32 (rnd_val binary32 (rnd_val binary32 qb - rnd_val binary32 qa)
            / rnd_val binary32 (1 - rnd_val binary32 qa)) < 0 := by linarith
        exact ⟨by linarith, ⟨fun h => absurd h (not_le.mpr hrneg), fun h => absurd hba (not_lt.mpr h)⟩,
          ⟨fun _ => hba, fun _ => hrneg⟩⟩
  · rw [h1, h2]
    simp [fsub, fdiv, rnd_zero]
  · have hneg := rnd_val_sub_neg binary32 binary32_prec_pos qb qa (by rw [h1]; exact h2)
    have hnlt : rnd_val binary32 (rnd_val binary32 qb - rnd_val binary32 qa) < 0 := by linarith
    simp only [fsub, fdiv, enum]
    rw [h1, sub_self, rnd_zero]
    simp only [if_true, if_neg (ne_of_lt hnlt), if_neg (not_lt.mpr (le_of_lt hnlt))]
    rw [← h1]
    simp [if_neg (ne_of_lt hnlt), if_neg (not_lt.mpr (le_of_lt hnlt))]

/-- C21, as amended: for brake, gas and steer-override probabilities in `[0, 1]`,
the row `dp_ind` computed by `fill_confidence` has `dp_ind[0] = any_dp[0]`, a float
with `0 <= dp_ind[0] <= 1`, and for every `h` with `h + 1 < DISENGAGE_LEN` the
cumulative values `any_dp[h]` and `any_dp[h+1]` are floats such that: if
`any_dp[h] < 1` then `dp_ind[h+1]` is a finite float with `dp_ind[h+1] <= 1`,
`dp_ind[h+1] >= 0` if and only if `any_dp[h+1] >= any_dp[h]`, and `dp_ind[h+1] < 0`
if and only if `any_dp[h+1] < any_dp[h]`; if `any_dp[h]` is `1.0f` then the division
is by zero and `dp_ind[h+1]` is `NaN` (for `any_dp[h+1] = 1`) or `-inf` (for
`any_dp[h+1] < 1`). -/
theorem dp_ind_f32_range (DISENGAGE_LEN : Nat) (dbps dgps dsps : List ℚ)
    (hb : ∀ h, h < DISENGAGE_LEN → 0 ≤ rd dbps h ∧ rd dbps h ≤ 1)
    (hg : ∀ h, h < DISENGAGE_LEN → 0 ≤ rd dgps h ∧ rd dgps h ≤ 1)
    (hs : ∀ h, h < DISENGAGE_LEN → 0 ≤ rd dsps h ∧ rd dsps h ≤ 1) :
    (0 < DISENGAGE_LEN →
      ∃ a : ℚ, (dp_ind_f32 DISENGAGE_LEN dbps dgps dsps).getD 0 FVal.nan = FVal.fin a ∧
        any_dp_f32 dbps dgps dsps 0 = FVal.fin a ∧ 0 ≤ a ∧ a ≤ 1) ∧
    ∀ h, h + 1 < DISENGAGE_LEN →
      ∃ a b : ℚ, any_dp_f32 dbps dgps dsps h = FVal.fin a ∧
        any_dp_f32 dbps dgps dsps (h + 1) = FVal.fin b ∧
        (a < 1 →
          ∃ r : ℚ, (dp_ind_f32 DISENGAGE_LEN dbps dgps dsps).getD (h + 1) FVal.nan = FVal.fin r ∧
            r ≤ 1 ∧ (0 ≤ r ↔ a ≤ b) ∧ (r < 0 ↔ b < a)) ∧
        (a = 1 → b = 1 →
          (dp_ind_f32 DISENGAGE_LEN dbps dgps dsps).getD (h + 1) FVal.nan = FVal.nan) ∧
        (a = 1 → b < 1 →
          (dp_ind_f32 DISENGAGE_LEN dbps dgps dsps).getD (h + 1) FVal.nan = FVal.ninf) := by
  constructor
  · intro hH
    obtain ⟨P, hP0, hP1, hany, _, _⟩ :=
      any_dp_f32_eq dbps dgps dsps 0 (hb 0 hH) (hg 0 hH) (hs 0 hH)
    obtain ⟨_, hA0, hA1⟩ := rnd_unit (1 - P) (by linarith) (by linarith)
    exact ⟨_, by rw [(dp_ind_f32_spec DISENGAGE_LEN dbps dgps dsps hH).2.1, hany], hany, hA0, hA1⟩
  · intro h hh
    obtain ⟨Pa, hPa0, hPa1, hanya, _, _⟩ :=
      any_dp_f32_eq dbps dgps dsps h (hb h (by omega)) (hg h (by omega)) (hs h (by omega))
    obtain ⟨Pb, hPb0, hPb1, hanyb, _, _⟩ :=
      any_dp_f32_eq dbps dgps dsps (h + 1) (hb _ hh) (hg _ hh) (hs _ hh)
    have hq := hazard_quotient_f32 (1 - Pa) (1 - Pb) (by linarith) (by linarith) (by linarith)
      (by linarith)
    refine ⟨_, _, hanya, hanyb, ?_⟩
    rw [(dp_ind_f32_spec DISENGAGE_LEN dbps dgps dsps (by omega)).2.2 h hh, hanya, hanyb]
    exact hq

theorem falling_probs_unit : ∀ h, h < 5 → 0 ≤ rd falling_probs h ∧ rd falling_probs h ≤ 1 :=
  fun h hh => by
    interval_cases h <;> simp [falling_probs, rd] <;> norm_num

/-- C21, witness: the probabilities `[0.5, 0.4, 0.3, 0.2, 0.1]` for brake, gas and
steering override. -/
theorem dp_ind_f32_range_witness :
    ∃ a b : ℚ, any_dp_f32 falling_probs falling_probs falling_probs 0 = FVal.fin a ∧
      any_dp_f32 falling_probs falling_probs falling_probs (0 + 1) = FVal.fin b ∧
      (a < 1 →
        ∃ r : ℚ, (dp_ind_f32 5 falling_probs falling_probs falling_probs).getD (0 + 1) FVal.nan
            = FVal.fin r ∧
          r ≤ 1 ∧ (0 ≤ r ↔ a ≤ b) ∧ (r < 0 ↔ b < a)) ∧
      (a = 1 → b = 1 →
        (dp_ind_f32 5 falling_probs falling_probs falling_probs).getD (0 + 1) FVal.nan
          = FVal.nan) ∧
      (a = 1 → b < 1 →
        (dp_ind_f32 5 falling_probs falling_probs falling_probs).getD (0 + 1) FVal.nan
          = FVal.ninf) :=
  (dp_ind_f32_range 5 falling_probs falling_probs falling_probs falling_probs_unit
    falling_probs_unit falling_probs_unit).2 0 (by decide)

theorem tiny_probs_eq (h : Nat) (hh : h < 5) : rd tiny_probs h = 1 / 2 ^ 30 := by
  interval_cases h <;> simp [tiny_probs, rd]

/-- The cumulative value of three probabilities `2^-30`: each `1 - 2^-30` rounds to
`1.0f`, so the value is `0`. -/
theorem any_dp_f32_tiny (h : Nat) (hh : h < 5) :
    any_dp_f32 tiny_probs tiny_probs tiny_probs h = FVal.fin 0 := by
  have h1 : rnd_val binary32 ((1 : ℚ) - 1 / 2 ^ 30) = 1 :=
    rnd_val_near_one _ (by norm_num) (by norm_num)
  have e1 : rnd binary32 ((1 : ℚ) - 1 / 2 ^ 30) = FVal.fin 1 := by
    rw [(rnd_unit _ (by norm_num) (by norm_num)).1, h1]
  have e2 : rnd binary32 ((1 : ℚ) * 1) = FVal.fin 1 := by
    rw [mul_one]
    exact rnd_binary32_one
  unfold any_dp_f32
  rw [tiny_probs_eq h hh]
  simp only [fsub, fmul, e1, e2, sub_self, rnd_zero]

/-- C21, counterexample: the floats `0.999f` and `2^-30` are strictly inside
`(0, 1)`.  With `0.999f` as every probability the row has `dp_ind[0] = 1.0f`, which
is not below `1`, and `dp_ind[1] = NaN`, which is neither below `1` nor ordered
against `0`; with `2^-30` as every probability it has `dp_ind[0] = 0`, which is not
above `0`. -/
theorem dp_ind_f32_out_of_range :
    0 < near_one ∧ near_one < 1 ∧
      (dp_ind_f32 5 near_one_probs near_one_probs near_one_probs).getD 0 FVal.nan
        = FVal.fin 1 ∧
      (dp_ind_f32 5 near_one_probs near_one_probs near_one_probs).getD 1 FVal.nan
        = FVal.nan ∧
      (dp_ind_f32 5 tiny_probs tiny_probs tiny_probs).getD 0 FVal.nan = FVal.fin 0 := by
  have hone : ∀ h, h < 5 →
      any_dp_f32 near_one_probs near_one_probs near_one_probs h = FVal.fin 1 := by
    intro h hh
    obtain ⟨a, d, ha, _, _, _, _, _, _, _, _, hhigh⟩ :=
      any_dp_f32_at near_one_probs near_one_probs near_one_probs h
        (near_one_probs_unit h hh) (near_one_probs_unit h hh) (near_one_probs_unit h hh)
    rw [ha, (hhigh ⟨near_one_probs_high h hh, near_one_probs_high h hh,
      near_one_probs_high h hh⟩).1]
  obtain ⟨_, hzero, hstep⟩ :=
    dp_ind_f32_spec 5 near_one_probs near_one_probs near_one_probs (by decide)
  obtain ⟨_, hzero2, _⟩ := dp_ind_f32_spec 5 tiny_probs tiny_probs tiny_probs (by decide)
  refine ⟨by norm_num [near_one], by norm_num [near_one], ?_, ?_, ?_⟩
  · rw [hzero, hone 0 (by decide)]
  · rw [hstep 0 (by decide), hone 0 (by decide), hone 1 (by decide)]
    simp [fsub, fdiv, rnd_zero]
  · rw [hzero2, any_dp_f32_tiny 0 (by decide)]

end Driving
